import Mathlib

/-!
# unifai-sdk-go: the tool dispatcher, the backend adapter and the request executor

A shallow embedding of `common/api.go`, `toolsapi.go` and `tools.go`.

* Go strings are byte sequences (`GoString`); nothing forces them to be valid UTF-8.
* The parts of the Go standard library the code calls (`encoding/json`, `net/url`,
  `net/http` headers, `fmt`) are modelled next to the code that uses them.  The IEEE-754
  conversions, `url.Parse` and the wording of library error messages are parameters
  (`StdLib`); the HTTP transport behind `client.Do` is a parameter (`RoundTrip`).
* `CallTools` is a step relation over the goroutines it spawns.
-/

namespace Unifai

/-! ## Go strings and integer formatting -/

/-- A Go `string`: a sequence of bytes. -/
abbrev GoString := List Nat

/-- The bytes of an ASCII literal. -/
def ascii (s : String) : GoString := s.data.map Char.toNat

/-- Digits of `n`, most significant first, pushed in front of `acc`. -/
def formatNatAux : Nat → Nat → GoString → GoString
  | 0, _, acc => acc
  | fuel + 1, n, acc =>
    if n < 10 then (48 + n) :: acc
    else formatNatAux fuel (n / 10) ((48 + n % 10) :: acc)

/-- Decimal rendering of a natural number (`strconv.Itoa` on a non-negative value). -/
def formatNat (n : Nat) : GoString := formatNatAux (n + 1) n []

/-- The verb `%d` (and `%v`) on a Go `int`. -/
def formatInt : Int → GoString
  | .ofNat n => formatNat n
  | .negSucc n => 45 :: formatNat (n + 1)

/-- Bytewise comparison of strings, the order of `sort.Strings`. -/
def bytesLt : GoString → GoString → Bool
  | _, [] => false
  | [], _ :: _ => true
  | a :: as, b :: bs => if a < b then true else if b < a then false else bytesLt as bs

/-- Insert a keyed entry into a list sorted by key; equal keys keep their order. -/
def insertByKey {α : Type} (kv : GoString × α) : List (GoString × α) → List (GoString × α)
  | [] => [kv]
  | x :: xs => if bytesLt kv.1 x.1 then kv :: x :: xs else x :: insertByKey kv xs

/-- Entries sorted by key (stable insertion sort). -/
def sortByKey {α : Type} : List (GoString × α) → List (GoString × α)
  | [] => []
  | x :: xs => insertByKey x (sortByKey xs)

/-- Assignment `m[k] = v` on a Go map kept as an association list: an existing key keeps
its place and takes the new value, a new key is added. -/
def mapSet {α : Type} : List (GoString × α) → GoString → α → List (GoString × α)
  | [], k, v => [(k, v)]
  | (k0, v0) :: rest, k, v => if k0 = k then (k0, v) :: rest else (k0, v0) :: mapSet rest k v

/-- Lookup `m[k]` on a Go map kept as an association list. -/
def mapGet {α : Type} : List (GoString × α) → GoString → Option α
  | [], _ => none
  | (k0, v0) :: rest, k => if k0 = k then some v0 else mapGet rest k

/-- Concatenation with a separator (`strings.Join`). -/
def joinWith (sep : GoString) : List GoString → GoString
  | [] => []
  | [x] => x
  | x :: y :: rest => x ++ sep ++ joinWith sep (y :: rest)

/-! ## UTF-8 (`unicode/utf8`) -/

/-- The replacement rune U+FFFD. -/
def RuneError : Nat := 0xFFFD

/-- The least second byte after the first byte `p0` (`acceptRanges`). -/
def acceptLo (p0 : Nat) : Nat := if p0 = 0xE0 then 0xA0 else if p0 = 0xF0 then 0x90 else 0x80

/-- The greatest second byte after the first byte `p0` (`acceptRanges`). -/
def acceptHi (p0 : Nat) : Nat := if p0 = 0xED then 0x9F else if p0 = 0xF4 then 0x8F else 0xBF

/-- The rune at the front of `p` and its width in bytes (`utf8.DecodeRune`); an invalid or
truncated encoding yields `(RuneError, 1)`, the empty input `(RuneError, 0)`. -/
def DecodeRune : GoString → Nat × Nat
  | [] => (RuneError, 0)
  | p0 :: rest =>
    if p0 < 0x80 then (p0, 1)
    else if p0 < 0xC2 ∨ 0xF4 < p0 then (RuneError, 1)
    else
      match rest with
      | [] => (RuneError, 1)
      | b1 :: rest1 =>
        if b1 < acceptLo p0 ∨ acceptHi p0 < b1 then (RuneError, 1)
        else if p0 < 0xE0 then ((p0 % 32) * 64 + b1 % 64, 2)
        else
          match rest1 with
          | [] => (RuneError, 1)
          | b2 :: rest2 =>
            if b2 < 0x80 ∨ 0xBF < b2 then (RuneError, 1)
            else if p0 < 0xF0 then ((p0 % 16) * 4096 + (b1 % 64) * 64 + b2 % 64, 3)
            else
              match rest2 with
              | [] => (RuneError, 1)
              | b3 :: _ =>
                if b3 < 0x80 ∨ 0xBF < b3 then (RuneError, 1)
                else ((p0 % 8) * 262144 + (b1 % 64) * 4096 + (b2 % 64) * 64 + b3 % 64, 4)

/-- The UTF-8 encoding of a rune (`utf8.EncodeRune`); surrogates and values past U+10FFFF
encode as U+FFFD. -/
def EncodeRune (r : Nat) : GoString :=
  if r ≤ 0x7F then [r]
  else if r ≤ 0x7FF then [0xC0 + r / 64, 0x80 + r % 64]
  else if 0x10FFFF < r ∨ (0xD800 ≤ r ∧ r ≤ 0xDFFF) then [0xEF, 0xBF, 0xBD]
  else if r ≤ 0xFFFF then [0xE0 + r / 4096, 0x80 + r / 64 % 64, 0x80 + r % 64]
  else [0xF0 + r / 262144, 0x80 + r / 4096 % 64, 0x80 + r / 64 % 64, 0x80 + r % 64]

/-- A string coerced to valid UTF-8: every byte that does not start a valid encoding is
replaced by U+FFFD (what `encoding/json` does to the strings it encodes). -/
def toValidUTF8 : Nat → GoString → GoString
  | 0, _ => []
  | _ + 1, [] => []
  | fuel + 1, b :: rest =>
    if b < 0x80 then b :: toValidUTF8 fuel rest
    else if (DecodeRune (b :: rest)).2 = 1 then
      [0xEF, 0xBF, 0xBD] ++ toValidUTF8 fuel rest
    else
      (b :: rest).take (DecodeRune (b :: rest)).2
        ++ toValidUTF8 fuel (rest.drop ((DecodeRune (b :: rest)).2 - 1))

/-- The string is valid UTF-8 (`utf8.ValidString`). -/
def ValidUTF8 (s : GoString) : Prop := toValidUTF8 s.length s = s

instance (s : GoString) : Decidable (ValidUTF8 s) := by
  unfold ValidUTF8; infer_instance

/-! ## JSON string literals (`encoding/json`) -/

/-- The digit table `"0123456789abcdef"` of the encoder. -/
def hexDigit (n : Nat) : Nat := if n < 10 then 48 + n else 87 + n

/-- Bytes the encoder copies unescaped with `escapeHTML` on (`htmlSafeSet`). -/
def htmlSafe (b : Nat) : Bool :=
  decide (0x20 ≤ b ∧ b < 0x80 ∧ b ≠ 0x22 ∧ b ≠ 0x26 ∧ b ≠ 0x3C ∧ b ≠ 0x3E ∧ b ≠ 0x5C)

/-- The escape the encoder writes for an ASCII byte that is not `htmlSafe`. -/
def escapeByte (b : Nat) : GoString :=
  if b = 0x5C ∨ b = 0x22 then [0x5C, b]
  else if b = 0x08 then [0x5C, 0x62]
  else if b = 0x0C then [0x5C, 0x66]
  else if b = 0x0A then [0x5C, 0x6E]
  else if b = 0x0D then [0x5C, 0x72]
  else if b = 0x09 then [0x5C, 0x74]
  else [0x5C, 0x75, 0x30, 0x30, hexDigit (b / 16), hexDigit (b % 16)]

/-- The body of the JSON string literal for `src`, between the quotes (the loop of
`appendString` with `escapeHTML = true`). -/
def quoteBody : Nat → GoString → GoString
  | 0, _ => []
  | _ + 1, [] => []
  | fuel + 1, b :: rest =>
    if b < 0x80 then
      (if htmlSafe b then [b] else escapeByte b) ++ quoteBody fuel rest
    else if (DecodeRune (b :: rest)).2 = 1 then
      [0x5C, 0x75, 0x66, 0x66, 0x66, 0x64] ++ quoteBody fuel rest
    else if (DecodeRune (b :: rest)).1 = 0x2028 ∨ (DecodeRune (b :: rest)).1 = 0x2029 then
      [0x5C, 0x75, 0x32, 0x30, 0x32, hexDigit ((DecodeRune (b :: rest)).1 % 16)]
        ++ quoteBody fuel (rest.drop ((DecodeRune (b :: rest)).2 - 1))
    else
      (b :: rest).take (DecodeRune (b :: rest)).2
        ++ quoteBody fuel (rest.drop ((DecodeRune (b :: rest)).2 - 1))

/-- The JSON string literal for `src` (`appendString`). -/
def appendString (src : GoString) : GoString :=
  0x22 :: (quoteBody src.length src ++ [0x22])

/-- Value of a hexadecimal digit, either case. -/
def hexVal (c : Nat) : Option Nat :=
  if 48 ≤ c ∧ c ≤ 57 then some (c - 48)
  else if 97 ≤ c ∧ c ≤ 102 then some (c - 87)
  else if 65 ≤ c ∧ c ≤ 70 then some (c - 55)
  else none

/-- The code unit of a `\uXXXX` escape at the front of the input (`getu4`). -/
def getu4 : GoString → Option Nat
  | c0 :: c1 :: h1 :: h2 :: h3 :: h4 :: _ =>
    if c0 = 0x5C ∧ c1 = 0x75 then
      match hexVal h1, hexVal h2, hexVal h3, hexVal h4 with
      | some a, some b, some c, some d => some (a * 4096 + b * 256 + c * 16 + d)
      | _, _, _, _ => none
    else none
  | _ => none

/-- Code units in the surrogate range (`utf16.IsSurrogate`). -/
def isSurrogate (r : Nat) : Bool := decide (0xD800 ≤ r ∧ r < 0xE000)

/-- The rune of a surrogate pair, U+FFFD when the pair is not valid (`utf16.DecodeRune`). -/
def decodeSurrogates (r1 r2 : Nat) : Nat :=
  if 0xD800 ≤ r1 ∧ r1 < 0xDC00 ∧ 0xDC00 ≤ r2 ∧ r2 < 0xE000 then
    (r1 - 0xD800) * 1024 + (r2 - 0xDC00) + 0x10000
  else RuneError

/-- Put `pre` in front of the decoded text of a scan result. -/
def scanCons (pre : GoString) : Option (GoString × GoString) → Option (GoString × GoString)
  | none => none
  | some (s, rest) => some (pre ++ s, rest)

/-- Scan a JSON string literal whose opening quote has been consumed: the decoded text and
the input after the closing quote.  The scanner rejects raw control characters and unknown
escapes; `unquote` decodes escapes and coerces raw bytes to valid UTF-8. -/
def scanString : Nat → GoString → Option (GoString × GoString)
  | 0, _ => none
  | _ + 1, [] => none
  | fuel + 1, c :: rest =>
    if c = 0x22 then some ([], rest)
    else if c = 0x5C then
      match rest with
      | [] => none
      | e :: rest1 =>
        if e = 0x22 ∨ e = 0x5C ∨ e = 0x2F then scanCons [e] (scanString fuel rest1)
        else if e = 0x62 then scanCons [0x08] (scanString fuel rest1)
        else if e = 0x66 then scanCons [0x0C] (scanString fuel rest1)
        else if e = 0x6E then scanCons [0x0A] (scanString fuel rest1)
        else if e = 0x72 then scanCons [0x0D] (scanString fuel rest1)
        else if e = 0x74 then scanCons [0x09] (scanString fuel rest1)
        else if e = 0x75 then
          match getu4 (c :: rest) with
          | none => none
          | some rr =>
            if isSurrogate rr then
              match getu4 (rest1.drop 4) with
              | none => scanCons (EncodeRune RuneError) (scanString fuel (rest1.drop 4))
              | some rr1 =>
                if decodeSurrogates rr rr1 ≠ RuneError then
                  scanCons (EncodeRune (decodeSurrogates rr rr1))
                    (scanString fuel (rest1.drop 10))
                else scanCons (EncodeRune RuneError) (scanString fuel (rest1.drop 4))
            else scanCons (EncodeRune rr) (scanString fuel (rest1.drop 4))
        else none
    else if c < 0x20 then none
    else if c < 0x80 then scanCons [c] (scanString fuel rest)
    else
      scanCons (EncodeRune (DecodeRune (c :: rest)).1)
        (scanString fuel (rest.drop ((DecodeRune (c :: rest)).2 - 1)))

/-! ## Go values behind `interface{}` -/

/-- The dynamic values the code handles behind `interface{}`.  `F` carries `float64`.
`nil` is the nil interface; a nil map is a value of its map type, distinct from `nil` and
from the empty map. -/
inductive Value (F : Type) where
  | nil
  | bool (b : Bool)
  | float64 (f : F)
  | int (i : Int)
  | string (s : GoString)
  | slice (xs : List (Value F))
  | mapIface (m : List (GoString × Value F))
  | nilMapIface
  | mapString (m : List (GoString × GoString))
  | nilMapString
  | mapInt (m : List (GoString × Int))

/-- A parsed URL as far as the code looks at it: `String()` prints `head`, then `?` and the
raw query when there is one, then `tail` (the fragment with its `#`). -/
structure URL where
  head : GoString
  RawQuery : GoString
  ForceQuery : Bool
  tail : GoString
deriving DecidableEq

/-- What the Go standard library contributes and this development leaves open: the
conversions of `float64`, `url.Parse`, and the text of library error messages. -/
structure StdLib (F : Type) where
  /-- Conversion `strconv.ParseFloat(lit, 64)` on a JSON number literal; `none` on a range error. -/
  ParseFloat : GoString → Option F
  /-- The verb `%v` on a `float64`. -/
  FormatFloat : F → GoString
  /-- The JSON encoder on a `float64`; it fails on NaN and the infinities. -/
  MarshalFloat : F → Except GoString GoString
  /-- The parser `url.Parse`. -/
  urlParse : GoString → Except GoString URL
  /-- Message of the error `encoding/json` reports for an input it does not accept. -/
  jsonError : GoString → GoString
  /-- Message of the error `Decoder.Decode` reports, from the bytes the body delivered and
  the read error that ended it, if one did. -/
  decodeError : GoString → Option GoString → GoString
  /-- Message of the error `http.NewRequestWithContext` reports for an invalid method. -/
  methodError : GoString → GoString

/-! ## JSON decoding (`encoding/json`) -/

/-- JSON white space. -/
def isSpace (c : Nat) : Bool := decide (c = 0x20 ∨ c = 0x09 ∨ c = 0x0D ∨ c = 0x0A)

/-- Drop leading white space. -/
def skipSpace : GoString → GoString
  | [] => []
  | c :: rest => if isSpace c then skipSpace rest else c :: rest

/-- An ASCII decimal digit. -/
def isDigit (c : Nat) : Bool := decide (48 ≤ c ∧ c ≤ 57)

/-- The leading run of digits and what follows it. -/
def spanDigits : GoString → GoString × GoString
  | [] => ([], [])
  | c :: rest => if isDigit c then ((c :: (spanDigits rest).1), (spanDigits rest).2) else ([], c :: rest)

/-- The integer part of a number literal: `0`, or a non-zero digit and more digits. -/
def scanIntPart : GoString → Option (GoString × GoString)
  | [] => none
  | c :: rest =>
    if c = 48 then some ([48], rest)
    else if isDigit c then some (c :: (spanDigits rest).1, (spanDigits rest).2)
    else none

/-- The optional fraction of a number literal. -/
def scanFraction : GoString → Option (GoString × GoString)
  | [] => some ([], [])
  | c :: rest =>
    if c = 0x2E then
      (if (spanDigits rest).1 = [] then none else some (c :: (spanDigits rest).1, (spanDigits rest).2))
    else some ([], c :: rest)

/-- The optional exponent of a number literal. -/
def scanExponent : GoString → Option (GoString × GoString)
  | [] => some ([], [])
  | c :: rest =>
    if c = 0x65 ∨ c = 0x45 then
      match rest with
      | [] => none
      | s :: rest1 =>
        if s = 0x2B ∨ s = 0x2D then
          (if (spanDigits rest1).1 = [] then none
           else some (c :: s :: (spanDigits rest1).1, (spanDigits rest1).2))
        else if (spanDigits rest).1 = [] then none
        else some (c :: (spanDigits rest).1, (spanDigits rest).2)
    else some ([], c :: rest)

/-- A JSON number literal at the front of the input, and what follows it. -/
def scanNumber (s : GoString) : Option (GoString × GoString) :=
  let sign : GoString := match s with
    | c :: _ => if c = 0x2D then [0x2D] else []
    | [] => []
  match scanIntPart (s.drop sign.length) with
  | none => none
  | some (ip, r1) =>
    match scanFraction r1 with
    | none => none
    | some (fp, r2) =>
      match scanExponent r2 with
      | none => none
      | some (ep, r3) => some (sign ++ ip ++ fp ++ ep, r3)

/-- The deepest nesting of arrays and objects the scanner accepts. -/
def maxNestingDepth : Nat := 10000

mutual
/-- Decode the JSON value at the front of the input into an `interface{}`: objects become
`map[string]interface{}`, arrays `[]interface{}`, numbers `float64`.  `depth` counts the
enclosing arrays and objects. -/
def parseValue {F : Type} (L : StdLib F) : Nat → Nat → GoString → Option (Value F × GoString)
  | 0, _, _ => none
  | _ + 1, _, [] => none
  | fuel + 1, depth, c :: rest =>
    if c = 0x22 then
      match scanString (rest.length + 1) rest with
      | none => none
      | some (s, r) => some (.string s, r)
    else if c = 0x7B then
      if maxNestingDepth < depth + 1 then none
      else
        match skipSpace rest with
        | [] => none
        | d :: r => if d = 0x7D then some (.mapIface [], r) else parseMembers L fuel (depth + 1) [] (d :: r)
    else if c = 0x5B then
      if maxNestingDepth < depth + 1 then none
      else
        match skipSpace rest with
        | [] => none
        | d :: r => if d = 0x5D then some (.slice [], r) else parseElements L fuel (depth + 1) [] (d :: r)
    else if (c :: rest).take 4 = [0x74, 0x72, 0x75, 0x65] then some (.bool true, rest.drop 3)
    else if (c :: rest).take 5 = [0x66, 0x61, 0x6C, 0x73, 0x65] then some (.bool false, rest.drop 4)
    else if (c :: rest).take 4 = [0x6E, 0x75, 0x6C, 0x6C] then some (.nil, rest.drop 3)
    else
      match scanNumber (c :: rest) with
      | none => none
      | some (lit, r) =>
        match L.ParseFloat lit with
        | none => none
        | some f => some (.float64 f, r)
/-- The members of an object from the opening quote of a key on; a repeated key keeps the
last value. -/
def parseMembers {F : Type} (L : StdLib F) :
    Nat → Nat → List (GoString × Value F) → GoString → Option (Value F × GoString)
  | 0, _, _, _ => none
  | _ + 1, _, _, [] => none
  | fuel + 1, depth, acc, q :: r =>
    if q = 0x22 then
      match scanString (r.length + 1) r with
      | none => none
      | some (key, r1) =>
        match skipSpace r1 with
        | [] => none
        | colon :: r2 =>
          if colon = 0x3A then
            match parseValue L fuel depth (skipSpace r2) with
            | none => none
            | some (v, r3) =>
              match skipSpace r3 with
              | [] => none
              | d :: r4 =>
                if d = 0x2C then parseMembers L fuel depth (mapSet acc key v) (skipSpace r4)
                else if d = 0x7D then some (.mapIface (mapSet acc key v), r4)
                else none
          else none
    else none
/-- The elements of an array from the first byte of an element on. -/
def parseElements {F : Type} (L : StdLib F) :
    Nat → Nat → List (Value F) → GoString → Option (Value F × GoString)
  | 0, _, _, _ => none
  | fuel + 1, depth, acc, s =>
    match parseValue L fuel depth s with
    | none => none
    | some (v, r) =>
      match skipSpace r with
      | [] => none
      | d :: r1 =>
        if d = 0x2C then parseElements L fuel depth (acc ++ [v]) (skipSpace r1)
        else if d = 0x5D then some (.slice (acc ++ [v]), r1)
        else none
end

/-- The call `json.Unmarshal(data, &m)` with `m` a nil `map[string]interface{}`: the whole
input must be one JSON value; `null` leaves the map nil, an object fills it, anything else
is an error. -/
def Unmarshal {F : Type} (L : StdLib F) (data : GoString) : Except GoString (Value F) :=
  match parseValue L (data.length + 1) 0 (skipSpace data) with
  | none => .error (L.jsonError data)
  | some (v, rest) =>
    if skipSpace rest ≠ [] then .error (L.jsonError data)
    else
      match v with
      | .nil => .ok .nilMapIface
      | .mapIface m => .ok (.mapIface m)
      | _ => .error (L.jsonError data)

/-- The call `json.Unmarshal(data, &v)` with `v` an `interface{}`, as a reader of a tool
result's content would do it: the whole input must be one JSON value. -/
def UnmarshalAny {F : Type} (L : StdLib F) (data : GoString) : Option (Value F) :=
  match parseValue L (data.length + 1) 0 (skipSpace data) with
  | none => none
  | some (v, rest) => if skipSpace rest ≠ [] then none else some v

/-! ## JSON encoding (`json.Marshal`) and the verb `%v` -/

/-- The encoded members of an object in the order given, up to the first one whose value
failed to encode. -/
def encodeMembers : List (GoString × Except GoString GoString) → Except GoString (List GoString)
  | [] => .ok []
  | (k, v) :: rest =>
    match v with
    | .error e => .error e
    | .ok enc =>
      match encodeMembers rest with
      | .error e => .error e
      | .ok ps => .ok ((appendString k ++ [0x3A] ++ enc) :: ps)

/-- An object from its members, keys sorted. -/
def encodeObject (ms : List (GoString × Except GoString GoString)) : Except GoString GoString :=
  match encodeMembers (sortByKey ms) with
  | .error e => .error e
  | .ok ps => .ok ([0x7B] ++ joinWith [0x2C] ps ++ [0x7D])

/-- The encoded elements of an array, up to the first one that failed to encode. -/
def encodeElems : List (Except GoString GoString) → Except GoString (List GoString)
  | [] => .ok []
  | v :: rest =>
    match v with
    | .error e => .error e
    | .ok enc =>
      match encodeElems rest with
      | .error e => .error e
      | .ok ps => .ok (enc :: ps)

/-- An array from its elements. -/
def encodeArray (xs : List (Except GoString GoString)) : Except GoString GoString :=
  match encodeElems xs with
  | .error e => .error e
  | .ok ps => .ok ([0x5B] ++ joinWith [0x2C] ps ++ [0x5D])

mutual
/-- The call `json.Marshal(v)`: the encoding, or the message of the error. -/
def Marshal {F : Type} (L : StdLib F) : Value F → Except GoString GoString
  | .nil => .ok (ascii "null")
  | .bool b => .ok (if b then ascii "true" else ascii "false")
  | .float64 f => L.MarshalFloat f
  | .int i => .ok (formatInt i)
  | .string s => .ok (appendString s)
  | .slice xs => encodeArray (marshalElems L xs)
  | .mapIface m => encodeObject (marshalMembers L m)
  | .nilMapIface => .ok (ascii "null")
  | .mapString m => encodeObject (m.map fun kv => (kv.1, .ok (appendString kv.2)))
  | .nilMapString => .ok (ascii "null")
  | .mapInt m => encodeObject (m.map fun kv => (kv.1, .ok (formatInt kv.2)))
/-- The elements of a slice, each encoded. -/
def marshalElems {F : Type} (L : StdLib F) : List (Value F) → List (Except GoString GoString)
  | [] => []
  | x :: xs => Marshal L x :: marshalElems L xs
/-- The members of a map, each value encoded. -/
def marshalMembers {F : Type} (L : StdLib F) :
    List (GoString × Value F) → List (GoString × Except GoString GoString)
  | [] => []
  | (k, x) :: xs => (k, Marshal L x) :: marshalMembers L xs
end

/-- A map as `%v` prints it, from its members already rendered: keys sorted. -/
def fmtMap (ms : List (GoString × GoString)) : GoString :=
  ascii "map[" ++ joinWith [0x20] ((sortByKey ms).map fun kv => kv.1 ++ [0x3A] ++ kv.2) ++ [0x5D]

mutual
/-- The call `fmt.Sprintf("%v", v)`. -/
def fmtV {F : Type} (L : StdLib F) : Value F → GoString
  | .nil => ascii "<nil>"
  | .bool b => if b then ascii "true" else ascii "false"
  | .float64 f => L.FormatFloat f
  | .int i => formatInt i
  | .string s => s
  | .slice xs => [0x5B] ++ joinWith [0x20] (fmtElems L xs) ++ [0x5D]
  | .mapIface m => fmtMap (fmtMembers L m)
  | .nilMapIface => fmtMap []
  | .mapString m => fmtMap m
  | .nilMapString => fmtMap []
  | .mapInt m => fmtMap (m.map fun kv => (kv.1, formatInt kv.2))
/-- The elements of a slice, each rendered. -/
def fmtElems {F : Type} (L : StdLib F) : List (Value F) → List GoString
  | [] => []
  | x :: xs => fmtV L x :: fmtElems L xs
/-- The members of a map, each value rendered. -/
def fmtMembers {F : Type} (L : StdLib F) : List (GoString × Value F) → List (GoString × GoString)
  | [] => []
  | (k, x) :: xs => (k, fmtV L x) :: fmtMembers L xs
end

/-! ## Query strings (`net/url`) -/

/-- The type `url.Values`: each key with its values. -/
abbrev Values := List (GoString × List GoString)

/-- The call `v.Add(key, value)`. -/
def Values.Add (v : Values) (key value : GoString) : Values :=
  mapSet v key ((mapGet v key).getD [] ++ [value])

/-- Bytes `QueryEscape` copies: letters, digits, `-`, `_`, `.`, `~`. -/
def unreserved (c : Nat) : Bool :=
  decide ((48 ≤ c ∧ c ≤ 57) ∨ (65 ≤ c ∧ c ≤ 90) ∨ (97 ≤ c ∧ c ≤ 122)
    ∨ c = 0x2D ∨ c = 0x5F ∨ c = 0x2E ∨ c = 0x7E)

/-- The digit table `"0123456789ABCDEF"` of `net/url`. -/
def upperHex (n : Nat) : Nat := if n < 10 then 48 + n else 55 + n

/-- One byte as `url.QueryEscape` writes it. -/
def escapeQueryByte (c : Nat) : GoString :=
  if c = 0x20 then [0x2B]
  else if unreserved c then [c]
  else [0x25, upperHex (c / 16), upperHex (c % 16)]

/-- The call `url.QueryEscape(s)`. -/
def QueryEscape : GoString → GoString
  | [] => []
  | c :: rest => escapeQueryByte c ++ QueryEscape rest

/-- The call `url.QueryUnescape(s)`; `none` on a malformed `%` escape. -/
def QueryUnescape : GoString → Option GoString
  | [] => some []
  | c :: rest =>
    if c = 0x25 then
      match rest with
      | h1 :: h2 :: rest2 =>
        match hexVal h1, hexVal h2, QueryUnescape rest2 with
        | some a, some b, some r => some ((a * 16 + b) :: r)
        | _, _, _ => none
      | _ => none
    else
      match QueryUnescape rest with
      | none => none
      | some r => some ((if c = 0x2B then 0x20 else c) :: r)

/-- The pieces of a string between occurrences of a separator byte. -/
def splitOn (sep : Nat) : GoString → List GoString
  | [] => [[]]
  | c :: rest =>
    if c = sep then [] :: splitOn sep rest
    else
      match splitOn sep rest with
      | [] => [[c]]
      | p :: ps => (c :: p) :: ps

/-- What stands before and after the first occurrence of a byte (`strings.Cut`). -/
def cut (sep : Nat) : GoString → GoString × GoString
  | [] => ([], [])
  | c :: rest => if c = sep then ([], rest) else (c :: (cut sep rest).1, (cut sep rest).2)

/-- The call `url.ParseQuery(query)` with its error dropped, as `URL.Query` does: a setting
with a semicolon, an empty key or a malformed escape is skipped. -/
def ParseQuery (query : GoString) : Values :=
  (splitOn 0x26 query).foldl
    (fun m piece =>
      if 0x3B ∈ piece ∨ piece = [] then m
      else
        match QueryUnescape (cut 0x3D piece).1, QueryUnescape (cut 0x3D piece).2 with
        | some key, some value => Values.Add m key value
        | _, _ => m)
    []

/-- The call `v.Encode()`: `key=value` settings joined by `&`, sorted by key. -/
def Values.Encode (v : Values) : GoString :=
  joinWith [0x26]
    ((sortByKey v).flatMap fun kv => kv.2.map fun x => QueryEscape kv.1 ++ [0x3D] ++ QueryEscape x)

/-- The call `u.String()`. -/
def URL.String (u : URL) : GoString :=
  u.head ++ (if u.ForceQuery = true ∨ u.RawQuery ≠ [] then 0x3F :: u.RawQuery else []) ++ u.tail

/-! ## Header maps (`net/http`, `net/textproto`) -/

/-- Token bytes of RFC 7230: the bytes of a header field name and of a method. -/
def validHeaderFieldByte (c : Nat) : Bool :=
  decide ((48 ≤ c ∧ c ≤ 57) ∨ (65 ≤ c ∧ c ≤ 90) ∨ (97 ≤ c ∧ c ≤ 122)
    ∨ c = 0x21 ∨ c = 0x23 ∨ c = 0x24 ∨ c = 0x25 ∨ c = 0x26 ∨ c = 0x27 ∨ c = 0x2A ∨ c = 0x2B
    ∨ c = 0x2D ∨ c = 0x2E ∨ c = 0x5E ∨ c = 0x5F ∨ c = 0x60 ∨ c = 0x7C ∨ c = 0x7E)

/-- Upper case at the start and after each dash, lower case elsewhere. -/
def canonicalize : Bool → GoString → GoString
  | _, [] => []
  | upper, c :: rest =>
    if upper = true ∧ 97 ≤ c ∧ c ≤ 122 then (c - 32) :: canonicalize false rest
    else if upper = false ∧ 65 ≤ c ∧ c ≤ 90 then (c + 32) :: canonicalize false rest
    else c :: canonicalize (decide (c = 0x2D)) rest

/-- The call `textproto.CanonicalMIMEHeaderKey(s)`: a key with a byte that cannot stand in a
field name is returned as it is. -/
def CanonicalMIMEHeaderKey (s : GoString) : GoString :=
  if s.all validHeaderFieldByte then canonicalize true s else s

/-- The type `http.Header`. -/
abbrev Header := List (GoString × List GoString)

/-- The call `h.Set(key, value)`. -/
def Header.Set (h : Header) (key value : GoString) : Header :=
  mapSet h (CanonicalMIMEHeaderKey key) [value]

/-- The call `h.Get(key)`. -/
def Header.Get (h : Header) (key : GoString) : GoString :=
  match mapGet h (CanonicalMIMEHeaderKey key) with
  | some (v :: _) => v
  | _ => []

/-! ## `common/api.go`: the request executor -/

/-- The struct `APIConfig`. -/
structure APIConfig where
  APIKey : GoString
  Endpoint : GoString
deriving DecidableEq

/-- The struct `API` (its `http.Client` is the zero client and is not kept). -/
structure API where
  apiKey : GoString
  apiURI : GoString
deriving DecidableEq

/-- The function `NewAPI`. -/
def NewAPI (config : APIConfig) : API :=
  { apiKey := config.APIKey, apiURI := config.Endpoint }

/-- The method `SetEndpoint`. -/
def API.SetEndpoint (a : API) (endpoint : GoString) : API :=
  { a with apiURI := endpoint }

/-- The struct `RequestOptions`.  `Timeout` is a `time.Duration` in nanoseconds; `Headers`
lists the map in the order the `range` loop visits it (ranging over a nil map visits
nothing); `Params` is `none` for a nil map; `JSON` is `Value.nil` for a nil interface. -/
structure RequestOptions (F : Type) where
  Timeout : Int
  Headers : List (GoString × GoString)
  Params : Option (List (GoString × GoString))
  JSON : Value F

/-- What `client.Do` is handed: method, URL, headers, body, and the deadline of the context
as a duration from the start of `Request`. -/
structure HTTPRequest where
  Method : GoString
  URL : GoString
  Header : Header
  Body : Option GoString
  Timeout : Int
deriving DecidableEq

/-- What `client.Do` hands back: the status code and the body, a stream that delivers
`Body` and then ends, cleanly (`none`) or with a read error. -/
structure Response where
  StatusCode : Int
  Body : GoString
  ReadErr : Option GoString
deriving DecidableEq

/-- The transport behind `client.Do`: a response, or the message of its error. -/
abbrev RoundTrip := HTTPRequest → Except GoString Response

/-- A call's `(value, error)` result together with the requests it handed to `client.Do`. -/
structure Outcome (α : Type) where
  result : Except GoString α
  sent : List HTTPRequest

/-- The constant `time.Second`. -/
def Second : Int := 1000000000

/-- The call `http.NewRequestWithContext(ctx, method, url, body)`: an empty method means
GET, the method must be a token and the URL must parse; the header map starts empty. -/
def NewRequestWithContext {F : Type} (L : StdLib F) (timeout : Int) (method url : GoString)
    (body : Option GoString) : Except GoString HTTPRequest :=
  let m := if method = [] then ascii "GET" else method
  if m.all validHeaderFieldByte = false then .error (L.methodError m)
  else
    match L.urlParse url with
    | .error e => .error e
    | .ok _ => .ok { Method := m, URL := url, Header := [], Body := body, Timeout := timeout }

/-- An array or an object: a value the stream decoder knows to be complete at its closing
bracket, without looking at the next byte. -/
def selfDelimited {F : Type} : Value F → Bool
  | .slice _ => true
  | .mapIface _ => true
  | _ => false

/-- The call `json.NewDecoder(resp.Body).Decode(&result)`: the first JSON value of the
stream; what follows it is not looked at. -/
def Decode {F : Type} (L : StdLib F) (resp : Response) : Except GoString (Value F) :=
  match parseValue L (resp.Body.length + 1) 0 (skipSpace resp.Body) with
  | none => .error (L.decodeError resp.Body resp.ReadErr)
  | some (v, rest) =>
    if selfDelimited v = true ∨ rest ≠ [] ∨ resp.ReadErr = none then .ok v
    else .error (L.decodeError resp.Body resp.ReadErr)

/-- The query the request is sent with: with `Params` set, the query of the parsed URL with
every parameter added, encoded afresh. -/
def withParams (fullURL : URL) (params : Option (List (GoString × GoString))) : URL :=
  match params with
  | none => fullURL
  | some ps =>
    { fullURL with
      RawQuery := Values.Encode
        (ps.foldl (fun q kv => Values.Add q kv.1 kv.2) (ParseQuery fullURL.RawQuery)) }

/-- The test `v == nil` on an `interface{}`. -/
def Value.isNil {F : Type} : Value F → Bool
  | .nil => true
  | _ => false

/-- The request body: none for a nil `JSON`, else its encoding. -/
def prepareBody {F : Type} (L : StdLib F) (json : Value F) : Except GoString (Option GoString) :=
  if json.isNil = true then .ok none
  else
    match Marshal L json with
    | .error e => .error e
    | .ok jsonData => .ok (some jsonData)

/-- The headers `Request` puts on a fresh request: the content type when there is a body,
the API key when there is one and no `Authorization` is set yet, then the caller's. -/
def setHeaders (a : API) (hasJSON : Bool) (headers : List (GoString × GoString))
    (req : HTTPRequest) : HTTPRequest :=
  let h1 := if hasJSON = true then
      Header.Set req.Header (ascii "Content-Type") (ascii "application/json")
    else req.Header
  let h2 := if a.apiKey ≠ [] ∧ Header.Get h1 (ascii "Authorization") = [] then
      Header.Set h1 (ascii "Authorization") a.apiKey
    else h1
  { req with Header := headers.foldl (fun h kv => Header.Set h kv.1 kv.2) h2 }

/-- The message `fmt.Errorf("HTTP error! status: %d, body: %s", code, body)`. -/
def httpStatusError (code : Int) (body : GoString) : GoString :=
  ascii "HTTP error! status: " ++ formatInt code ++ ascii ", body: " ++ body

/-- What `Request` makes of a response: outside the 2xx range the body is read, the read
error dropped, and the status error returned; inside it the body is decoded. -/
def handleResponse {F : Type} (L : StdLib F) (resp : Response) : Except GoString (Value F) :=
  if resp.StatusCode < 200 ∨ resp.StatusCode ≥ 300 then
    .error (httpStatusError resp.StatusCode resp.Body)
  else
    match Decode L resp with
    | .error e => .error (ascii "failed to decode response: " ++ e)
    | .ok result => .ok result

/-- The request `Request` builds, up to the call of `client.Do`. -/
def buildRequest {F : Type} (L : StdLib F) (a : API) (method path : GoString)
    (options : RequestOptions F) : Except GoString HTTPRequest :=
  let timeout := if options.Timeout = 0 then 10 * Second else options.Timeout
  match L.urlParse (a.apiURI ++ path) with
  | .error e => .error (ascii "failed to parse URL: " ++ e)
  | .ok fullURL =>
    match prepareBody L options.JSON with
    | .error e => .error (ascii "failed to marshal JSON: " ++ e)
    | .ok body =>
      match NewRequestWithContext L timeout method (withParams fullURL options.Params).String
          body with
      | .error e => .error (ascii "failed to create request: " ++ e)
      | .ok req => .ok (setHeaders a (!options.JSON.isNil) options.Headers req)

/-- The method `API.Request`. -/
def API.Request {F : Type} (L : StdLib F) (Do : RoundTrip) (a : API) (method path : GoString)
    (options : RequestOptions F) : Outcome (Value F) :=
  match buildRequest L a method path options with
  | .error e => { result := .error e, sent := [] }
  | .ok req =>
    match Do req with
    | .error e => { result := .error (ascii "request failed: " ++ e), sent := [req] }
    | .ok resp => { result := handleResponse L resp, sent := [req] }

/-! ## `common/const.go` and `toolsapi.go`: the backend adapter -/

/-- The constant `BACKEND_API_ENDPOINT`. -/
def BACKEND_API_ENDPOINT : GoString := ascii "https://backend.unifai.network/api/v1"

/-- The function `NewToolsAPI`. -/
def NewToolsAPI (config : APIConfig) : API :=
  NewAPI (if config.Endpoint = [] then { config with Endpoint := BACKEND_API_ENDPOINT } else config)

/-- The options `SearchTools` passes to `Request`. -/
def searchOptions {F : Type} (args : Option (List (GoString × GoString))) : RequestOptions F :=
  { Timeout := 0, Headers := [], Params := args, JSON := .nil }

/-- The options `ToolsAPI.CallTool` passes to `Request`. -/
def callOptions {F : Type} (args : Value F) : RequestOptions F :=
  { Timeout := 50 * Second, Headers := [], Params := none, JSON := args }

/-- The method `ToolsAPI.SearchTools`. -/
def ToolsAPI.SearchTools {F : Type} (L : StdLib F) (Do : RoundTrip) (t : API)
    (args : Option (List (GoString × GoString))) : Outcome (Value F) :=
  t.Request L Do (ascii "GET") (ascii "/actions/search") (searchOptions args)

/-- The method `ToolsAPI.CallTool`. -/
def ToolsAPI.CallTool {F : Type} (L : StdLib F) (Do : RoundTrip) (t : API) (args : Value F) :
    Outcome (Value F) :=
  t.Request L Do (ascii "POST") (ascii "/actions/call") (callOptions args)

/-! ## `tools.go`: the tool dispatcher -/

/-- The constant `SEARCH_TOOLS`. -/
def SEARCH_TOOLS : GoString := ascii "search_services"

/-- The constant `CALL_TOOL`. -/
def CALL_TOOL : GoString := ascii "invoke_service"

/-- The struct `ToolsConfig`. -/
structure ToolsConfig where
  APIKey : GoString
  CallToolsConcurrency : Int
deriving DecidableEq

/-- The struct `Tools` (the two fixed tool descriptors are not kept). -/
structure Tools where
  api : API
  concurrency : Int
deriving DecidableEq

/-- The function `NewTools`. -/
def NewTools (config : ToolsConfig) : Tools :=
  { api := NewToolsAPI { APIKey := config.APIKey, Endpoint := [] }
    concurrency := if config.CallToolsConcurrency < 1 then 1 else config.CallToolsConcurrency }

/-- The method `SetAPIEndpoint`. -/
def Tools.SetAPIEndpoint (t : Tools) (endpoint : GoString) : Tools :=
  { t with api := t.api.SetEndpoint endpoint }

/-- The type switch at the head of `CallTool`: a string is unmarshalled into a
`map[string]interface{}`, any other value is kept. -/
def decodeArgs {F : Type} (L : StdLib F) (args : Value F) : Except GoString (Value F) :=
  match args with
  | .string v =>
    match Unmarshal L v with
    | .error e => .error (ascii "failed to unmarshal args: " ++ e)
    | .ok m => .ok m
  | v => .ok v

/-- The loop that renders every value of a `map[string]interface{}` with `%v`. -/
def stringifyParams {F : Type} (L : StdLib F) (m : List (GoString × Value F)) :
    List (GoString × GoString) :=
  m.foldl (fun paramsMap kv => mapSet paramsMap kv.1 (fmtV L kv.2)) []

/-- The method `Tools.CallTool`. -/
def Tools.CallTool {F : Type} (L : StdLib F) (Do : RoundTrip) (t : Tools) (name : GoString)
    (args : Value F) : Outcome (Value F) :=
  match decodeArgs L args with
  | .error e => { result := .error e, sent := [] }
  | .ok params =>
    if name = SEARCH_TOOLS then
      match params with
      | .mapIface m => ToolsAPI.SearchTools L Do t.api (some (stringifyParams L m))
      | .nilMapIface => ToolsAPI.SearchTools L Do t.api (some [])
      | .mapString m => ToolsAPI.SearchTools L Do t.api (some m)
      | .nilMapString => ToolsAPI.SearchTools L Do t.api none
      | _ =>
        { result := .error (ascii "invalid parameter type for " ++ SEARCH_TOOLS), sent := [] }
    else if name = CALL_TOOL then ToolsAPI.CallTool L Do t.api params
    else { result := .error (ascii "unknown tool name: " ++ name), sent := [] }

/-! ## `tools.go`: `CallTools` -/

/-- A tool call as `CallTools` reads it: `ID`, `Function.Name`, `Function.Arguments`. -/
structure ToolCall where
  ID : GoString
  Name : GoString
  Arguments : GoString
deriving DecidableEq

/-- The message `openai.ToolMessage(id, content)`. -/
structure ToolMessage where
  ToolCallID : GoString
  Content : GoString
deriving DecidableEq

/-- The value a goroutine serializes: the result of the call, or on failure the map
`{"error": err.Error()}`. -/
def resultOrError {F : Type} (r : Except GoString (Value F)) : Value F :=
  match r with
  | .error e => .mapIface [(ascii "error", .string e)]
  | .ok res => res

/-- The content written when `json.Marshal` fails: the error message put between the quotes
of the format `{"error": "%s"}`. -/
def fallbackContent (jsonErr : GoString) : GoString :=
  ascii "\x7b\"error\": \"" ++ jsonErr ++ ascii "\"\x7d"

/-- The content of a tool message from the outcome of `json.Marshal`. -/
def contentOf (marshalled : Except GoString GoString) : GoString :=
  match marshalled with
  | .ok contentBytes => contentBytes
  | .error jsonErr => fallbackContent jsonErr

/-- The body of one goroutine of `CallTools` between taking and giving back its slot: the
message it appends and the requests it sent. -/
def runToolCall {F : Type} (L : StdLib F) (Do : RoundTrip) (t : Tools) (toolCall : ToolCall) :
    ToolMessage × List HTTPRequest :=
  let out := t.CallTool L Do toolCall.Name (.string toolCall.Arguments)
  ({ ToolCallID := toolCall.ID, Content := contentOf (Marshal L (resultOrError out.result)) },
    out.sent)

/-- Where a goroutine of `CallTools` stands: not yet started by the loop; started and
waiting to send on `sem`; holding a slot with its call to do; message appended, slot
still held; slot given back; `wg.Done` called. -/
inductive Phase where
  | unspawned
  | blocked
  | holding
  | appended
  | released
  | done
deriving DecidableEq

/-- The shared state of one `CallTools` execution: the phase of every unit, the number of
elements in the channel `sem`, the slice `results`, and the requests sent so far. -/
structure PoolState where
  phases : List Phase
  sem : Nat
  results : List ToolMessage
  sent : List HTTPRequest
deriving DecidableEq

/-- One execution of `CallTools`: the dispatcher, the batch, and for every unit the
transport its request meets. -/
structure Batch (F : Type) where
  L : StdLib F
  t : Tools
  Do : Nat → RoundTrip
  toolCalls : List ToolCall

/-- The capacity of the channel `sem`. -/
def Batch.capacity {F : Type} (b : Batch F) : Nat := b.t.concurrency.toNat

/-- The message unit `i` appends and the requests it sends. -/
def Batch.unit {F : Type} (b : Batch F) (i : Nat) : Option (ToolMessage × List HTTPRequest) :=
  (b.toolCalls.get? i).map (runToolCall b.L (b.Do i) b.t)

/-- The state when the loop over the batch begins. -/
def Batch.init {F : Type} (b : Batch F) : PoolState :=
  { phases := b.toolCalls.map fun _ => Phase.unspawned, sem := 0, results := [], sent := [] }

/-- A unit holds a slot of `sem` from its send to its receive. -/
def Phase.holdsSlot : Phase → Bool
  | .holding => true
  | .appended => true
  | _ => false

/-- The number of units that hold a slot. -/
def PoolState.holders (s : PoolState) : Nat := s.phases.countP Phase.holdsSlot

/-- The next step of unit `i`, when it can take one: the loop starts the units in order; a
send on `sem` needs a free slot; the call and the append under the mutex follow; the
deferred receive frees the slot; `wg.Done` ends the unit. -/
def Batch.step {F : Type} (b : Batch F) (s : PoolState) (i : Nat) : Option PoolState :=
  match s.phases.get? i with
  | some .unspawned =>
    if (s.phases.take i).all (fun p => decide (p ≠ Phase.unspawned)) then
      some { s with phases := s.phases.set i .blocked }
    else none
  | some .blocked =>
    if s.sem < b.capacity then
      some { s with phases := s.phases.set i .holding, sem := s.sem + 1 }
    else none
  | some .holding =>
    match b.unit i with
    | some (message, reqs) =>
      some { s with phases := s.phases.set i .appended, results := s.results ++ [message],
                    sent := s.sent ++ reqs }
    | none => none
  | some .appended => some { s with phases := s.phases.set i .released, sem := s.sem - 1 }
  | some .released => some { s with phases := s.phases.set i .done }
  | _ => none

/-- The states an execution of `CallTools` passes through. -/
inductive Batch.Reachable {F : Type} (b : Batch F) : PoolState → Prop where
  | init : b.Reachable b.init
  | step {s s1 : PoolState} (i : Nat) : b.Reachable s → b.step s i = some s1 → b.Reachable s1

/-- Every unit has called `wg.Done`: `wg.Wait` returns. -/
def PoolState.allDone (s : PoolState) : Bool := s.phases.all fun p => decide (p = Phase.done)

/-- The state after the units took their steps in the order of `schedule`; `none` when the
schedule asks a unit for a step it cannot take. -/
def Batch.run {F : Type} (b : Batch F) : PoolState → List Nat → Option PoolState
  | s, [] => some s
  | s, i :: rest =>
    match b.step s i with
    | none => none
    | some s1 => b.run s1 rest

/-- What a call of `CallTools` gives back. -/
structure BatchReturn where
  results : List ToolMessage
  err : Option GoString
  sent : List HTTPRequest
deriving DecidableEq

/-- The method `Tools.CallTools` under a schedule of its goroutines: the empty batch returns
at once; otherwise the call returns `results` and a nil error once `wg.Wait` returns, and
`none` stands for a schedule that does not bring every unit to its end. -/
def Tools.CallTools {F : Type} (L : StdLib F) (Do : Nat → RoundTrip) (t : Tools)
    (toolCalls : List ToolCall) (schedule : List Nat) : Option BatchReturn :=
  if toolCalls.length = 0 then some { results := [], err := none, sent := [] }
  else
    let b : Batch F := { L := L, t := t, Do := Do, toolCalls := toolCalls }
    match b.run b.init schedule with
    | none => none
    | some s =>
      if s.allDone = true then some { results := s.results, err := none, sent := s.sent }
      else none

/-- A float library for closed examples: a `float64` is kept as the literal it was read
from.  URLs are split at the first `?`. -/
def exampleLib : StdLib GoString where
  ParseFloat := fun lit => some lit
  FormatFloat := fun f => f
  MarshalFloat := fun f => .ok f
  urlParse := fun s => .ok { head := (cut 0x3F s).1, RawQuery := (cut 0x3F s).2,
                             ForceQuery := false, tail := [] }
  jsonError := fun _ => ascii "invalid JSON"
  decodeError := fun _ _ => ascii "invalid JSON"
  methodError := fun _ => ascii "invalid method"

/-- The value the caller's headers give to the field `key`: that of the last entry, in the
order the `range` loop visits the map, whose canonical name is `key`. -/
def callerHeader (key : GoString) (headers : List (GoString × GoString)) : Option GoString :=
  headers.foldl (fun acc kv => if CanonicalMIMEHeaderKey kv.1 = key then some kv.2 else acc) none

/-- What the units of a batch compute, unit by unit from index `i` on: the message each
appends and the requests each sends. -/
def outcomesFrom {F : Type} (L : StdLib F) (Do : Nat → RoundTrip) (t : Tools) :
    Nat → List ToolCall → List (ToolMessage × List HTTPRequest)
  | _, [] => []
  | i, toolCall :: rest => runToolCall L (Do i) t toolCall :: outcomesFrom L Do t (i + 1) rest

/-- The per-call results of a batch, in the order of the batch. -/
def Batch.outcomes {F : Type} (b : Batch F) : List (ToolMessage × List HTTPRequest) :=
  outcomesFrom b.L b.Do b.t 0 b.toolCalls

/-- A unit's message is in `results` from its append on. -/
def Phase.hasAppended : Phase → Bool
  | .appended => true
  | .released => true
  | .done => true
  | _ => false

/-- The steps a unit still has to take. -/
def Phase.stepsLeft : Phase → Nat
  | .unspawned => 5
  | .blocked => 4
  | .holding => 3
  | .appended => 2
  | .released => 1
  | .done => 0

/-- The steps the units of a state still have to take. -/
def PoolState.remaining (s : PoolState) : Nat := (s.phases.map Phase.stepsLeft).sum

/-! ## Values that JSON carries -/

/-- The input does not go on with a byte that could extend a number literal. -/
def endsNumber (x : GoString) : Prop :=
  ∀ c r, x = c :: r → isDigit c = false ∧ c ≠ 0x2E ∧ c ≠ 0x65 ∧ c ≠ 0x45

/-- What follows a value in an array, in an object or at the end of a document: nothing, a
comma or a closing bracket. -/
def endsValue (x : GoString) : Prop :=
  ∀ c r, x = c :: r → c = 0x2C ∨ c = 0x5D ∨ c = 0x7D

/-- The encoder writes the `float64` `f` as a number literal, and the decoder reads that
literal as `g`. -/
def StdLib.reads {F : Type} (L : StdLib F) (f g : F) : Prop :=
  ∃ out, L.MarshalFloat f = .ok out ∧ scanNumber out = some (out, []) ∧ L.ParseFloat out = some g

/-- Every `float64` the decoder makes of a number literal is one the encoder writes as a
number literal again (in Go: it is finite). -/
def StdLib.decodesFinite {F : Type} (L : StdLib F) : Prop :=
  ∀ lit f, scanNumber lit = some (lit, []) → L.ParseFloat lit = some f → ∃ g, L.reads f g

mutual
/-- The depth of arrays and objects in a value. -/
def Value.nesting {F : Type} : Value F → Nat
  | .slice xs => nestingElems xs + 1
  | .mapIface m => nestingMembers m + 1
  | _ => 0
/-- The deepest nesting among the elements of a slice. -/
def nestingElems {F : Type} : List (Value F) → Nat
  | [] => 0
  | x :: xs => max x.nesting (nestingElems xs)
/-- The deepest nesting among the members of a map. -/
def nestingMembers {F : Type} : List (GoString × Value F) → Nat
  | [] => 0
  | (_, x) :: xs => max x.nesting (nestingMembers xs)
end

mutual
/-- A value of the kinds the decoder produces behind `interface{}` (nil, `bool`, `float64`,
`string`, `[]interface{}`, `map[string]interface{}`) whose floats the encoder writes as
number literals. -/
def Value.decoded {F : Type} (L : StdLib F) : Value F → Prop
  | .nil => True
  | .bool _ => True
  | .float64 f => ∃ g, L.reads f g
  | .string _ => True
  | .slice xs => decodedElems L xs
  | .mapIface m => decodedMembers L m
  | _ => False
/-- Every element of a slice is `decoded`. -/
def decodedElems {F : Type} (L : StdLib F) : List (Value F) → Prop
  | [] => True
  | x :: xs => x.decoded L ∧ decodedElems L xs
/-- Every member of a map is `decoded`. -/
def decodedMembers {F : Type} (L : StdLib F) : List (GoString × Value F) → Prop
  | [] => True
  | (_, x) :: xs => x.decoded L ∧ decodedMembers L xs
end

mutual
/-- A value that JSON carries unchanged: nil, a `bool`, a `float64` that the decoder reads
back from its encoding, a string of valid UTF-8, a `[]interface{}` or a non-nil
`map[string]interface{}` of such values with keys of valid UTF-8.  A Go map has no order:
each map is listed by ascending key, every key once. -/
def Value.plain {F : Type} (L : StdLib F) : Value F → Prop
  | .nil => True
  | .bool _ => True
  | .float64 f => L.reads f f
  | .string s => ValidUTF8 s
  | .slice xs => plainElems L xs
  | .mapIface m => sortByKey m = m ∧ (m.map Prod.fst).Nodup ∧ plainMembers L m
  | _ => False
/-- Every element of a slice is `plain`. -/
def plainElems {F : Type} (L : StdLib F) : List (Value F) → Prop
  | [] => True
  | x :: xs => x.plain L ∧ plainElems L xs
/-- Every member of a map is `plain` under a key of valid UTF-8. -/
def plainMembers {F : Type} (L : StdLib F) : List (GoString × Value F) → Prop
  | [] => True
  | (k, x) :: xs => ValidUTF8 k ∧ x.plain L ∧ plainMembers L xs
end

/-- The decoder reads the encoding `enc` of `v` back: `enc` starts with a byte of a value,
and in front of whatever may follow a value the decoder, given fuel for `enc` and room for
the nesting of `v`, takes exactly `enc` and yields a value, which is `v` when `v` is
`plain`. -/
def ReadsAs {F : Type} (L : StdLib F) (v : Value F) (enc : GoString) : Prop :=
  (∃ c r, enc = c :: r ∧ isSpace c = false ∧ c ≠ 0x5D)
  ∧ ∀ fuel depth rest, enc.length ≤ fuel → depth + v.nesting ≤ maxNestingDepth → endsValue rest →
      ∃ v1, parseValue L fuel depth (enc ++ rest) = some (v1, rest) ∧ (v.plain L → v1 = v)

/-- The encoder writes `v`, and the decoder reads what it wrote. -/
def Encodes {F : Type} (L : StdLib F) (v : Value F) : Prop :=
  ∃ enc, Marshal L v = .ok enc ∧ ReadsAs L v enc

/-! # Theorems -/

/-! ## Association lists -/

theorem mapGet_mapSet {α : Type} (m : List (GoString × α)) (k k1 : GoString) (v : α) :
    mapGet (mapSet m k v) k1 = if k = k1 then some v else mapGet m k1 := by
  induction m with
  | nil => simp [mapSet, mapGet]
  | cons x xs ih =>
    obtain ⟨k0, v0⟩ := x
    by_cases h : k0 = k
    · subst h
      by_cases h1 : k0 = k1 <;> simp [mapSet, mapGet, h1]
    · by_cases h1 : k0 = k1
      · subst h1
        simp [mapSet, mapGet, h, Ne.symm h]
      · simp [mapSet, mapGet, h, h1, ih]

/-! ## `CallTool`: names that are not tools -/

/-- C4 (amended).  For a tool name other than `search_services` and `invoke_service`,
`CallTool` issues no HTTP request whatever the arguments are; it fails with the
unknown-tool error naming the tool for every argument that is not a string and for every
string that unmarshals; for a string that does not unmarshal it fails with the
argument-decoding error instead, since the arguments are decoded before the name is
looked at. -/
theorem CallTool_unknown_tool {F : Type} (L : StdLib F) (Do : RoundTrip) (t : Tools)
    (name : GoString) (args : Value F) (h1 : name ≠ SEARCH_TOOLS) (h2 : name ≠ CALL_TOOL) :
    (t.CallTool L Do name args).sent = []
    ∧ ((∀ s, args = .string s → ∃ m, Unmarshal L s = .ok m) →
        (t.CallTool L Do name args).result = .error (ascii "unknown tool name: " ++ name))
    ∧ (∀ s e, args = .string s → Unmarshal L s = .error e →
        (t.CallTool L Do name args).result
          = .error (ascii "failed to unmarshal args: " ++ e)) := by
  refine ⟨?_, ?_, ?_⟩
  · unfold Tools.CallTool
    cases hd : decodeArgs L args <;> simp [h1, h2]
  · intro hs
    unfold Tools.CallTool
    cases hd : decodeArgs L args with
    | ok v => simp [h1, h2]
    | error e =>
      exfalso
      cases args <;> simp [decodeArgs] at hd
      rename_i s
      obtain ⟨m, hm⟩ := hs s rfl
      simp [hm] at hd
  · intro s e hs he
    subst hs
    simp [Tools.CallTool, decodeArgs, he]

/-- C4, the example of the specification: `CallTool("does_not_exist", {})` fails with the
unknown-tool error and issues no HTTP request. -/
theorem CallTool_unknown_tool_witness :
    ((NewTools ⟨[], 1⟩).CallTool exampleLib (fun _ => .error []) (ascii "does_not_exist")
        (.mapIface [])).sent = []
    ∧ ((NewTools ⟨[], 1⟩).CallTool exampleLib (fun _ => .error []) (ascii "does_not_exist")
        (.mapIface [])).result = .error (ascii "unknown tool name: does_not_exist") := by
  have h := CallTool_unknown_tool exampleLib (fun _ => .error []) (NewTools ⟨[], 1⟩)
    (ascii "does_not_exist") (.mapIface []) (by decide) (by decide)
  exact ⟨h.1, h.2.1 (fun s hs => by cases hs)⟩

/-- C4 as stated fails: with the string argument `x`, which is not JSON, the unknown name
`does_not_exist` is never reached and the error is the argument-decoding error. -/
theorem CallTool_malformed_arguments :
    ((NewTools ⟨[], 1⟩).CallTool exampleLib (fun _ => .error []) (ascii "does_not_exist")
        (.string (ascii "x"))).result
      = .error (ascii "failed to unmarshal args: " ++ exampleLib.jsonError (ascii "x"))
    ∧ ascii "does_not_exist" ≠ SEARCH_TOOLS ∧ ascii "does_not_exist" ≠ CALL_TOOL
    ∧ ascii "failed to unmarshal args: " ++ exampleLib.jsonError (ascii "x")
        ≠ ascii "unknown tool name: " ++ ascii "does_not_exist" := by
  refine ⟨by rfl, by decide, by decide, by decide⟩

/-! ## `Request`: status errors -/

theorem formatNatAux_spec (fuel : Nat) : ∀ (n : Nat) (acc : GoString), n < fuel →
    ∃ ds : GoString, formatNatAux fuel n acc = ds ++ acc ∧ ds ≠ []
      ∧ (∀ d ∈ ds, 48 ≤ d ∧ d ≤ 57)
      ∧ ∀ init : Nat, ds.foldl (fun a d => a * 10 + (d - 48)) init = init * 10 ^ ds.length + n := by
  induction fuel with
  | zero => intro n acc h; omega
  | succ fuel ih =>
    intro n acc h
    by_cases hn : n < 10
    · refine ⟨[48 + n], by simp [formatNatAux, hn], by simp, ?_, ?_⟩
      · intro d hd
        simp at hd
        omega
      · intro init
        simp
    · obtain ⟨ds, h1, h2, h3, h4⟩ := ih (n / 10) ((48 + n % 10) :: acc) (by omega)
      refine ⟨ds ++ [48 + n % 10], by simp [formatNatAux, hn, h1], by simp, ?_, ?_⟩
      · intro d hd
        simp at hd
        rcases hd with hd | hd
        · exact h3 d hd
        · omega
      · intro init
        simp [List.foldl_append, h4, pow_succ]
        have : n = 10 * (n / 10) + n % 10 := (Nat.div_add_mod n 10).symm
        nlinarith [this]

theorem formatNat_digits (n : Nat) : formatNat n ≠ [] ∧ ∀ d ∈ formatNat n, 48 ≤ d ∧ d ≤ 57 := by
  obtain ⟨ds, h1, h2, h3, _⟩ := formatNatAux_spec (n + 1) n [] (by omega)
  simp [formatNat, h1, h2]
  exact h3

theorem formatNat_injective (n m : Nat) (h : formatNat n = formatNat m) : n = m := by
  obtain ⟨ds, h1, _, _, h4⟩ := formatNatAux_spec (n + 1) n [] (by omega)
  obtain ⟨es, g1, _, _, g4⟩ := formatNatAux_spec (m + 1) m [] (by omega)
  simp [formatNat] at h
  rw [h1, g1] at h
  simp at h
  subst h
  have := h4 0
  rw [g4 0] at this
  omega

theorem formatInt_chars (i : Int) : ∀ d ∈ formatInt i, d ≠ 44 := by
  intro d hd
  cases i with
  | ofNat n =>
    have := (formatNat_digits n).2 d hd
    omega
  | negSucc n =>
    simp [formatInt] at hd
    rcases hd with hd | hd
    · omega
    · have := (formatNat_digits (n + 1)).2 d hd
      omega

theorem formatInt_injective (i j : Int) (h : formatInt i = formatInt j) : i = j := by
  cases i with
  | ofNat n =>
    cases j with
    | ofNat m => simp [formatInt] at h; rw [formatNat_injective n m h]
    | negSucc m =>
      exfalso
      simp [formatInt] at h
      obtain ⟨h1, h2⟩ := formatNat_digits n
      cases hf : formatNat n with
      | nil => exact h1 hf
      | cons d ds =>
        rw [hf] at h h2
        simp at h
        have := h2 d (by simp)
        omega
  | negSucc n =>
    cases j with
    | ofNat m =>
      exfalso
      simp [formatInt] at h
      obtain ⟨h1, h2⟩ := formatNat_digits m
      cases hf : formatNat m with
      | nil => exact h1 hf
      | cons d ds =>
        rw [hf] at h h2
        simp at h
        have := h2 d (by simp)
        omega
    | negSucc m =>
      simp [formatInt] at h
      have := formatNat_injective _ _ h
      simp at this
      rw [this]

theorem append_sep_cancel (sep : Nat) : ∀ (xs ys r r1 : GoString),
    (∀ d ∈ xs, d ≠ sep) → (∀ d ∈ ys, d ≠ sep) → xs ++ sep :: r = ys ++ sep :: r1 →
    xs = ys ∧ r = r1 := by
  intro xs
  induction xs with
  | nil =>
    intro ys r r1 _ hy h
    cases ys with
    | nil => simpa using h
    | cons y ys =>
      simp at h
      exact absurd h.1.symm (hy y (by simp))
  | cons x xs ih =>
    intro ys r r1 hx hy h
    cases ys with
    | nil =>
      simp at h
      exact absurd h.1 (hx x (by simp))
    | cons y ys =>
      simp at h
      obtain ⟨h1, h2⟩ := ih ys r r1 (fun d hd => hx d (by simp [hd])) (fun d hd => hy d (by simp [hd])) h.2
      exact ⟨by rw [h.1, h1], h2⟩

theorem httpStatusError_injective (c c1 : Int) (b b1 : GoString)
    (h : httpStatusError c b = httpStatusError c1 b1) : c = c1 ∧ b = b1 := by
  unfold httpStatusError at h
  simp only [List.append_assoc] at h
  have h2 := List.append_cancel_left h
  have hsep : ∀ r : GoString, ascii ", body: " ++ r = 44 :: (ascii " body: " ++ r) := fun r => rfl
  rw [hsep, hsep] at h2
  obtain ⟨h3, h4⟩ := append_sep_cancel 44 _ _ _ _ (formatInt_chars c) (formatInt_chars c1) h2
  exact ⟨formatInt_injective _ _ h3, List.append_cancel_left h4⟩

/-- C6 (amended).  Once `client.Do` has answered with status `c` and a body that delivered
the bytes `b` before it ended, cleanly or with a read error: outside `[200, 300)` `Request`
returns no value and fails with the status error made of exactly `c` and `b` (the read
error is dropped, it is not reported as a further error, and what was read before it is
kept); inside `[200, 300)` `Request` never fails with a status error; and the status error
determines `c` and `b`. -/
theorem Request_status_error {F : Type} (L : StdLib F) (Do : RoundTrip) (a : API)
    (method path : GoString) (options : RequestOptions F) (req : HTTPRequest) (resp : Response)
    (hb : buildRequest L a method path options = .ok req) (hd : Do req = .ok resp) :
    (a.Request L Do method path options).sent = [req]
    ∧ ((resp.StatusCode < 200 ∨ 300 ≤ resp.StatusCode) →
        (a.Request L Do method path options).result
          = .error (httpStatusError resp.StatusCode resp.Body))
    ∧ ((200 ≤ resp.StatusCode ∧ resp.StatusCode < 300) →
        ∀ c b, (a.Request L Do method path options).result ≠ .error (httpStatusError c b))
    ∧ (∀ c b c1 b1, httpStatusError c b = httpStatusError c1 b1 → c = c1 ∧ b = b1) := by
  refine ⟨?_, ?_, ?_, fun c b c1 b1 h => httpStatusError_injective c c1 b b1 h⟩
  · simp [API.Request, hb, hd]
  · intro hc
    have hc' : resp.StatusCode < 200 ∨ resp.StatusCode ≥ 300 := by omega
    simp [API.Request, hb, hd, handleResponse, hc']
  · intro hc c b
    have hc' : ¬ (resp.StatusCode < 200 ∨ resp.StatusCode ≥ 300) := by omega
    simp only [API.Request, hb, hd, handleResponse, hc', if_false]
    cases hdec : Decode L resp with
    | ok v => simp
    | error e =>
      simp only [ne_eq, Except.error.injEq]
      intro h
      have : (ascii "failed to decode response: " ++ e).head? = (httpStatusError c b).head? := by rw [h]
      revert this
      simp [httpStatusError, ascii]

/-- C6, the example of the specification: status 404 with body `not found`. -/
theorem Request_status_error_witness :
    (API.Request exampleLib (fun _ => .ok ⟨404, ascii "not found", none⟩)
        ⟨ascii "KEY", BACKEND_API_ENDPOINT⟩ (ascii "GET") (ascii "/actions/search")
        (searchOptions none)).result
      = .error (ascii "HTTP error! status: 404, body: not found") :=
  (Request_status_error exampleLib (fun _ => .ok ⟨404, ascii "not found", none⟩)
    ⟨ascii "KEY", BACKEND_API_ENDPOINT⟩ (ascii "GET") (ascii "/actions/search")
    (searchOptions none) _ ⟨404, ascii "not found", none⟩ (by rfl) (by rfl)).2.1 (by decide)

/-- C6 as stated fails: when the backend answers 502 and the body delivers `par` before the
read fails, the status error carries `par`; a body that cannot be read is not reported as
the empty string. -/
theorem Request_partial_body_kept :
    (API.Request exampleLib
        (fun _ => .ok ⟨502, ascii "par", some (ascii "unexpected EOF")⟩)
        ⟨ascii "KEY", BACKEND_API_ENDPOINT⟩ (ascii "GET") (ascii "/actions/search")
        (searchOptions none)).result
      = .error (ascii "HTTP error! status: 502, body: par")
    ∧ httpStatusError 502 (ascii "par") = ascii "HTTP error! status: 502, body: par"
    ∧ httpStatusError 502 (ascii "par") ≠ httpStatusError 502 [] := by
  refine ⟨by rfl, by rfl, by decide⟩

/-! ## `Request`: what is built and sent -/

theorem foldl_lastHeader (key : GoString) (hs : List (GoString × GoString)) :
    ∀ acc : Option GoString,
      hs.foldl (fun acc kv => if CanonicalMIMEHeaderKey kv.1 = key then some kv.2 else acc) acc
        = match callerHeader key hs with
          | some v => some v
          | none => acc := by
  unfold callerHeader
  induction hs with
  | nil => intro acc; simp
  | cons x xs ih =>
    intro acc
    simp only [List.foldl_cons]
    by_cases h : CanonicalMIMEHeaderKey x.1 = key
    · simp only [h, if_true]
      rw [ih (some x.2)]
      cases hc : List.foldl (fun acc kv => if CanonicalMIMEHeaderKey kv.1 = key then some kv.2 else acc) none xs <;> simp
    · simp only [h, if_false]
      rw [ih acc]

theorem callerHeader_cons (key : GoString) (x : GoString × GoString)
    (xs : List (GoString × GoString)) :
    callerHeader key (x :: xs)
      = match callerHeader key xs with
        | some v => some v
        | none => if CanonicalMIMEHeaderKey x.1 = key then some x.2 else none := by
  have h := foldl_lastHeader key xs (if CanonicalMIMEHeaderKey x.1 = key then some x.2 else none)
  simpa [callerHeader] using h

theorem foldl_Set_get (key : GoString) (hs : List (GoString × GoString)) :
    ∀ h0 : Header,
      mapGet (hs.foldl (fun h kv => Header.Set h kv.1 kv.2) h0) key
        = match callerHeader key hs with
          | some v => some [v]
          | none => mapGet h0 key := by
  induction hs with
  | nil => intro h0; simp [callerHeader]
  | cons x xs ih =>
    intro h0
    simp only [List.foldl_cons]
    rw [ih, callerHeader_cons]
    cases hc : callerHeader key xs with
    | some v => simp
    | none =>
      simp only [Header.Set, mapGet_mapSet]
      by_cases h : CanonicalMIMEHeaderKey x.1 = key <;> simp [h]

theorem buildRequest_ok {F : Type} (L : StdLib F) (a : API) (method path : GoString)
    (options : RequestOptions F) (req : HTTPRequest)
    (hb : buildRequest L a method path options = .ok req) :
    ∃ u body, L.urlParse (a.apiURI ++ path) = .ok u
      ∧ prepareBody L options.JSON = .ok body
      ∧ req = setHeaders a (!options.JSON.isNil) options.Headers
          { Method := if method = [] then ascii "GET" else method,
            URL := (withParams u options.Params).String,
            Header := [], Body := body,
            Timeout := if options.Timeout = 0 then 10 * Second else options.Timeout } := by
  unfold buildRequest at hb
  cases hu : L.urlParse (a.apiURI ++ path) with
  | error e => simp [hu] at hb
  | ok u =>
    cases hp : prepareBody L options.JSON with
    | error e => simp [hu, hp] at hb
    | ok body =>
      simp only [hu, hp] at hb
      refine ⟨u, body, rfl, rfl, ?_⟩
      unfold NewRequestWithContext at hb
      by_cases hm : (if method = [] then ascii "GET" else method).all validHeaderFieldByte = false
      · simp [hm] at hb
      · simp only [hm, if_false] at hb
        cases hu2 : L.urlParse (withParams u options.Params).String with
        | error e => simp [hu2] at hb
        | ok u2 =>
          simp only [hu2] at hb
          injection hb with hb
          exact hb.symm

/-- C7 (amended).  The request `Request` builds carries under `Authorization` the value the
caller's headers give that field, when they give one (caller headers take precedence; with
several caller keys of that canonical name the last one visited wins); otherwise it carries
the API key when the key is not empty, and no `Authorization` header at all when the key is
empty. -/
theorem Request_authorization {F : Type} (L : StdLib F) (a : API) (method path : GoString)
    (options : RequestOptions F) (req : HTTPRequest)
    (hb : buildRequest L a method path options = .ok req) :
    mapGet req.Header (ascii "Authorization")
      = match callerHeader (ascii "Authorization") options.Headers with
        | some v => some [v]
        | none => if a.apiKey = [] then none else some [a.apiKey] := by
  obtain ⟨u, body, _, _, hreq⟩ := buildRequest_ok L a method path options req hb
  subst hreq
  simp only [setHeaders]
  rw [foldl_Set_get]
  cases hc : callerHeader (ascii "Authorization") options.Headers with
  | some v => simp
  | none =>
    have hcanon : CanonicalMIMEHeaderKey (ascii "Authorization") = ascii "Authorization" := by decide
    have hct : CanonicalMIMEHeaderKey (ascii "Content-Type") = ascii "Content-Type" := by decide
    have hne : ascii "Content-Type" ≠ ascii "Authorization" := by decide
    by_cases hj : options.JSON.isNil = true <;> by_cases hk : a.apiKey = [] <;>
      simp [hj, hk, Header.Set, Header.Get, mapGet_mapSet, hcanon, hct, hne, mapGet, mapSet]

/-- C7, an instance: the caller's lower-case `authorization` replaces the API key. -/
theorem Request_authorization_witness :
    ∃ req, buildRequest exampleLib ⟨ascii "KEY", BACKEND_API_ENDPOINT⟩ (ascii "POST")
        (ascii "/actions/call")
        { Timeout := 0, Headers := [(ascii "authorization", ascii "caller")], Params := none,
          JSON := .nil } = .ok req
      ∧ mapGet req.Header (ascii "Authorization") = some [ascii "caller"] :=
  ⟨_, rfl, (Request_authorization exampleLib ⟨ascii "KEY", BACKEND_API_ENDPOINT⟩ (ascii "POST")
        (ascii "/actions/call")
        { Timeout := 0, Headers := [(ascii "authorization", ascii "caller")], Params := none,
          JSON := .nil } _ rfl).trans (by decide)⟩

/-- C7 as stated fails: with an empty API key and no caller headers the request that is sent
has no `Authorization` header. -/
theorem Request_without_key_sends_no_authorization :
    (API.Request exampleLib (fun _ => .error []) ⟨[], BACKEND_API_ENDPOINT⟩ (ascii "GET")
        (ascii "/actions/search") (searchOptions none)).sent.map
      (fun r => mapGet r.Header (ascii "Authorization")) = [none] := by
  decide

/-! ## The backend adapter -/

theorem buildRequest_eq {F : Type} (L : StdLib F) (a : API) (method path : GoString)
    (options : RequestOptions F) (u u2 : URL) (body : Option GoString)
    (hu : L.urlParse (a.apiURI ++ path) = .ok u)
    (hp : prepareBody L options.JSON = .ok body)
    (hm : (if method = [] then ascii "GET" else method).all validHeaderFieldByte = true)
    (hu2 : L.urlParse (withParams u options.Params).String = .ok u2) :
    buildRequest L a method path options
      = .ok (setHeaders a (!options.JSON.isNil) options.Headers
          { Method := if method = [] then ascii "GET" else method,
            URL := (withParams u options.Params).String,
            Header := [], Body := body,
            Timeout := if options.Timeout = 0 then 10 * Second else options.Timeout }) := by
  unfold buildRequest
  simp only [hu, hp]
  unfold NewRequestWithContext
  simp only [hm, hu2]
  simp


theorem Request_sent_le_one {F : Type} (L : StdLib F) (Do : RoundTrip) (a : API)
    (method path : GoString) (options : RequestOptions F) :
    (a.Request L Do method path options).sent
      = match buildRequest L a method path options with
        | .ok req => [req]
        | .error _ => [] := by
  unfold API.Request
  cases hb : buildRequest L a method path options with
  | error e => rfl
  | ok req => cases hd : Do req <;> simp [hd]

/-- C9 (amended).  `SearchTools` passes `Request` the method GET, the path
`/actions/search`, its arguments as `Params` and nothing else; `ToolsAPI.CallTool` passes
POST, `/actions/call`, its arguments as `JSON`, a timeout of 50 seconds and nothing else.
Each sends at most one request, and does send one when the URL parses (and the arguments
serialize).  The GET has no body and a timeout of 10 seconds, the default; the POST has a
timeout of 50 seconds and, for arguments that are not nil, their JSON encoding as its body;
for nil arguments it has no body. -/
theorem adapter_requests {F : Type} (L : StdLib F) (Do : RoundTrip) (a : API) :
    (∀ args, ToolsAPI.SearchTools L Do a args
        = a.Request L Do (ascii "GET") (ascii "/actions/search")
            { Timeout := 0, Headers := [], Params := args, JSON := .nil })
    ∧ (∀ args, ToolsAPI.CallTool L Do a args
        = a.Request L Do (ascii "POST") (ascii "/actions/call")
            { Timeout := 50 * Second, Headers := [], Params := none, JSON := args })
    ∧ (∀ args req, req ∈ (ToolsAPI.SearchTools L Do a args).sent →
        (ToolsAPI.SearchTools L Do a args).sent = [req]
        ∧ req.Method = ascii "GET" ∧ req.Body = none ∧ req.Timeout = 10 * Second
        ∧ ∃ u, L.urlParse (a.apiURI ++ ascii "/actions/search") = .ok u
            ∧ req.URL = (withParams u args).String)
    ∧ (∀ args req, req ∈ (ToolsAPI.CallTool L Do a args).sent →
        (ToolsAPI.CallTool L Do a args).sent = [req]
        ∧ req.Method = ascii "POST" ∧ req.Timeout = 50 * Second
        ∧ (∃ u, L.urlParse (a.apiURI ++ ascii "/actions/call") = .ok u ∧ req.URL = u.String)
        ∧ (args.isNil = true → req.Body = none)
        ∧ (args.isNil = false → ∃ data, Marshal L args = .ok data ∧ req.Body = some data))
    ∧ (∀ args u u2, L.urlParse (a.apiURI ++ ascii "/actions/search") = .ok u →
        L.urlParse (withParams u args).String = .ok u2 →
        (ToolsAPI.SearchTools L Do a args).sent ≠ [])
    ∧ (∀ args u u2, L.urlParse (a.apiURI ++ ascii "/actions/call") = .ok u →
        L.urlParse u.String = .ok u2 →
        (args.isNil = true ∨ ∃ data, Marshal L args = .ok data) →
        (ToolsAPI.CallTool L Do a args).sent ≠ []) := by
  refine ⟨fun _ => rfl, fun _ => rfl, ?_, ?_, ?_, ?_⟩
  · intro args req hreq
    unfold ToolsAPI.SearchTools at hreq ⊢
    rw [Request_sent_le_one] at hreq ⊢
    cases hb : buildRequest L a (ascii "GET") (ascii "/actions/search") (searchOptions args) with
    | error e => simp [hb] at hreq
    | ok r =>
      simp only [hb, List.mem_singleton] at hreq ⊢
      subst hreq
      obtain ⟨u, body, hu, hp, hr⟩ := buildRequest_ok L a _ _ _ _ hb
      have hbody : body = none := by
        simp [prepareBody, searchOptions, Value.isNil] at hp
        exact hp.symm
      subst hbody
      refine ⟨rfl, ?_, ?_, ?_, u, hu, ?_⟩ <;> rw [hr] <;> simp [setHeaders, searchOptions, ascii]
  · intro args req hreq
    unfold ToolsAPI.CallTool at hreq ⊢
    rw [Request_sent_le_one] at hreq ⊢
    cases hb : buildRequest L a (ascii "POST") (ascii "/actions/call") (callOptions args) with
    | error e => simp [hb] at hreq
    | ok r =>
      simp only [hb, List.mem_singleton] at hreq ⊢
      subst hreq
      obtain ⟨u, body, hu, hp, hr⟩ := buildRequest_ok L a _ _ _ _ hb
      refine ⟨rfl, ?_, ?_, ⟨u, hu, ?_⟩, ?_, ?_⟩
      · rw [hr]; simp [setHeaders, ascii]
      · rw [hr]; simp [setHeaders, callOptions, Second]
      · rw [hr]; simp [setHeaders, callOptions, withParams]
      · intro hnil
        rw [hr]
        simp [prepareBody, callOptions, hnil] at hp
        simp [setHeaders, hp]
      · intro hnil
        simp only [prepareBody, callOptions, hnil] at hp
        cases hm : Marshal L args with
        | error e => simp [hm] at hp
        | ok data =>
          simp [hm] at hp
          exact ⟨data, rfl, by rw [hr]; simp [setHeaders, hp]⟩
  · intro args u u2 hu hu2
    unfold ToolsAPI.SearchTools
    rw [Request_sent_le_one,
      buildRequest_eq L a (ascii "GET") (ascii "/actions/search") (searchOptions args) u u2 none
        hu (by rfl) (by decide) hu2]
    simp
  · intro args u u2 hu hu2 hargs
    unfold ToolsAPI.CallTool
    have hp : ∃ body, prepareBody L (callOptions args).JSON = .ok body := by
      rcases hargs with hnil | ⟨data, hdata⟩
      · exact ⟨none, by simp [prepareBody, callOptions, hnil]⟩
      · by_cases hnil : args.isNil = true
        · exact ⟨none, by simp [prepareBody, callOptions, hnil]⟩
        · exact ⟨some data, by simp [prepareBody, callOptions, hnil, hdata]⟩
    obtain ⟨body, hbody⟩ := hp
    rw [Request_sent_le_one,
      buildRequest_eq L a (ascii "POST") (ascii "/actions/call") (callOptions args) u u2 body
        hu hbody (by decide) hu2]
    simp

/-- C9 as stated fails: for the nil argument the POST is sent without a body, while the JSON
encoding of nil is `null`. -/
theorem adapter_CallTool_nil_has_no_body :
    (ToolsAPI.CallTool exampleLib (fun _ => .error []) ⟨ascii "KEY", BACKEND_API_ENDPOINT⟩
        (Value.nil : Value GoString)).sent.map (fun r => (r.Method, r.URL, r.Body))
      = [(ascii "POST", ascii "https://backend.unifai.network/api/v1/actions/call", none)]
    ∧ Marshal exampleLib (Value.nil : Value GoString) = .ok (ascii "null") := by
  refine ⟨by decide, by rfl⟩

/-! ## `CallTool`: the search request -/

theorem mapSet_new {α : Type} (m : List (GoString × α)) (k : GoString) (v : α)
    (h : k ∉ m.map Prod.fst) : mapSet m k v = m ++ [(k, v)] := by
  induction m with
  | nil => rfl
  | cons x xs ih =>
    obtain ⟨k0, v0⟩ := x
    simp at h
    have hne : ¬ k0 = k := fun e => h.1 e.symm
    simp [mapSet, hne]
    exact ih (by simpa using h.2)

theorem mapGet_new {α : Type} (m : List (GoString × α)) (k : GoString)
    (h : k ∉ m.map Prod.fst) : mapGet m k = none := by
  induction m with
  | nil => rfl
  | cons x xs ih =>
    obtain ⟨k0, v0⟩ := x
    simp at h
    have hne : ¬ k0 = k := fun e => h.1 e.symm
    simp [mapGet, hne]
    exact ih (by simpa using h.2)

theorem foldl_mapSet_nodup {α β : Type} (f : α → β) (m : List (GoString × α)) :
    ∀ acc : List (GoString × β), (acc.map Prod.fst ++ m.map Prod.fst).Nodup →
      m.foldl (fun pm kv => mapSet pm kv.1 (f kv.2)) acc
        = acc ++ m.map (fun kv => (kv.1, f kv.2)) := by
  induction m with
  | nil => intro acc _; simp
  | cons x xs ih =>
    intro acc h
    simp only [List.foldl_cons, List.map_cons]
    have hx : x.1 ∉ acc.map Prod.fst := by
      intro hmem
      have := List.nodup_append.1 h
      exact this.2.2 hmem (by simp)
    rw [mapSet_new acc x.1 (f x.2) hx, ih]
    · simp
    · simp only [List.map_append, List.map_cons, List.map_nil, List.append_assoc,
        List.singleton_append]
      simpa using h

theorem stringifyParams_nodup {F : Type} (L : StdLib F) (m : List (GoString × Value F))
    (h : (m.map Prod.fst).Nodup) :
    stringifyParams L m = m.map (fun kv => (kv.1, fmtV L kv.2)) := by
  unfold stringifyParams
  rw [foldl_mapSet_nodup (fmtV L) m [] (by simpa using h)]
  simp

theorem foldl_Add_nodup (ps : List (GoString × GoString)) :
    ∀ acc : Values, (acc.map Prod.fst ++ ps.map Prod.fst).Nodup →
      ps.foldl (fun q kv => Values.Add q kv.1 kv.2) acc
        = acc ++ ps.map (fun kv => (kv.1, [kv.2])) := by
  induction ps with
  | nil => intro acc _; simp
  | cons x xs ih =>
    intro acc h
    simp only [List.foldl_cons, List.map_cons]
    have hx : x.1 ∉ acc.map Prod.fst := by
      intro hmem
      have := List.nodup_append.1 h
      exact this.2.2 hmem (by simp)
    rw [Values.Add, mapGet_new acc x.1 hx, mapSet_new acc x.1 _ hx, ih]
    · simp
    · simp only [List.map_append, List.map_cons, List.map_nil, List.append_assoc,
        List.singleton_append]
      simpa using h

theorem insertByKey_map {α β : Type} (f : α → β) (x : GoString × α)
    (l : List (GoString × α)) :
    insertByKey (x.1, f x.2) (l.map fun kv => (kv.1, f kv.2))
      = (insertByKey x l).map fun kv => (kv.1, f kv.2) := by
  induction l with
  | nil => rfl
  | cons y ys ih =>
    by_cases h : bytesLt x.1 y.1 = true
    · simp [insertByKey, h]
    · simp [insertByKey, h]
      simpa using ih

theorem sortByKey_map {α β : Type} (f : α → β) (l : List (GoString × α)) :
    sortByKey (l.map fun kv => (kv.1, f kv.2)) = (sortByKey l).map fun kv => (kv.1, f kv.2) := by
  induction l with
  | nil => rfl
  | cons x xs ih =>
    simp only [List.map_cons, sortByKey, ih]
    exact insertByKey_map f x (sortByKey xs)

theorem Encode_singletons (ps : List (GoString × GoString)) :
    Values.Encode (ps.map fun kv => (kv.1, [kv.2]))
      = joinWith [0x26]
          ((sortByKey ps).map fun kv => QueryEscape kv.1 ++ [0x3D] ++ QueryEscape kv.2) := by
  unfold Values.Encode
  rw [sortByKey_map (fun v => [v]) ps]
  congr 1
  induction sortByKey ps with
  | nil => rfl
  | cons x xs ih =>
    simp only [List.map_cons, List.flatMap_cons, List.map_nil, List.singleton_append, ih]

theorem search_query {F : Type} (L : StdLib F) (m : List (GoString × Value F))
    (h : (m.map Prod.fst).Nodup) :
    Values.Encode ((stringifyParams L m).foldl (fun q kv => Values.Add q kv.1 kv.2) (ParseQuery []))
      = joinWith [0x26]
          ((sortByKey m).map fun kv => QueryEscape kv.1 ++ [0x3D] ++ QueryEscape (fmtV L kv.2)) := by
  have hp : ParseQuery [] = [] := by decide
  rw [hp, stringifyParams_nodup L m h, foldl_Add_nodup _ [] (by simpa [List.map_map, Function.comp] using h)]
  simp only [List.nil_append]
  rw [Encode_singletons, sortByKey_map (fmtV L) m, List.map_map]
  rfl

/-- C5 (amended).  For a `search_services` call with a mapping of distinct keys, on an
endpoint without a query of its own, `CallTool` issues exactly one request: a GET, without
a body, whose query string lists the mapping's keys, each with its value rendered by `%v`,
URL-escaped, joined by `&` and sorted by key (not in the order the caller wrote them); when
the response has a 2xx status and its body decodes, the decoded value is returned. -/
theorem CallTool_search_request {F : Type} (L : StdLib F) (Do : RoundTrip) (t : Tools)
    (m : List (GoString × Value F)) (u u2 : URL)
    (hu : L.urlParse (t.api.apiURI ++ ascii "/actions/search") = .ok u)
    (hq : u.RawQuery = [])
    (hk : (m.map Prod.fst).Nodup)
    (hu2 : L.urlParse (URL.String { u with RawQuery := joinWith [0x26] ((sortByKey m).map
        fun kv => QueryEscape kv.1 ++ [0x3D] ++ QueryEscape (fmtV L kv.2)) }) = .ok u2) :
    ∃ req, (t.CallTool L Do SEARCH_TOOLS (.mapIface m)).sent = [req]
      ∧ req.Method = ascii "GET"
      ∧ req.URL = URL.String { u with RawQuery := joinWith [0x26] ((sortByKey m).map
          fun kv => QueryEscape kv.1 ++ [0x3D] ++ QueryEscape (fmtV L kv.2)) }
      ∧ req.Body = none
      ∧ (∀ resp v, Do req = .ok resp → 200 ≤ resp.StatusCode → resp.StatusCode < 300 →
          Decode L resp = .ok v →
          (t.CallTool L Do SEARCH_TOOLS (.mapIface m)).result = .ok v) := by
  have hw : withParams u (some (stringifyParams L m))
      = { u with RawQuery := joinWith [0x26] ((sortByKey m).map
          fun kv => QueryEscape kv.1 ++ [0x3D] ++ QueryEscape (fmtV L kv.2)) } := by
    simp only [withParams, hq]
    rw [search_query L m hk]
  have hb := buildRequest_eq L t.api (ascii "GET") (ascii "/actions/search")
    (searchOptions (some (stringifyParams L m))) u u2 none hu (by rfl) (by decide)
    (by simp only [searchOptions]; rw [hw]; exact hu2)
  have hcall : t.CallTool L Do SEARCH_TOOLS (.mapIface m)
      = t.api.Request L Do (ascii "GET") (ascii "/actions/search")
          (searchOptions (some (stringifyParams L m))) := by
    simp [Tools.CallTool, decodeArgs, ToolsAPI.SearchTools]
  rw [hcall]
  simp only [searchOptions] at hb ⊢
  rw [hw] at hb
  cases hbr : buildRequest L t.api (ascii "GET") (ascii "/actions/search")
      { Timeout := 0, Headers := [], Params := some (stringifyParams L m), JSON := Value.nil } with
  | error e => rw [hbr] at hb; cases hb
  | ok req =>
    rw [hbr] at hb
    injection hb with hreq
    refine ⟨req, ?_, ?_, ?_, ?_, ?_⟩
    · rw [Request_sent_le_one]
      simp only [hbr]
    · rw [hreq]; simp [setHeaders, ascii]
    · rw [hreq]; simp only [setHeaders]
    · rw [hreq]; simp [setHeaders]
    · intro resp v hd h1 h2 hv
      have hc : ¬ (resp.StatusCode < 200 ∨ resp.StatusCode ≥ 300) := by omega
      simp only [API.Request, hbr, hd, handleResponse, hc, if_false, hv]

/-- C5, the example of the specification: the request that is issued. -/
theorem CallTool_search_request_witness :
    ∃ req, ((NewTools ⟨ascii "KEY", 1⟩).CallTool exampleLib
          (fun _ => .ok ⟨200, ascii "[1]", none⟩) SEARCH_TOOLS
          (.mapIface [(ascii "query", .string (ascii "weather")), (ascii "limit", .int 5)])).sent
        = [req]
      ∧ req.Method = ascii "GET"
      ∧ req.URL
          = ascii "https://backend.unifai.network/api/v1/actions/search?limit=5&query=weather"
      ∧ req.Body = none := by
  obtain ⟨req, h1, h2, h3, h4, _⟩ := CallTool_search_request exampleLib
    (fun _ => .ok ⟨200, ascii "[1]", none⟩) (NewTools ⟨ascii "KEY", 1⟩)
    [(ascii "query", .string (ascii "weather")), (ascii "limit", .int 5)]
    ⟨ascii "https://backend.unifai.network/api/v1/actions/search", [], false, []⟩
    ⟨ascii "https://backend.unifai.network/api/v1/actions/search", ascii "limit=5&query=weather",
      false, []⟩
    (by rfl) (by rfl) (by decide) (by rfl)
  exact ⟨req, h1, h2, h3.trans (by rfl), h4⟩

/-- C5 as stated fails: for `{"query":"weather","limit":5}` the query string is
`limit=5&query=weather`, not `query=weather&limit=5`. -/
theorem CallTool_search_query_order :
    ((NewTools ⟨ascii "KEY", 1⟩).CallTool exampleLib (fun _ => .ok ⟨200, ascii "[1]", none⟩)
        (ascii "search_services")
        (.mapIface [(ascii "query", .string (ascii "weather")), (ascii "limit", .int 5)])).sent.map
      (fun r => (r.Method, r.URL))
      = [(ascii "GET",
          ascii "https://backend.unifai.network/api/v1/actions/search?limit=5&query=weather")]
    ∧ ascii "https://backend.unifai.network/api/v1/actions/search?limit=5&query=weather"
      ≠ ascii "https://backend.unifai.network/api/v1/actions/search?query=weather&limit=5" := by
  refine ⟨by rfl, by decide⟩

/-! ## `CallTools`: the pool of goroutines -/

theorem countP_set_phase (p : Phase → Bool) : ∀ (l : List Phase) (i : Nat) (x y : Phase),
    l.get? i = some y →
    (l.set i x).countP p + (if p y then 1 else 0) = l.countP p + (if p x then 1 else 0) := by
  intro l
  induction l with
  | nil => intro i x y h; simp at h
  | cons a as ih =>
    intro i x y h
    cases i with
    | zero =>
      simp at h
      subst h
      simp [List.countP_cons]
      omega
    | succ i =>
      simp at h
      have := ih i x y (by simpa using h)
      simp [List.countP_cons]
      omega

theorem sum_set_phase (f : Phase → Nat) : ∀ (l : List Phase) (i : Nat) (x y : Phase),
    l.get? i = some y →
    ((l.set i x).map f).sum + f y = (l.map f).sum + f x := by
  intro l
  induction l with
  | nil => intro i x y h; simp at h
  | cons a as ih =>
    intro i x y h
    cases i with
    | zero =>
      simp at h
      subst h
      simp
      omega
    | succ i =>
      simp at h
      have := ih i x y (by simpa using h)
      simp only [List.set_cons_succ, List.map_cons, List.sum_cons]
      omega

theorem appended_set_same {α : Type} : ∀ (l : List Phase) (ms : List α) (i : Nat) (x y : Phase),
    l.get? i = some y → x.hasAppended = y.hasAppended →
    (((l.set i x).zip ms).filter (fun pm => pm.1.hasAppended)).map Prod.snd
      = ((l.zip ms).filter (fun pm => pm.1.hasAppended)).map Prod.snd := by
  intro l
  induction l with
  | nil => intro ms i x y h; simp at h
  | cons a as ih =>
    intro ms i x y h hxy
    cases ms with
    | nil => simp
    | cons m ms =>
      cases i with
      | zero =>
        simp at h
        subst h
        simp only [List.set_cons_zero, List.zip_cons_cons, List.filter_cons, hxy]
        split <;> simp
      | succ i =>
        simp at h
        have := ih ms i x y (by simpa using h) hxy
        simp only [List.set_cons_succ, List.zip_cons_cons, List.filter_cons]
        split <;> simp [this]

theorem appended_set_new {α : Type} : ∀ (l : List Phase) (ms : List α) (i : Nat) (x y : Phase)
    (m : α), l.get? i = some y → ms.get? i = some m → x.hasAppended = true →
    y.hasAppended = false →
    ((((l.set i x).zip ms).filter (fun pm => pm.1.hasAppended)).map Prod.snd).Perm
      (((l.zip ms).filter (fun pm => pm.1.hasAppended)).map Prod.snd ++ [m]) := by
  intro l
  induction l with
  | nil => intro ms i x y m h; simp at h
  | cons a as ih =>
    intro ms i x y m h hm hx hy
    cases ms with
    | nil => simp at hm
    | cons m0 ms =>
      cases i with
      | zero =>
        simp at h hm
        subst h hm
        simp only [List.set_cons_zero, List.zip_cons_cons, List.filter_cons, hx, hy, if_true]
        simp only [List.map_cons, Bool.false_eq_true, if_false]
        exact (List.perm_append_singleton _ _).symm
      | succ i =>
        simp at h hm
        have := ih ms i x y m (by simpa using h) (by simpa using hm) hx hy
        simp only [List.set_cons_succ, List.zip_cons_cons, List.filter_cons]
        split
        · simp only [List.map_cons, List.cons_append]
          exact List.Perm.cons _ this
        · exact this

theorem outcomesFrom_get? {F : Type} (L : StdLib F) (Do : Nat → RoundTrip) (t : Tools) :
    ∀ (l : List ToolCall) (k j : Nat),
      (outcomesFrom L Do t k l).get? j = (l.get? j).map (runToolCall L (Do (k + j)) t) := by
  intro l
  induction l with
  | nil => intro k j; simp [outcomesFrom]
  | cons x xs ih =>
    intro k j
    cases j with
    | zero => simp [outcomesFrom]
    | succ j =>
      simp only [outcomesFrom, List.get?_cons_succ]
      rw [ih (k + 1) j]
      have : k + 1 + j = k + (j + 1) := by omega
      rw [this]

theorem outcomesFrom_length {F : Type} (L : StdLib F) (Do : Nat → RoundTrip) (t : Tools) :
    ∀ (l : List ToolCall) (k : Nat), (outcomesFrom L Do t k l).length = l.length := by
  intro l
  induction l with
  | nil => intro k; rfl
  | cons x xs ih => intro k; simp [outcomesFrom, ih]

theorem outcomesFrom_ids {F : Type} (L : StdLib F) (Do : Nat → RoundTrip) (t : Tools) :
    ∀ (l : List ToolCall) (k : Nat),
      (outcomesFrom L Do t k l).map (fun o => o.1.ToolCallID) = l.map ToolCall.ID := by
  intro l
  induction l with
  | nil => intro k; rfl
  | cons x xs ih => intro k; simp [outcomesFrom, ih, runToolCall]

theorem Batch.unit_eq {F : Type} (b : Batch F) (i : Nat) : b.unit i = b.outcomes.get? i := by
  unfold Batch.unit Batch.outcomes
  rw [outcomesFrom_get?]
  simp

theorem step_invariant {F : Type} (b : Batch F) (s s1 : PoolState) (i : Nat)
    (hstep : b.step s i = some s1)
    (hlen : s.phases.length = b.toolCalls.length)
    (hsem : s.sem = s.holders) (hcap : s.sem ≤ b.capacity)
    (hres : s.results.Perm (((s.phases.zip (b.outcomes.map Prod.fst)).filter
      (fun pm => pm.1.hasAppended)).map Prod.snd)) :
    s1.phases.length = b.toolCalls.length
    ∧ s1.sem = s1.holders ∧ s1.sem ≤ b.capacity
    ∧ s1.results.Perm (((s1.phases.zip (b.outcomes.map Prod.fst)).filter
      (fun pm => pm.1.hasAppended)).map Prod.snd)
    ∧ s1.remaining + 1 = s.remaining := by
  unfold Batch.step at hstep
  cases hp : s.phases.get? i with
  | none => rw [hp] at hstep; cases hstep
  | some ph =>
    rw [hp] at hstep
    have hc := fun x => countP_set_phase Phase.holdsSlot s.phases i x ph hp
    have hsum := fun x => sum_set_phase Phase.stepsLeft s.phases i x ph hp
    have hsame := fun x (h : x.hasAppended = ph.hasAppended) =>
      appended_set_same s.phases (b.outcomes.map Prod.fst) i x ph hp h
    cases ph with
    | unspawned =>
      simp only at hstep
      split at hstep
      · injection hstep with hstep
        subst hstep
        have h1 : (s.phases.set i .blocked).countP Phase.holdsSlot + 0
            = s.phases.countP Phase.holdsSlot + 0 := hc .blocked
        have h2 : ((s.phases.set i .blocked).map Phase.stepsLeft).sum + 5
            = (s.phases.map Phase.stepsLeft).sum + 4 := hsum .blocked
        simp only [PoolState.holders, PoolState.remaining] at *
        refine ⟨by simpa using hlen, by omega, hcap, ?_, by omega⟩
        rw [hsame .blocked rfl]
        exact hres
      · cases hstep
    | blocked =>
      simp only at hstep
      split at hstep
      · rename_i hlt
        injection hstep with hstep
        subst hstep
        have h1 : (s.phases.set i .holding).countP Phase.holdsSlot + 0
            = s.phases.countP Phase.holdsSlot + 1 := hc .holding
        have h2 : ((s.phases.set i .holding).map Phase.stepsLeft).sum + 4
            = (s.phases.map Phase.stepsLeft).sum + 3 := hsum .holding
        simp only [PoolState.holders, PoolState.remaining] at *
        refine ⟨by simpa using hlen, by omega, by omega, ?_, by omega⟩
        rw [hsame .holding rfl]
        exact hres
      · cases hstep
    | holding =>
      simp only at hstep
      cases hu : b.unit i with
      | none => rw [hu] at hstep; cases hstep
      | some mr =>
        obtain ⟨message, reqs⟩ := mr
        rw [hu] at hstep
        injection hstep with hstep
        subst hstep
        have h1 : (s.phases.set i .appended).countP Phase.holdsSlot + 1
            = s.phases.countP Phase.holdsSlot + 1 := hc .appended
        have h2 : ((s.phases.set i .appended).map Phase.stepsLeft).sum + 3
            = (s.phases.map Phase.stepsLeft).sum + 2 := hsum .appended
        simp only [PoolState.holders, PoolState.remaining] at *
        refine ⟨by simpa using hlen, by omega, hcap, ?_, by omega⟩
        have hm : (b.outcomes.map Prod.fst).get? i = some message := by
          rw [Batch.unit_eq] at hu
          rw [List.get?_eq_getElem?] at hu ⊢
          rw [List.getElem?_map, hu]
          rfl
        have := appended_set_new s.phases (b.outcomes.map Prod.fst) i .appended .holding message
          hp hm rfl rfl
        exact (List.Perm.append_right [message] hres).trans this.symm
    | appended =>
      simp only at hstep
      injection hstep with hstep
      subst hstep
      have h1 : (s.phases.set i .released).countP Phase.holdsSlot + 1
          = s.phases.countP Phase.holdsSlot + 0 := hc .released
      have h2 : ((s.phases.set i .released).map Phase.stepsLeft).sum + 2
          = (s.phases.map Phase.stepsLeft).sum + 1 := hsum .released
      simp only [PoolState.holders, PoolState.remaining] at *
      refine ⟨by simpa using hlen, by omega, by omega, ?_, by omega⟩
      rw [hsame .released rfl]
      exact hres
    | released =>
      simp only at hstep
      injection hstep with hstep
      subst hstep
      have h1 : (s.phases.set i .done).countP Phase.holdsSlot + 0
          = s.phases.countP Phase.holdsSlot + 0 := hc .done
      have h2 : ((s.phases.set i .done).map Phase.stepsLeft).sum + 1
          = (s.phases.map Phase.stepsLeft).sum + 0 := hsum .done
      simp only [PoolState.holders, PoolState.remaining] at *
      refine ⟨by simpa using hlen, by omega, hcap, ?_, by omega⟩
      rw [hsame .done rfl]
      exact hres
    | done => cases hstep

theorem reachable_invariant {F : Type} (b : Batch F) (s : PoolState) (h : b.Reachable s) :
    s.phases.length = b.toolCalls.length
    ∧ s.sem = s.holders ∧ s.sem ≤ b.capacity
    ∧ s.results.Perm (((s.phases.zip (b.outcomes.map Prod.fst)).filter
      (fun pm => pm.1.hasAppended)).map Prod.snd) := by
  induction h with
  | init =>
    refine ⟨by simp [Batch.init], ?_, by simp [Batch.init], ?_⟩
    · simp only [Batch.init, PoolState.holders]
      induction b.toolCalls with
      | nil => rfl
      | cons x xs ih => simpa [List.countP_cons, Phase.holdsSlot] using ih
    · simp only [Batch.init]
      generalize b.outcomes.map Prod.fst = ms
      induction b.toolCalls generalizing ms with
      | nil => simp
      | cons x xs ih =>
        cases ms with
        | nil => simp
        | cons m ms => simpa [List.filter_cons, Phase.hasAppended] using ih ms
  | step i _ hstep ih =>
    obtain ⟨h1, h2, h3, h4⟩ := ih
    obtain ⟨g1, g2, g3, g4, _⟩ := step_invariant b _ _ i hstep h1 h2 h3 h4
    exact ⟨g1, g2, g3, g4⟩

theorem mem_take_get? {α : Type} : ∀ (l : List α) (i : Nat) (x : α),
    x ∈ l.take i → ∃ j, j < i ∧ l.get? j = some x := by
  intro l
  induction l with
  | nil => intro i x h; simp at h
  | cons a as ih =>
    intro i x h
    cases i with
    | zero => simp at h
    | succ i =>
      simp only [List.take_succ_cons, List.mem_cons] at h
      rcases h with h | h
      · exact ⟨0, by omega, by simp [h]⟩
      · obtain ⟨j, hj, hg⟩ := ih i x h
        exact ⟨j + 1, by omega, by simpa using hg⟩

theorem no_deadlock {F : Type} (b : Batch F) (hK : 1 ≤ b.capacity) (s : PoolState)
    (hr : b.Reachable s) (hnd : s.allDone = false) : ∃ i s1, b.step s i = some s1 := by
  obtain ⟨hlen, hsem, hcap, _⟩ := reachable_invariant b s hr
  by_contra hno
  have hnone : ∀ i, b.step s i = none := by
    intro i
    cases h : b.step s i with
    | none => rfl
    | some s1 => exact absurd ⟨i, s1, h⟩ hno
  have hidx : ∀ x, x ∈ s.phases → ∃ i, s.phases.get? i = some x := fun x hx =>
    List.mem_iff_get?.1 hx
  -- no unit holds a slot or waits for `wg.Done`
  have hmid : ∀ x ∈ s.phases, x ≠ Phase.holding ∧ x ≠ Phase.appended ∧ x ≠ Phase.released := by
    intro x hx
    obtain ⟨i, hi⟩ := hidx x hx
    have hn := hnone i
    unfold Batch.step at hn
    rw [hi] at hn
    refine ⟨?_, ?_, ?_⟩ <;> intro hxe <;> subst hxe
    · simp only at hn
      have hlt : i < b.toolCalls.length := by
        rw [← hlen]
        rw [List.get?_eq_getElem?] at hi
        exact (List.getElem?_eq_some_iff.1 hi).1
      have : ∃ tc, b.toolCalls.get? i = some tc := ⟨b.toolCalls.get ⟨i, hlt⟩, List.get?_eq_get hlt⟩
      obtain ⟨tc, htc⟩ := this
      unfold Batch.unit at hn
      rw [htc] at hn
      cases hn
    · simp at hn
    · simp at hn
  have hzero : s.holders = 0 := by
    unfold PoolState.holders
    rw [List.countP_eq_zero]
    intro x hx
    obtain ⟨h1, h2, _⟩ := hmid x hx
    cases x <;> simp [Phase.holdsSlot] at h1 h2 ⊢
  have hblocked : ∀ x ∈ s.phases, x ≠ Phase.blocked := by
    intro x hx hxe
    subst hxe
    obtain ⟨i, hi⟩ := hidx _ hx
    have hn := hnone i
    unfold Batch.step at hn
    rw [hi] at hn
    have : s.sem < b.capacity := by omega
    simp [this] at hn
  -- some unit has not been started; take the first one
  have hex : ∃ i, s.phases.get? i = some Phase.unspawned := by
    unfold PoolState.allDone at hnd
    have : ∃ x ∈ s.phases, x ≠ Phase.done := by
      by_contra hall
      push_neg at hall
      have : s.phases.all (fun p => decide (p = Phase.done)) = true := by
        rw [List.all_eq_true]
        intro x hx
        simpa using hall x hx
      rw [this] at hnd
      cases hnd
    obtain ⟨x, hx, hxd⟩ := this
    obtain ⟨h1, h2, h3⟩ := hmid x hx
    have h4 := hblocked x hx
    have : x = Phase.unspawned := by cases x <;> simp at h1 h2 h3 h4 hxd ⊢
    subst this
    exact hidx _ hx
  have hmin : ∀ j, j < Nat.find hex → ¬ s.phases.get? j = some Phase.unspawned :=
    fun j hj => Nat.find_min hex hj
  have hspec := Nat.find_spec hex
  have hn := hnone (Nat.find hex)
  unfold Batch.step at hn
  rw [hspec] at hn
  have hall : (s.phases.take (Nat.find hex)).all (fun p => decide (p ≠ Phase.unspawned)) = true := by
    rw [List.all_eq_true]
    intro x hx
    obtain ⟨j, hj, hg⟩ := mem_take_get? _ _ _ hx
    have := hmin j hj
    simp only [decide_eq_true_eq]
    intro hxe
    subst hxe
    exact this hg
  simp only [hall, if_true] at hn
  cases hn

theorem run_reachable {F : Type} (b : Batch F) : ∀ (schedule : List Nat) (s s1 : PoolState),
    b.Reachable s → b.run s schedule = some s1 → b.Reachable s1 := by
  intro schedule
  induction schedule with
  | nil =>
    intro s s1 hr h
    simp only [Batch.run] at h
    injection h with h
    subst h
    exact hr
  | cons i rest ih =>
    intro s s1 hr h
    simp only [Batch.run] at h
    cases hs : b.step s i with
    | none => rw [hs] at h; cases h
    | some s2 =>
      rw [hs] at h
      exact ih s2 s1 (Batch.Reachable.step i hr hs) h

theorem complete_schedule {F : Type} (b : Batch F) (hK : 1 ≤ b.capacity) :
    ∀ (n : Nat) (s : PoolState), b.Reachable s → s.remaining = n →
      ∃ schedule s1, b.run s schedule = some s1 ∧ s1.allDone = true := by
  intro n
  induction n with
  | zero =>
    intro s hr hn
    cases hd : s.allDone with
    | true => exact ⟨[], s, rfl, hd⟩
    | false =>
      obtain ⟨i, s1, hs⟩ := no_deadlock b hK s hr hd
      obtain ⟨h1, h2, h3, h4⟩ := reachable_invariant b s hr
      have := (step_invariant b s s1 i hs h1 h2 h3 h4).2.2.2.2
      omega
  | succ n ih =>
    intro s hr hn
    cases hd : s.allDone with
    | true => exact ⟨[], s, rfl, hd⟩
    | false =>
      obtain ⟨i, s1, hs⟩ := no_deadlock b hK s hr hd
      obtain ⟨h1, h2, h3, h4⟩ := reachable_invariant b s hr
      have := (step_invariant b s s1 i hs h1 h2 h3 h4).2.2.2.2
      obtain ⟨sched, s2, hrun, hdone⟩ := ih s1 (Batch.Reachable.step i hr hs) (by omega)
      exact ⟨i :: sched, s2, by simp [Batch.run, hs, hrun], hdone⟩

theorem allDone_results {F : Type} (b : Batch F) (s : PoolState) (hr : b.Reachable s)
    (hd : s.allDone = true) : s.results.Perm (b.outcomes.map Prod.fst) := by
  obtain ⟨hlen, _, _, hres⟩ := reachable_invariant b s hr
  refine hres.trans ?_
  have hall : ∀ x ∈ s.phases, x = Phase.done := by
    unfold PoolState.allDone at hd
    rw [List.all_eq_true] at hd
    intro x hx
    simpa using hd x hx
  have hl : s.phases.length = (b.outcomes.map Prod.fst).length := by
    simp [Batch.outcomes, outcomesFrom_length, hlen]
  generalize b.outcomes.map Prod.fst = ms at hl
  generalize s.phases = ps at hall hl
  induction ps generalizing ms with
  | nil =>
    cases ms with
    | nil => simp
    | cons m ms => simp at hl
  | cons p ps ih =>
    cases ms with
    | nil => simp at hl
    | cons m ms =>
      have hp : p = Phase.done := hall p (by simp)
      subst hp
      simp only [List.zip_cons_cons, List.filter_cons, Phase.hasAppended, if_true, List.map_cons]
      exact List.Perm.cons _ (ih ms (fun x hx => hall x (by simp [hx])) (by simpa using hl))

theorem NewTools_capacity {F : Type} (L : StdLib F) (Do : Nat → RoundTrip) (config : ToolsConfig)
    (endpoint : GoString) (toolCalls : List ToolCall) :
    1 ≤ Batch.capacity
        (Batch.mk L ((NewTools config).SetAPIEndpoint endpoint) Do toolCalls)
    ∧ ((Batch.capacity (Batch.mk L ((NewTools config).SetAPIEndpoint endpoint) Do toolCalls) : Nat) : Int) = max 1 config.CallToolsConcurrency := by
  simp only [Batch.capacity, NewTools, Tools.SetAPIEndpoint]
  by_cases h : config.CallToolsConcurrency < 1
  · simp only [h, if_true]
    refine ⟨by decide, ?_⟩
    rw [max_eq_left (by omega)]
    rfl
  · simp only [h, if_false]
    refine ⟨by omega, ?_⟩
    rw [max_eq_right (by omega)]
    omega

/-- C8.  For every configured concurrency `c`, every batch and every state an execution of
`CallTools` reaches, the number of units holding a slot of the semaphore (between their send
on `sem` and their deferred receive, the span in which `CallTool` runs) equals the number of
elements in the channel and never exceeds its capacity `K`; `K = max(1, c)`, so `K ≥ 1`. -/
theorem CallTools_concurrency_bound {F : Type} (L : StdLib F) (Do : Nat → RoundTrip)
    (config : ToolsConfig) (endpoint : GoString) (toolCalls : List ToolCall) (s : PoolState)
    (h : Batch.Reachable (Batch.mk L ((NewTools config).SetAPIEndpoint endpoint) Do toolCalls) s) :
    s.holders ≤ Batch.capacity
        (Batch.mk L ((NewTools config).SetAPIEndpoint endpoint) Do toolCalls)
    ∧ s.sem = s.holders
    ∧ 1 ≤ Batch.capacity
        (Batch.mk L ((NewTools config).SetAPIEndpoint endpoint) Do toolCalls)
    ∧ ((Batch.capacity (Batch.mk L ((NewTools config).SetAPIEndpoint endpoint) Do toolCalls) : Nat) : Int) = max 1 config.CallToolsConcurrency := by
  obtain ⟨_, h2, h3, _⟩ := reachable_invariant _ s h
  obtain ⟨h5, h6⟩ := NewTools_capacity L Do config endpoint toolCalls
  exact ⟨by omega, h2, h5, h6⟩

/-- C8, an instance: with `c = 0`, hence `K = 1`, and two calls, after both units are started
and the first has taken the slot, one unit holds a slot and the other waits. -/
theorem CallTools_concurrency_bound_witness :
    ∃ s, Batch.run (Batch.mk exampleLib ((NewTools ⟨ascii "KEY", 0⟩).SetAPIEndpoint (ascii "http://h")) (fun _ _ => .error []) [⟨ascii "a", ascii "x", ascii "1"⟩, ⟨ascii "b", ascii "y", ascii "2"⟩])
          (Batch.init (Batch.mk exampleLib ((NewTools ⟨ascii "KEY", 0⟩).SetAPIEndpoint (ascii "http://h")) (fun _ _ => .error []) [⟨ascii "a", ascii "x", ascii "1"⟩, ⟨ascii "b", ascii "y", ascii "2"⟩]))
          [0, 1, 0] = some s
      ∧ s.phases = [Phase.holding, Phase.blocked] ∧ s.holders = 1
      ∧ s.holders ≤ Batch.capacity (Batch.mk exampleLib ((NewTools ⟨ascii "KEY", 0⟩).SetAPIEndpoint (ascii "http://h")) (fun _ _ => .error []) [⟨ascii "a", ascii "x", ascii "1"⟩, ⟨ascii "b", ascii "y", ascii "2"⟩]) :=
  ⟨_, rfl, rfl, rfl,
    (CallTools_concurrency_bound exampleLib (fun _ _ => .error []) ⟨ascii "KEY", 0⟩ (ascii "http://h")
      [⟨ascii "a", ascii "x", ascii "1"⟩, ⟨ascii "b", ascii "y", ascii "2"⟩] _
      (run_reachable _ [0, 1, 0] _ _ Batch.Reachable.init rfl)).1⟩

/-- C1.  For every batch, whatever the individual calls meet: whenever `CallTools` returns,
its error is nil and its results are a permutation of the per-call results, so there are
exactly as many results as calls and the call identifiers of the results are those of the
batch with their multiplicities; `CallTools` does return under some schedule; the empty
batch returns the empty sequence at once, having sent no request; and no execution can get
stuck or run forever: in every reachable state in which some unit has not finished some
unit can take a step, and every step brings the end one step nearer. -/
theorem CallTools_results {F : Type} (L : StdLib F) (Do : Nat → RoundTrip) (config : ToolsConfig)
    (endpoint : GoString) (toolCalls : List ToolCall) :
    (∀ schedule r,
        ((NewTools config).SetAPIEndpoint endpoint).CallTools L Do toolCalls schedule = some r →
        r.err = none ∧ r.results.length = toolCalls.length
        ∧ (r.results.map ToolMessage.ToolCallID).Perm (toolCalls.map ToolCall.ID)
        ∧ r.results.Perm
            ((outcomesFrom L Do ((NewTools config).SetAPIEndpoint endpoint) 0 toolCalls).map Prod.fst))
    ∧ (∃ schedule r,
        ((NewTools config).SetAPIEndpoint endpoint).CallTools L Do toolCalls schedule = some r)
    ∧ (∀ schedule, ((NewTools config).SetAPIEndpoint endpoint).CallTools L Do [] schedule
        = some { results := [], err := none, sent := [] })
    ∧ (∀ s, Batch.Reachable (Batch.mk L ((NewTools config).SetAPIEndpoint endpoint) Do toolCalls) s → s.allDone = false →
        ∃ i s1, Batch.step (Batch.mk L ((NewTools config).SetAPIEndpoint endpoint) Do toolCalls) s i = some s1)
    ∧ (∀ s i s1, Batch.Reachable (Batch.mk L ((NewTools config).SetAPIEndpoint endpoint) Do toolCalls) s →
        Batch.step (Batch.mk L ((NewTools config).SetAPIEndpoint endpoint) Do toolCalls) s i = some s1 →
        s1.remaining + 1 = s.remaining) := by
  have hK := (NewTools_capacity L Do config endpoint toolCalls).1
  refine ⟨?_, ?_, ?_, ?_, ?_⟩
  · intro schedule r hr
    unfold Tools.CallTools at hr
    by_cases h0 : toolCalls.length = 0
    · simp only [h0, if_true] at hr
      injection hr with hr
      subst hr
      have : toolCalls = [] := List.length_eq_zero.1 h0
      subst this
      simp [outcomesFrom]
    · simp only [h0, if_false] at hr
      cases hrun : Batch.run (Batch.mk L ((NewTools config).SetAPIEndpoint endpoint) Do toolCalls) (Batch.init (Batch.mk L ((NewTools config).SetAPIEndpoint endpoint) Do toolCalls))
          schedule with
      | none => rw [hrun] at hr; cases hr
      | some s =>
        rw [hrun] at hr
        simp only at hr
        cases hd : s.allDone with
        | false => rw [hd] at hr; simp at hr
        | true =>
          rw [hd] at hr
          simp only [if_true] at hr
          injection hr with hr
          subst hr
          have hreach := run_reachable _ schedule _ _ Batch.Reachable.init hrun
          have hperm := allDone_results _ s hreach hd
          simp only [Batch.outcomes] at hperm
          refine ⟨rfl, ?_, ?_, hperm⟩
          · rw [hperm.length_eq]
            simp [outcomesFrom_length]
          · have := hperm.map ToolMessage.ToolCallID
            rw [List.map_map] at this
            have hid := outcomesFrom_ids L Do ((NewTools config).SetAPIEndpoint endpoint) toolCalls 0
            exact this.trans (by rw [← hid]; rfl)
  · by_cases h0 : toolCalls.length = 0
    · exact ⟨[], { results := [], err := none, sent := [] }, by simp [Tools.CallTools, h0]⟩
    · obtain ⟨sched, s1, hrun, hdone⟩ := complete_schedule _ hK _ _ Batch.Reachable.init rfl
      exact ⟨sched, { results := s1.results, err := none, sent := s1.sent },
        by simp only [Tools.CallTools, h0, if_false, hrun, hdone, if_true]⟩
  · intro schedule
    simp [Tools.CallTools]
  · intro s hs hnd
    exact no_deadlock _ hK s hs hnd
  · intro s i s1 hs hstep
    obtain ⟨h1, h2, h3, h4⟩ := reachable_invariant _ s hs
    exact (step_invariant _ s s1 i hstep h1 h2 h3 h4).2.2.2.2

/-! ## JSON strings: what is written is what is read back -/

theorem DecodeRune_valid (b : Nat) (tl : GoString) (hb : ¬ b < 0x80)
    (hs : (DecodeRune (b :: tl)).2 ≠ 1) :
    2 ≤ (DecodeRune (b :: tl)).2
    ∧ (DecodeRune (b :: tl)).2 ≤ (b :: tl).length
    ∧ EncodeRune (DecodeRune (b :: tl)).1 = (b :: tl).take (DecodeRune (b :: tl)).2
    ∧ ∀ x : GoString,
        DecodeRune ((b :: tl).take (DecodeRune (b :: tl)).2 ++ x) = DecodeRune (b :: tl) := by
  by_cases hrange : b < 0xC2 ∨ 0xF4 < b
  · exact absurd (by simp [DecodeRune, hb, hrange]) hs
  cases tl with
  | nil => exact absurd (by simp [DecodeRune, hb, hrange]) hs
  | cons b1 rest1 =>
    by_cases hb1 : b1 < acceptLo b ∨ acceptHi b < b1
    · exact absurd (by simp [DecodeRune, hb, hrange, hb1]) hs
    have hlo : (b = 0xE0 → 0xA0 ≤ b1) ∧ (b = 0xF0 → 0x90 ≤ b1) ∧ 0x80 ≤ b1
        ∧ (b = 0xED → b1 ≤ 0x9F) ∧ (b = 0xF4 → b1 ≤ 0x8F) ∧ b1 ≤ 0xBF := by
      unfold acceptLo acceptHi at hb1
      split_ifs at hb1 <;> omega
    obtain ⟨l1, l2, l3, l4, l5, l6⟩ := hlo
    by_cases h2 : b < 0xE0
    · have hd : ∀ x : GoString, DecodeRune (b :: b1 :: x) = ((b % 32) * 64 + b1 % 64, 2) := by
        intro x
        simp [DecodeRune, hb, hrange, hb1, h2]
      rw [hd rest1]
      refine ⟨by simp, by simp, ?_, fun x => by simpa using hd x⟩
      have k1 : ¬ ((b % 32) * 64 + b1 % 64 ≤ 0x7F) := by omega
      have k2 : (b % 32) * 64 + b1 % 64 ≤ 0x7FF := by omega
      have k3 : 0xC0 + ((b % 32) * 64 + b1 % 64) / 64 = b := by omega
      have k4 : 0x80 + ((b % 32) * 64 + b1 % 64) % 64 = b1 := by omega
      simp only [EncodeRune, k1, k2, if_false, if_true, k3, k4, List.take_succ_cons,
        List.take_zero]
    cases rest1 with
    | nil => exact absurd (by simp [DecodeRune, hb, hrange, hb1, h2]) hs
    | cons b2 rest2 =>
      by_cases hb2 : b2 < 0x80 ∨ 0xBF < b2
      · exact absurd (by simp [DecodeRune, hb, hrange, hb1, h2, hb2]) hs
      by_cases h3 : b < 0xF0
      · have hd : ∀ x : GoString, DecodeRune (b :: b1 :: b2 :: x)
            = ((b % 16) * 4096 + (b1 % 64) * 64 + b2 % 64, 3) := by
          intro x
          simp [DecodeRune, hb, hrange, hb1, h2, hb2, h3]
        rw [hd rest2]
        refine ⟨by simp, by simp, ?_, fun x => by simpa using hd x⟩
        have k1 : ¬ ((b % 16) * 4096 + (b1 % 64) * 64 + b2 % 64 ≤ 0x7F) := by omega
        have k2 : ¬ ((b % 16) * 4096 + (b1 % 64) * 64 + b2 % 64 ≤ 0x7FF) := by omega
        have k3 : ¬ (0x10FFFF < (b % 16) * 4096 + (b1 % 64) * 64 + b2 % 64
            ∨ (0xD800 ≤ (b % 16) * 4096 + (b1 % 64) * 64 + b2 % 64
              ∧ (b % 16) * 4096 + (b1 % 64) * 64 + b2 % 64 ≤ 0xDFFF)) := by omega
        have k4 : (b % 16) * 4096 + (b1 % 64) * 64 + b2 % 64 ≤ 0xFFFF := by omega
        have k5 : 0xE0 + ((b % 16) * 4096 + (b1 % 64) * 64 + b2 % 64) / 4096 = b := by omega
        have k6 : 0x80 + ((b % 16) * 4096 + (b1 % 64) * 64 + b2 % 64) / 64 % 64 = b1 := by omega
        have k7 : 0x80 + ((b % 16) * 4096 + (b1 % 64) * 64 + b2 % 64) % 64 = b2 := by omega
        simp only [EncodeRune, k1, k2, k3, k4, if_false, if_true, k5, k6, k7,
          List.take_succ_cons, List.take_zero]
      cases rest2 with
      | nil => exact absurd (by simp [DecodeRune, hb, hrange, hb1, h2, hb2, h3]) hs
      | cons b3 rest3 =>
        by_cases hb3 : b3 < 0x80 ∨ 0xBF < b3
        · exact absurd (by simp [DecodeRune, hb, hrange, hb1, h2, hb2, h3, hb3]) hs
        have hd : ∀ x : GoString, DecodeRune (b :: b1 :: b2 :: b3 :: x)
            = ((b % 8) * 262144 + (b1 % 64) * 4096 + (b2 % 64) * 64 + b3 % 64, 4) := by
          intro x
          simp [DecodeRune, hb, hrange, hb1, h2, hb2, h3, hb3]
        rw [hd rest3]
        refine ⟨by simp, by simp, ?_, fun x => by simpa using hd x⟩
        have k1 : ¬ ((b % 8) * 262144 + (b1 % 64) * 4096 + (b2 % 64) * 64 + b3 % 64 ≤ 0x7F) := by
          omega
        have k2 : ¬ ((b % 8) * 262144 + (b1 % 64) * 4096 + (b2 % 64) * 64 + b3 % 64 ≤ 0x7FF) := by
          omega
        have k3 : ¬ (0x10FFFF < (b % 8) * 262144 + (b1 % 64) * 4096 + (b2 % 64) * 64 + b3 % 64
            ∨ (0xD800 ≤ (b % 8) * 262144 + (b1 % 64) * 4096 + (b2 % 64) * 64 + b3 % 64
              ∧ (b % 8) * 262144 + (b1 % 64) * 4096 + (b2 % 64) * 64 + b3 % 64 ≤ 0xDFFF)) := by
          omega
        have k4 : ¬ ((b % 8) * 262144 + (b1 % 64) * 4096 + (b2 % 64) * 64 + b3 % 64 ≤ 0xFFFF) := by
          omega
        have k5 : 0xF0 + ((b % 8) * 262144 + (b1 % 64) * 4096 + (b2 % 64) * 64 + b3 % 64) / 262144
            = b := by omega
        have k6 : 0x80 + ((b % 8) * 262144 + (b1 % 64) * 4096 + (b2 % 64) * 64 + b3 % 64) / 4096 % 64
            = b1 := by omega
        have k7 : 0x80 + ((b % 8) * 262144 + (b1 % 64) * 4096 + (b2 % 64) * 64 + b3 % 64) / 64 % 64
            = b2 := by omega
        have k8 : 0x80 + ((b % 8) * 262144 + (b1 % 64) * 4096 + (b2 % 64) * 64 + b3 % 64) % 64
            = b3 := by omega
        simp only [EncodeRune, k1, k2, k3, k4, if_false, k5, k6, k7, k8, List.take_succ_cons,
          List.take_zero]

theorem hexVal_hexDigit (n : Nat) (h : n < 16) : hexVal (hexDigit n) = some n := by
  interval_cases n <;> rfl

theorem scanString_quote (f : Nat) (rest : GoString) :
    scanString (f + 1) (0x22 :: rest) = some ([], rest) := by
  rw [scanString.eq_def]
  simp only [if_true]

theorem scanString_ascii (f c : Nat) (rest : GoString) (h1 : ¬ c = 0x22) (h2 : ¬ c = 0x5C)
    (h3 : ¬ c < 0x20) (h4 : c < 0x80) :
    scanString (f + 1) (c :: rest) = scanCons [c] (scanString f rest) := by
  rw [scanString.eq_def]
  simp only [h1, h2, h3, h4, if_false, if_true]

theorem scanString_utf8 (f c : Nat) (rest : GoString) (h4 : ¬ c < 0x80) :
    scanString (f + 1) (c :: rest)
      = scanCons (EncodeRune (DecodeRune (c :: rest)).1)
          (scanString f (rest.drop ((DecodeRune (c :: rest)).2 - 1))) := by
  have h1 : ¬ c = 0x22 := by omega
  have h2 : ¬ c = 0x5C := by omega
  have h3 : ¬ c < 0x20 := by omega
  rw [scanString.eq_def]
  simp only [h1, h2, h3, h4, if_false]

theorem scanString_escape (f e d : Nat) (rest : GoString)
    (h : (e = 0x22 ∧ d = 0x22) ∨ (e = 0x5C ∧ d = 0x5C) ∨ (e = 0x62 ∧ d = 0x08)
      ∨ (e = 0x66 ∧ d = 0x0C) ∨ (e = 0x6E ∧ d = 0x0A) ∨ (e = 0x72 ∧ d = 0x0D)
      ∨ (e = 0x74 ∧ d = 0x09)) :
    scanString (f + 1) (0x5C :: e :: rest) = scanCons [d] (scanString f rest) := by
  rw [scanString.eq_def]
  rcases h with ⟨h, g⟩ | ⟨h, g⟩ | ⟨h, g⟩ | ⟨h, g⟩ | ⟨h, g⟩ | ⟨h, g⟩ | ⟨h, g⟩ <;> subst h <;> subst g <;>
    simp

theorem scanString_u4 (f rr : Nat) (rest1 : GoString)
    (h : getu4 (0x5C :: 0x75 :: rest1) = some rr) (hs : isSurrogate rr = false) :
    scanString (f + 1) (0x5C :: 0x75 :: rest1)
      = scanCons (EncodeRune rr) (scanString f (rest1.drop 4)) := by
  rw [scanString.eq_def]
  simp only [h, hs]
  simp

theorem scanString_quoteBody : ∀ (n : Nat) (m : GoString) (fuel : Nat) (rest : GoString),
    m.length ≤ n → (quoteBody n m).length < fuel →
    scanString fuel (quoteBody n m ++ 0x22 :: rest) = some (toValidUTF8 n m, rest) := by
  intro n
  induction n with
  | zero =>
    intro m fuel rest hm hf
    cases fuel with
    | zero => omega
    | succ f =>
      simp only [quoteBody, toValidUTF8, List.nil_append]
      exact scanString_quote f rest
  | succ n ih =>
    intro m fuel rest hm hf
    cases fuel with
    | zero => omega
    | succ f =>
      cases m with
      | nil =>
        simp only [quoteBody, toValidUTF8, List.nil_append]
        exact scanString_quote f rest
      | cons b tl =>
        simp only [List.length_cons] at hm
        by_cases hb : b < 0x80
        · -- an ASCII byte
          simp only [quoteBody, toValidUTF8, hb, if_true] at hf ⊢
          by_cases hsafe : htmlSafe b = true
          · simp only [hsafe, if_true, List.singleton_append, List.length_cons] at hf ⊢
            have hs := hsafe
            simp only [htmlSafe, decide_eq_true_eq] at hs
            rw [List.cons_append, scanString_ascii f b _ (by omega) (by omega) (by omega) hb,
              ih tl f rest (by omega) (by omega)]
            rfl
          · simp only [hsafe, Bool.false_eq_true, if_false, List.length_append] at hf ⊢
            have hs : ¬ (0x20 ≤ b ∧ b < 0x80 ∧ b ≠ 0x22 ∧ b ≠ 0x26 ∧ b ≠ 0x3C ∧ b ≠ 0x3E
                ∧ b ≠ 0x5C) := by
              intro h
              exact hsafe (by simp only [htmlSafe, decide_eq_true_eq]; exact h)
            unfold escapeByte at hf ⊢
            by_cases e1 : b = 0x5C ∨ b = 0x22
            · simp only [e1, if_true, List.cons_append, List.nil_append, List.length_cons,
                List.length_nil] at hf ⊢
              rw [scanString_escape f b b _ (by omega), ih tl f rest (by omega) (by omega)]
              rfl
            simp only [e1, if_false] at hf ⊢
            by_cases e2 : b = 0x08
            · simp only [e2, if_true, List.cons_append, List.nil_append, List.length_cons,
                List.length_nil] at hf ⊢
              rw [scanString_escape f 0x62 0x08 _ (by omega), ih tl f rest (by omega) (by omega)]
              rfl
            simp only [e2, if_false] at hf ⊢
            by_cases e3 : b = 0x0C
            · simp only [e3, if_true, List.cons_append, List.nil_append, List.length_cons,
                List.length_nil] at hf ⊢
              rw [scanString_escape f 0x66 0x0C _ (by omega), ih tl f rest (by omega) (by omega)]
              rfl
            simp only [e3, if_false] at hf ⊢
            by_cases e4 : b = 0x0A
            · simp only [e4, if_true, List.cons_append, List.nil_append, List.length_cons,
                List.length_nil] at hf ⊢
              rw [scanString_escape f 0x6E 0x0A _ (by omega), ih tl f rest (by omega) (by omega)]
              rfl
            simp only [e4, if_false] at hf ⊢
            by_cases e5 : b = 0x0D
            · simp only [e5, if_true, List.cons_append, List.nil_append, List.length_cons,
                List.length_nil] at hf ⊢
              rw [scanString_escape f 0x72 0x0D _ (by omega), ih tl f rest (by omega) (by omega)]
              rfl
            simp only [e5, if_false] at hf ⊢
            by_cases e6 : b = 0x09
            · simp only [e6, if_true, List.cons_append, List.nil_append, List.length_cons,
                List.length_nil] at hf ⊢
              rw [scanString_escape f 0x74 0x09 _ (by omega), ih tl f rest (by omega) (by omega)]
              rfl
            simp only [e6, if_false, List.cons_append, List.nil_append, List.length_cons,
              List.length_nil] at hf ⊢
            have g1 := hexVal_hexDigit (b / 16) (by omega)
            have g2 := hexVal_hexDigit (b % 16) (by omega)
            have g0 : hexVal 0x30 = some 0 := by rfl
            have hv : 0 * 4096 + 0 * 256 + b / 16 * 16 + b % 16 = b := by omega
            have hg : getu4 (0x5C :: 0x75 :: 0x30 :: 0x30 :: hexDigit (b / 16) :: hexDigit (b % 16)
                :: (quoteBody n tl ++ 0x22 :: rest)) = some b := by
              simp only [getu4, g0, g1, g2, hv, and_self, if_true]
            have hsur : isSurrogate b = false := by
              simp only [isSurrogate, decide_eq_false_iff_not]
              omega
            have henc : EncodeRune b = [b] := by
              have : b ≤ 0x7F := by omega
              simp only [EncodeRune, this, if_true]
            rw [scanString_u4 f b _ hg hsur, henc]
            simp only [List.drop_succ_cons, List.drop_zero]
            rw [ih tl f rest (by omega) (by omega)]
            rfl
        · -- a byte that is not ASCII
          by_cases hsz : (DecodeRune (b :: tl)).2 = 1
          · simp only [quoteBody, toValidUTF8, hb, hsz, if_false, if_true, List.cons_append,
              List.nil_append, List.length_cons] at hf ⊢
            have hg : getu4 (0x5C :: 0x75 :: 0x66 :: 0x66 :: 0x66 :: 0x64
                :: (quoteBody n tl ++ 0x22 :: rest)) = some 0xFFFD := by rfl
            rw [scanString_u4 f 0xFFFD _ hg (by rfl)]
            simp only [List.drop_succ_cons, List.drop_zero]
            rw [ih tl f rest (by omega) (by omega)]
            rfl
          · obtain ⟨v1, v2, v3, v4⟩ := DecodeRune_valid b tl hb hsz
            have hdrop : (tl.drop ((DecodeRune (b :: tl)).2 - 1)).length ≤ n := by
              simp only [List.length_drop]
              omega
            have htake : (b :: tl).take (DecodeRune (b :: tl)).2
                = b :: tl.take ((DecodeRune (b :: tl)).2 - 1) := by
              obtain ⟨k, hk⟩ : ∃ k, (DecodeRune (b :: tl)).2 = k + 1 :=
                ⟨_, (Nat.sub_add_cancel (by omega)).symm⟩
              rw [hk]
              simp
            by_cases h28 : (DecodeRune (b :: tl)).1 = 0x2028 ∨ (DecodeRune (b :: tl)).1 = 0x2029
            · simp only [quoteBody, toValidUTF8, hb, hsz, h28, if_false, if_true, List.cons_append,
                List.nil_append, List.length_cons] at hf ⊢
              rw [← v3]
              have hr : getu4 (0x5C :: 0x75 :: 0x32 :: 0x30 :: 0x32
                  :: hexDigit ((DecodeRune (b :: tl)).1 % 16)
                  :: (quoteBody n (tl.drop ((DecodeRune (b :: tl)).2 - 1)) ++ 0x22 :: rest))
                  = some (DecodeRune (b :: tl)).1 := by
                rcases h28 with h | h <;> rw [h] <;> rfl
              have hsur : isSurrogate (DecodeRune (b :: tl)).1 = false := by
                rcases h28 with h | h <;> rw [h] <;> rfl
              rw [scanString_u4 f _ _ hr hsur]
              simp only [List.drop_succ_cons, List.drop_zero]
              rw [ih _ f rest hdrop (by omega)]
              rfl
            · simp only [quoteBody, toValidUTF8, hb, hsz, h28, if_false, List.length_append] at hf ⊢
              have hlen : ((b :: tl).take (DecodeRune (b :: tl)).2).length
                  = (DecodeRune (b :: tl)).2 := by
                rw [List.length_take]
                exact Nat.min_eq_left v2
              rw [hlen] at hf
              have v4' := v4 (quoteBody n (tl.drop ((DecodeRune (b :: tl)).2 - 1)) ++ 0x22 :: rest)
              rw [htake] at v4' ⊢
              simp only [List.cons_append, List.append_assoc] at v4' ⊢
              rw [scanString_utf8 f b _ hb, v4']
              have hd : (tl.take ((DecodeRune (b :: tl)).2 - 1)
                  ++ (quoteBody n (tl.drop ((DecodeRune (b :: tl)).2 - 1)) ++ 0x22 :: rest)).drop
                    ((DecodeRune (b :: tl)).2 - 1)
                  = quoteBody n (tl.drop ((DecodeRune (b :: tl)).2 - 1)) ++ 0x22 :: rest := by
                have : (tl.take ((DecodeRune (b :: tl)).2 - 1)).length
                    = (DecodeRune (b :: tl)).2 - 1 := by
                  rw [List.length_take]
                  simp only [List.length_cons] at v2
                  omega
                rw [List.drop_append_eq_append_drop, this]
                simp
              rw [hd, ih _ f rest hdrop (by omega), v3, htake]
              rfl

theorem Marshal_error_object {F : Type} (L : StdLib F) (m : GoString) :
    Marshal L (resultOrError (.error m) : Value F)
      = .ok (0x7B :: 0x22 :: (ascii "error" ++ 0x22 :: 0x3A :: 0x22
          :: (quoteBody m.length m ++ [0x22, 0x7D]))) := by
  simp only [resultOrError, Marshal, marshalMembers, encodeObject, sortByKey, insertByKey,
    encodeMembers, joinWith]
  have : appendString (ascii "error") = 0x22 :: (ascii "error" ++ [0x22]) := by decide
  rw [this]
  simp [appendString]

theorem scanString_key_error (rest : GoString) (fuel : Nat) (h : 5 < fuel) :
    scanString fuel (ascii "error" ++ 0x22 :: rest) = some (ascii "error", rest) := by
  have h1 : quoteBody 5 (ascii "error") = ascii "error" := by decide
  have h2 : toValidUTF8 5 (ascii "error") = ascii "error" := by decide
  have := scanString_quoteBody 5 (ascii "error") fuel rest (by decide) (by rw [h1]; exact h)
  rw [h1, h2] at this
  exact this

theorem UnmarshalAny_error_object {F : Type} (L : StdLib F) (m : GoString) :
    UnmarshalAny L (0x7B :: 0x22 :: (ascii "error" ++ 0x22 :: 0x3A :: 0x22
        :: (quoteBody m.length m ++ [0x22, 0x7D])))
      = some (.mapIface [(ascii "error", .string (toValidUTF8 m.length m))]) := by
  unfold UnmarshalAny
  have hskip : ∀ (c : Nat) (r : GoString), isSpace c = false → skipSpace (c :: r) = c :: r := by
    intro c r hc
    simp [skipSpace, hc]
  rw [hskip _ _ (by decide)]
  generalize hfuel : (0x7B :: 0x22 :: (ascii "error" ++ 0x22 :: 0x3A :: 0x22
        :: (quoteBody m.length m ++ [0x22, 0x7D]))).length = fuel
  have hf3 : 3 ≤ fuel := by
    rw [← hfuel]
    simp only [List.length_cons, List.length_append]
    omega
  obtain ⟨f, rfl⟩ : ∃ f, fuel = f + 3 := ⟨fuel - 3, by omega⟩
  have h1 : parseValue L (f + 3 + 1) 0 (0x7B :: 0x22 :: (ascii "error" ++ 0x22 :: 0x3A :: 0x22
        :: (quoteBody m.length m ++ [0x22, 0x7D])))
      = some (.mapIface [(ascii "error", .string (toValidUTF8 m.length m))], []) := by
    rw [parseValue.eq_def]
    simp only []
    rw [hskip _ _ (by decide)]
    have hd : ¬ maxNestingDepth < 0 + 1 := by decide
    simp only [hd, if_false]
    have hn : ¬ (0x7B : Nat) = 0x22 := by decide
    have hn2 : ¬ (0x22 : Nat) = 0x7D := by decide
    simp only [hn, hn2, if_false, if_true]
    rw [parseMembers.eq_def]
    simp only [if_true]
    rw [scanString_key_error _ _ (by simp [ascii])]
    simp only []
    rw [hskip _ _ (by decide)]
    simp only [if_true]
    rw [hskip _ _ (by decide)]
    rw [parseValue.eq_def]
    simp only [if_true]
    have := scanString_quoteBody m.length m
      ((quoteBody m.length m ++ [0x22, 0x7D]).length + 1) [0x7D] (le_refl _)
      (by simp only [List.length_append, List.length_cons, List.length_nil]; omega)
    simp only [List.singleton_append, List.cons_append, List.nil_append] at this ⊢
    rw [this]
    simp only []
    rw [hskip _ _ (by decide)]
    have hn3 : ¬ (0x7D : Nat) = 0x2C := by decide
    simp only [hn3, if_false, if_true, mapSet]
  rw [h1]
  simp [skipSpace]

/-! ## `CallTools`: failures stay in their unit -/

theorem CallTools_returns {F : Type} (L : StdLib F) (Do : Nat → RoundTrip) (t : Tools)
    (toolCalls : List ToolCall) (schedule : List Nat) (r : BatchReturn)
    (hr : t.CallTools L Do toolCalls schedule = some r) :
    r.err = none ∧ r.results.Perm ((outcomesFrom L Do t 0 toolCalls).map Prod.fst) := by
  unfold Tools.CallTools at hr
  by_cases h0 : toolCalls.length = 0
  · simp only [h0, if_true] at hr
    injection hr with hr
    subst hr
    have : toolCalls = [] := List.length_eq_zero.1 h0
    subst this
    simp [outcomesFrom]
  · simp only [h0, if_false] at hr
    cases hrun : Batch.run (Batch.mk L t Do toolCalls) (Batch.init (Batch.mk L t Do toolCalls))
        schedule with
    | none => rw [hrun] at hr; cases hr
    | some s =>
      rw [hrun] at hr
      simp only at hr
      cases hd : s.allDone with
      | false => rw [hd] at hr; simp at hr
      | true =>
        rw [hd] at hr
        simp only [if_true] at hr
        injection hr with hr
        subst hr
        have hreach := run_reachable _ schedule _ _ Batch.Reachable.init hrun
        have hperm := allDone_results _ s hreach hd
        exact ⟨rfl, hperm⟩

theorem CallTools_progress {F : Type} (L : StdLib F) (Do : Nat → RoundTrip)
    (config : ToolsConfig) (endpoint : GoString) (toolCalls : List ToolCall) :
    (∃ schedule r,
      ((NewTools config).SetAPIEndpoint endpoint).CallTools L Do toolCalls schedule = some r)
    ∧ (∀ s, Batch.Reachable (Batch.mk L ((NewTools config).SetAPIEndpoint endpoint) Do toolCalls) s →
        s.allDone = false →
        ∃ i s1, Batch.step (Batch.mk L ((NewTools config).SetAPIEndpoint endpoint) Do toolCalls) s i
          = some s1)
    ∧ (∀ s i s1,
        Batch.Reachable (Batch.mk L ((NewTools config).SetAPIEndpoint endpoint) Do toolCalls) s →
        Batch.step (Batch.mk L ((NewTools config).SetAPIEndpoint endpoint) Do toolCalls) s i
          = some s1 →
        s1.remaining + 1 = s.remaining) := by
  have hK := (NewTools_capacity L Do config endpoint toolCalls).1
  refine ⟨?_, ?_, ?_⟩
  · by_cases h0 : toolCalls.length = 0
    · exact ⟨[], { results := [], err := none, sent := [] }, by simp [Tools.CallTools, h0]⟩
    · obtain ⟨sched, s1, hrun, hdone⟩ := complete_schedule _ hK _ _ Batch.Reachable.init rfl
      exact ⟨sched, { results := s1.results, err := none, sent := s1.sent },
        by simp only [Tools.CallTools, h0, if_false, hrun, hdone, if_true]⟩
  · intro s hs hnd
    exact no_deadlock _ hK s hs hnd
  · intro s i s1 hs hstep
    obtain ⟨h1, h2, h3, h4⟩ := reachable_invariant _ s hs
    exact (step_invariant _ s s1 i hstep h1 h2 h3 h4).2.2.2.2

theorem outcomesFrom_append {F : Type} (L : StdLib F) (Do : Nat → RoundTrip) (t : Tools) :
    ∀ (a b : List ToolCall) (k : Nat),
      outcomesFrom L Do t k (a ++ b)
        = outcomesFrom L Do t k a ++ outcomesFrom L Do t (k + a.length) b := by
  intro a
  induction a with
  | nil => intro b k; simp [outcomesFrom]
  | cons x xs ih =>
    intro b k
    have : k + 1 + xs.length = k + (xs.length + 1) := by omega
    rw [List.cons_append]
    simp only [outcomesFrom, List.length_cons]
    rw [ih, this]
    rfl

theorem outcomesFrom_congr {F : Type} (L : StdLib F) (Do Do1 : Nat → RoundTrip) (t : Tools) :
    ∀ (l : List ToolCall) (k : Nat), (∀ j, k ≤ j → j < k + l.length → Do1 j = Do j) →
      outcomesFrom L Do1 t k l = outcomesFrom L Do t k l := by
  intro l
  induction l with
  | nil => intro k _; simp [outcomesFrom]
  | cons x xs ih =>
    intro k h
    simp only [outcomesFrom]
    rw [h k (le_refl _) (by simp), ih (k + 1) (fun j h1 h2 => h j (by omega) (by
      simp only [List.length_cons]
      omega))]

/-- C2 (amended).  For every batch: `CallTools` returns (some schedule of its goroutines
brings it to its end, no state it reaches is stuck before every unit has finished, and every
step brings the end one step nearer), and whenever it returns its error is nil.  When the
`CallTool` invocation of a unit fails with the message `m`, the returned results hold a
result that carries the call's identifier and whose content parses as the JSON object whose
only field `error` is `m` coerced to valid UTF-8 (every byte that does not start a valid
encoding replaced by U+FFFD), hence `m` itself when `m` is valid UTF-8.  And the results of
the other calls do not depend on that call: put any call in its place and let its request
meet anything (so that it succeeds instead), and the returned results are, up to order, the
result of that unit and the very same results of the others. -/
theorem CallTools_contains_failures {F : Type} (L : StdLib F) (Do : Nat → RoundTrip)
    (config : ToolsConfig) (endpoint : GoString) (toolCalls : List ToolCall) :
    ((∃ schedule r,
        ((NewTools config).SetAPIEndpoint endpoint).CallTools L Do toolCalls schedule = some r)
      ∧ (∀ s, Batch.Reachable
            (Batch.mk L ((NewTools config).SetAPIEndpoint endpoint) Do toolCalls) s →
          s.allDone = false →
          ∃ i s1, Batch.step
            (Batch.mk L ((NewTools config).SetAPIEndpoint endpoint) Do toolCalls) s i = some s1)
      ∧ (∀ s i s1, Batch.Reachable
            (Batch.mk L ((NewTools config).SetAPIEndpoint endpoint) Do toolCalls) s →
          Batch.step (Batch.mk L ((NewTools config).SetAPIEndpoint endpoint) Do toolCalls) s i
            = some s1 →
          s1.remaining + 1 = s.remaining))
    ∧ (∀ schedule r,
        ((NewTools config).SetAPIEndpoint endpoint).CallTools L Do toolCalls schedule = some r →
        r.err = none
        ∧ ∀ (i : Nat) (toolCall : ToolCall) (m : GoString),
            toolCalls.get? i = some toolCall →
            (((NewTools config).SetAPIEndpoint endpoint).CallTool L (Do i) toolCall.Name
                (.string toolCall.Arguments)).result = .error m →
            ∃ msg ∈ r.results, msg.ToolCallID = toolCall.ID
              ∧ UnmarshalAny L msg.Content
                  = some (.mapIface [(ascii "error", .string (toValidUTF8 m.length m))])
              ∧ (ValidUTF8 m →
                  UnmarshalAny L msg.Content = some (.mapIface [(ascii "error", .string m)])))
    ∧ (∀ (pre post : List ToolCall) (tc tc1 : ToolCall) (Do1 : Nat → RoundTrip),
        toolCalls = pre ++ tc :: post → (∀ j, j ≠ pre.length → Do1 j = Do j) →
        ∀ schedule r schedule1 r1,
          ((NewTools config).SetAPIEndpoint endpoint).CallTools L Do toolCalls schedule = some r →
          ((NewTools config).SetAPIEndpoint endpoint).CallTools L Do1 (pre ++ tc1 :: post)
              schedule1 = some r1 →
          r.results.Perm
              ((runToolCall L (Do pre.length) ((NewTools config).SetAPIEndpoint endpoint) tc).1
                :: (outcomesFrom L Do ((NewTools config).SetAPIEndpoint endpoint) 0 pre
                    ++ outcomesFrom L Do ((NewTools config).SetAPIEndpoint endpoint)
                        (pre.length + 1) post).map Prod.fst)
          ∧ r1.results.Perm
              ((runToolCall L (Do1 pre.length) ((NewTools config).SetAPIEndpoint endpoint) tc1).1
                :: (outcomesFrom L Do ((NewTools config).SetAPIEndpoint endpoint) 0 pre
                    ++ outcomesFrom L Do ((NewTools config).SetAPIEndpoint endpoint)
                        (pre.length + 1) post).map Prod.fst)) := by
  refine ⟨CallTools_progress L Do config endpoint toolCalls, ?_, ?_⟩
  · intro schedule r hr
    obtain ⟨herr, hperm⟩ := CallTools_returns L Do _ toolCalls schedule r hr
    refine ⟨herr, ?_⟩
    intro i toolCall m hget hfail
    have hcontent : (runToolCall L (Do i) ((NewTools config).SetAPIEndpoint endpoint)
        toolCall).1.Content
        = 0x7B :: 0x22 :: (ascii "error" ++ 0x22 :: 0x3A :: 0x22
          :: (quoteBody m.length m ++ [0x22, 0x7D])) := by
      simp only [runToolCall, hfail, Marshal_error_object, contentOf]
    have hout : (outcomesFrom L Do ((NewTools config).SetAPIEndpoint endpoint) 0 toolCalls).get? i
        = some (runToolCall L (Do i) ((NewTools config).SetAPIEndpoint endpoint) toolCall) := by
      rw [outcomesFrom_get?, hget]
      simp only [Option.map_some', Nat.zero_add]
    have hmem : (runToolCall L (Do i) ((NewTools config).SetAPIEndpoint endpoint) toolCall).1
        ∈ r.results := by
      apply hperm.mem_iff.2
      exact List.mem_map_of_mem _ (List.get?_mem hout)
    refine ⟨_, hmem, rfl, ?_, ?_⟩
    · rw [hcontent, UnmarshalAny_error_object]
    · intro hv
      rw [hcontent, UnmarshalAny_error_object]
      unfold ValidUTF8 at hv
      rw [hv]
  · intro pre post tc tc1 Do1 hsplit hDo schedule r schedule1 r1 hr hr1
    obtain ⟨_, hperm⟩ := CallTools_returns L Do _ toolCalls schedule r hr
    obtain ⟨_, hperm1⟩ := CallTools_returns L Do1 _ _ schedule1 r1 hr1
    have hpre : outcomesFrom L Do1 ((NewTools config).SetAPIEndpoint endpoint) 0 pre
        = outcomesFrom L Do ((NewTools config).SetAPIEndpoint endpoint) 0 pre :=
      outcomesFrom_congr L Do Do1 _ pre 0 (fun j _ h2 => hDo j (by omega))
    have hpost : outcomesFrom L Do1 ((NewTools config).SetAPIEndpoint endpoint)
          (pre.length + 1) post
        = outcomesFrom L Do ((NewTools config).SetAPIEndpoint endpoint) (pre.length + 1) post :=
      outcomesFrom_congr L Do Do1 _ post (pre.length + 1) (fun j h1 _ => hDo j (by omega))
    rw [hsplit, outcomesFrom_append] at hperm
    rw [outcomesFrom_append] at hperm1
    simp only [outcomesFrom, Nat.zero_add, List.map_append, List.map_cons] at hperm hperm1 ⊢
    rw [hpre, hpost] at hperm1
    exact ⟨hperm.trans List.perm_middle, hperm1.trans List.perm_middle⟩

/-- C2, an instance: a batch of two, a call to an unknown tool and a search that succeeds,
run to its end. -/
theorem CallTools_contains_failures_witness :
    ∃ r, ((NewTools ⟨ascii "KEY", 2⟩).SetAPIEndpoint (ascii "http://h")).CallTools exampleLib
          (fun _ _ => .ok ⟨200, ascii "[]", none⟩)
          [⟨ascii "c1", ascii "nope", ascii "null"⟩,
            ⟨ascii "c2", ascii "search_services", ascii "\x7b\x7d"⟩]
          [0, 1, 0, 1, 0, 1, 0, 1, 0, 1] = some r
      ∧ (r.err, r.results)
          = (none, [⟨ascii "c1", ascii "\x7b\"error\":\"unknown tool name: nope\"\x7d"⟩,
              ⟨ascii "c2", ascii "[]"⟩])
      ∧ ∃ msg ∈ r.results, msg.ToolCallID = ascii "c1"
          ∧ UnmarshalAny exampleLib msg.Content
              = some (.mapIface [(ascii "error", .string (ascii "unknown tool name: nope"))]) := by
  have hrun : (((NewTools ⟨ascii "KEY", 2⟩).SetAPIEndpoint (ascii "http://h")).CallTools
        exampleLib (fun _ _ => .ok ⟨200, ascii "[]", none⟩)
        [⟨ascii "c1", ascii "nope", ascii "null"⟩,
          ⟨ascii "c2", ascii "search_services", ascii "\x7b\x7d"⟩]
        [0, 1, 0, 1, 0, 1, 0, 1, 0, 1]).map (fun r => (r.err, r.results))
      = some (none, [⟨ascii "c1", ascii "\x7b\"error\":\"unknown tool name: nope\"\x7d"⟩,
          ⟨ascii "c2", ascii "[]"⟩]) := by rfl
  obtain ⟨r, hr, hres⟩ := Option.map_eq_some'.1 hrun
  obtain ⟨msg, hmem, hid, _, h4⟩ :=
    ((CallTools_contains_failures exampleLib (fun _ _ => .ok ⟨200, ascii "[]", none⟩)
      ⟨ascii "KEY", 2⟩ (ascii "http://h")
      [⟨ascii "c1", ascii "nope", ascii "null"⟩,
        ⟨ascii "c2", ascii "search_services", ascii "\x7b\x7d"⟩]).2.1
      [0, 1, 0, 1, 0, 1, 0, 1, 0, 1] r hr).2 0
      ⟨ascii "c1", ascii "nope", ascii "null"⟩ (ascii "unknown tool name: nope") rfl (by rfl)
  exact ⟨r, hr, hres, msg, hmem, hid, h4 (by decide)⟩

/-- C2 as stated fails: when the backend answers 500 with the one-byte body `0xFF`, the
call fails with a message that ends in that byte, and the `error` field of the content ends
in U+FFFD instead: it is not the message. -/
theorem CallTools_error_not_verbatim :
    ((NewTools ⟨ascii "KEY", 1⟩).CallTool exampleLib (fun _ => .ok ⟨500, [0xFF], none⟩)
        (ascii "invoke_service") (.string (ascii "\x7b\x7d"))).result
      = .error (ascii "HTTP error! status: 500, body: " ++ [0xFF])
    ∧ UnmarshalAny exampleLib
        (runToolCall exampleLib (fun _ => .ok ⟨500, [0xFF], none⟩) (NewTools ⟨ascii "KEY", 1⟩)
          ⟨ascii "c1", ascii "invoke_service", ascii "\x7b\x7d"⟩).1.Content
      = some (.mapIface [(ascii "error",
          .string (ascii "HTTP error! status: 500, body: " ++ [0xEF, 0xBF, 0xBD]))])
    ∧ ascii "HTTP error! status: 500, body: " ++ [0xEF, 0xBF, 0xBD]
      ≠ ascii "HTTP error! status: 500, body: " ++ [0xFF] := by
  refine ⟨by rfl, by rfl, by decide⟩

/-! ## Objects with string members: what is written is what is read back -/

theorem skipSpace_cons (c : Nat) (r : GoString) (hc : isSpace c = false) :
    skipSpace (c :: r) = c :: r := by
  simp [skipSpace, hc]

theorem parseValue_string {F : Type} (L : StdLib F) (fuel depth : Nat) (v rest : GoString) :
    parseValue L (fuel + 1) depth (0x22 :: (quoteBody v.length v ++ 0x22 :: rest))
      = some (.string (toValidUTF8 v.length v), rest) := by
  rw [parseValue.eq_def]
  simp only [if_true]
  rw [scanString_quoteBody v.length v _ rest (le_refl _)
    (by simp only [List.length_append, List.length_cons]; omega)]

theorem parseMembers_strings {F : Type} (L : StdLib F) (depth : Nat) :
    ∀ (m : List (GoString × GoString)) (x : GoString × GoString) (fuel : Nat)
      (acc : List (GoString × Value F)) (rest : GoString),
      m.length + 2 ≤ fuel →
      (∀ kv ∈ x :: m, ValidUTF8 kv.1 ∧ ValidUTF8 kv.2) →
      (acc.map Prod.fst ++ (x :: m).map Prod.fst).Nodup →
      parseMembers L fuel depth acc
          (joinWith [0x2C] ((x :: m).map fun kv => appendString kv.1 ++ [0x3A] ++ appendString kv.2)
            ++ 0x7D :: rest)
        = some (.mapIface (acc ++ (x :: m).map fun kv => (kv.1, Value.string kv.2)), rest) := by
  intro m
  induction m with
  | nil =>
    intro x fuel acc rest hf hv hn
    obtain ⟨f, rfl⟩ : ∃ f, fuel = f + 2 := ⟨fuel - 2, by omega⟩
    obtain ⟨hk, hval⟩ := hv x (by simp)
    unfold ValidUTF8 at hk hval
    simp only [List.map_cons, List.map_nil, joinWith, appendString, List.cons_append,
      List.append_assoc, List.nil_append, List.singleton_append]
    rw [parseMembers.eq_def]
    simp only [if_true]
    rw [scanString_quoteBody x.1.length x.1 _ _ (le_refl _)
      (by simp only [List.length_append, List.length_cons]; omega)]
    simp only []
    rw [skipSpace_cons _ _ (by decide)]
    simp only [if_true]
    rw [skipSpace_cons _ _ (by decide), parseValue_string]
    simp only []
    rw [skipSpace_cons _ _ (by decide)]
    have h1 : ¬ (0x7D : Nat) = 0x2C := by decide
    simp only [h1, if_false, if_true, hk, hval]
    rw [mapSet_new acc x.1 _ (by
      intro hmem
      have := List.nodup_append.1 hn
      exact this.2.2 hmem (by simp))]
  | cons y ys ih =>
    intro x fuel acc rest hf hv hn
    obtain ⟨f, rfl⟩ : ∃ f, fuel = f + 1 := ⟨fuel - 1, by simp only [List.length_cons] at hf; omega⟩
    obtain ⟨hk, hval⟩ := hv x (by simp)
    unfold ValidUTF8 at hk hval
    have hj : joinWith [0x2C]
        ((x :: y :: ys).map fun kv => appendString kv.1 ++ [0x3A] ++ appendString kv.2)
        = (appendString x.1 ++ [0x3A] ++ appendString x.2) ++ [0x2C] ++ joinWith [0x2C]
            ((y :: ys).map fun kv => appendString kv.1 ++ [0x3A] ++ appendString kv.2) := by
      simp only [List.map_cons, joinWith]
    rw [hj]
    have hnext : ∀ r : GoString, joinWith [0x2C]
        ((y :: ys).map fun kv => appendString kv.1 ++ [0x3A] ++ appendString kv.2) ++ r
        = 0x22 :: ((joinWith [0x2C]
          ((y :: ys).map fun kv => appendString kv.1 ++ [0x3A] ++ appendString kv.2) ++ r).drop 1) := by
      intro r
      cases ys with
      | nil => simp [joinWith, appendString]
      | cons z zs => simp [joinWith, appendString]
    simp only [appendString, List.cons_append, List.append_assoc, List.nil_append,
      List.singleton_append]
    rw [parseMembers.eq_def]
    simp only [if_true]
    rw [scanString_quoteBody x.1.length x.1 _ _ (le_refl _)
      (by simp only [List.length_append, List.length_cons]; omega)]
    simp only []
    rw [skipSpace_cons _ _ (by decide)]
    simp only [if_true]
    rw [skipSpace_cons _ _ (by decide)]
    obtain ⟨f1, rfl⟩ : ∃ f1, f = f1 + 1 := ⟨f - 1, by simp only [List.length_cons] at hf; omega⟩
    rw [parseValue_string]
    simp only []
    rw [skipSpace_cons _ _ (by decide)]
    simp only [if_true, hk, hval]
    have ha := ih y (f1 + 1) (mapSet acc x.1 (Value.string x.2)) rest
      (by simp only [List.length_cons] at hf; omega)
      (fun kv hkv => hv kv (by simp only [List.mem_cons] at hkv ⊢; exact Or.inr hkv))
    rw [mapSet_new acc x.1 _ (by
      intro hmem
      have := List.nodup_append.1 hn
      exact this.2.2 hmem (by simp))] at ha ⊢
    have hn2 : ((acc ++ [(x.1, Value.string x.2)]).map Prod.fst ++ (y :: ys).map Prod.fst).Nodup := by
      simpa using hn
    have ha2 := ha hn2
    simp only [appendString, List.cons_append, List.append_assoc, List.nil_append,
      List.singleton_append] at ha2 hnext
    rw [hnext (0x7D :: rest)] at ha2 ⊢
    rw [skipSpace_cons _ _ (by decide), ha2]
    simp

theorem encodeMembers_strings (ms : List (GoString × GoString)) :
    encodeMembers (ms.map fun (kv : GoString × GoString) =>
        (kv.1, (Except.ok (appendString kv.2) : Except GoString GoString)))
      = .ok (ms.map fun (kv : GoString × GoString) =>
          appendString kv.1 ++ [0x3A] ++ appendString kv.2) := by
  induction ms with
  | nil => rfl
  | cons x xs ih => simp only [List.map_cons, encodeMembers, ih]

theorem marshalMembers_strings {F : Type} (L : StdLib F) (m : List (GoString × GoString)) :
    marshalMembers L (m.map fun (kv : GoString × GoString) => (kv.1, (Value.string kv.2 : Value F)))
      = m.map fun (kv : GoString × GoString) =>
          (kv.1, (Except.ok (appendString kv.2) : Except GoString GoString)) := by
  induction m with
  | nil => rfl
  | cons x xs ih => simp only [List.map_cons, marshalMembers, Marshal, ih]

theorem encodeObject_strings (m : List (GoString × GoString)) (hs : sortByKey m = m) :
    encodeObject (m.map fun (kv : GoString × GoString) =>
        (kv.1, (Except.ok (appendString kv.2) : Except GoString GoString)))
      = .ok ([0x7B] ++ joinWith [0x2C]
          (m.map fun (kv : GoString × GoString) =>
            appendString kv.1 ++ [0x3A] ++ appendString kv.2) ++ [0x7D]) := by
  unfold encodeObject
  have h1 := sortByKey_map (fun v => (Except.ok (appendString v) : Except GoString GoString)) m
  rw [h1, hs, encodeMembers_strings]

theorem Marshal_mapString {F : Type} (L : StdLib F) (m : List (GoString × GoString))
    (hs : sortByKey m = m) :
    Marshal L (.mapString m : Value F)
      = .ok ([0x7B] ++ joinWith [0x2C]
          (m.map fun (kv : GoString × GoString) =>
            appendString kv.1 ++ [0x3A] ++ appendString kv.2) ++ [0x7D])
    ∧ Marshal L (.mapIface (m.map fun (kv : GoString × GoString) =>
          (kv.1, Value.string kv.2)) : Value F)
      = .ok ([0x7B] ++ joinWith [0x2C]
          (m.map fun (kv : GoString × GoString) =>
            appendString kv.1 ++ [0x3A] ++ appendString kv.2) ++ [0x7D]) := by
  refine ⟨?_, ?_⟩
  · simp only [Marshal]
    exact encodeObject_strings m hs
  · simp only [Marshal, marshalMembers_strings]
    exact encodeObject_strings m hs

theorem joinWith_length (sep : GoString) :
    ∀ l : List GoString, (∀ p ∈ l, 1 ≤ p.length) → l.length ≤ (joinWith sep l).length := by
  intro l
  induction l with
  | nil => intro _; simp [joinWith]
  | cons x xs ih =>
    intro h
    cases xs with
    | nil =>
      have := h x (by simp)
      simpa [joinWith] using this
    | cons y ys =>
      have h1 := h x (by simp)
      have h2 := ih (fun p hp => h p (by simp only [List.mem_cons] at hp ⊢; exact Or.inr hp))
      simp only [joinWith, List.length_append, List.length_cons] at h2 ⊢
      omega

theorem joinWith_members_head (x : GoString × GoString) (xs : List (GoString × GoString))
    (r : GoString) :
    joinWith [0x2C] ((x :: xs).map fun (kv : GoString × GoString) =>
        appendString kv.1 ++ [0x3A] ++ appendString kv.2) ++ r
      = 0x22 :: ((joinWith [0x2C] ((x :: xs).map fun (kv : GoString × GoString) =>
          appendString kv.1 ++ [0x3A] ++ appendString kv.2) ++ r).drop 1) := by
  cases xs with
  | nil => simp [joinWith, appendString]
  | cons z zs => simp [joinWith, appendString]

theorem Unmarshal_mapString {F : Type} (L : StdLib F) (m : List (GoString × GoString))
    (hn : (m.map Prod.fst).Nodup) (hv : ∀ kv ∈ m, ValidUTF8 kv.1 ∧ ValidUTF8 kv.2) :
    Unmarshal L ([0x7B] ++ joinWith [0x2C]
        (m.map fun (kv : GoString × GoString) =>
          appendString kv.1 ++ [0x3A] ++ appendString kv.2) ++ [0x7D])
      = .ok (.mapIface (m.map fun (kv : GoString × GoString) => (kv.1, Value.string kv.2))) := by
  cases m with
  | nil => rfl
  | cons x xs =>
    have hform : [0x7B] ++ joinWith [0x2C] ((x :: xs).map fun (kv : GoString × GoString) =>
          appendString kv.1 ++ [0x3A] ++ appendString kv.2) ++ [0x7D]
        = 0x7B :: (joinWith [0x2C] ((x :: xs).map fun (kv : GoString × GoString) =>
          appendString kv.1 ++ [0x3A] ++ appendString kv.2) ++ [0x7D]) := rfl
    rw [hform]
    unfold Unmarshal
    rw [skipSpace_cons _ _ (by decide)]
    have hlen : xs.length + 3 ≤ (0x7B :: (joinWith [0x2C] ((x :: xs).map
        fun (kv : GoString × GoString) =>
          appendString kv.1 ++ [0x3A] ++ appendString kv.2) ++ [0x7D])).length := by
      have := joinWith_length [0x2C] ((x :: xs).map fun (kv : GoString × GoString) =>
          appendString kv.1 ++ [0x3A] ++ appendString kv.2) (by
        intro p hp
        simp only [List.mem_map] at hp
        obtain ⟨kv, _, rfl⟩ := hp
        simp [appendString])
      simp only [List.length_map, List.length_cons, List.length_append, List.length_nil] at this ⊢
      omega
    generalize (0x7B :: (joinWith [0x2C] ((x :: xs).map fun (kv : GoString × GoString) =>
        appendString kv.1 ++ [0x3A] ++ appendString kv.2) ++ [0x7D])).length = n at hlen
    obtain ⟨f, rfl⟩ : ∃ f, n = f + 3 := ⟨n - 3, by omega⟩
    have hstart := joinWith_members_head x xs [0x7D]
    have hp := parseMembers_strings L 1 xs x (f + 3) ([] : List (GoString × Value F)) []
      (by omega) hv (by simpa using hn)
    have hpv : parseValue L (f + 3 + 1) 0 (0x7B :: (joinWith [0x2C] ((x :: xs).map
        fun (kv : GoString × GoString) =>
          appendString kv.1 ++ [0x3A] ++ appendString kv.2) ++ [0x7D]))
        = some (.mapIface ((x :: xs).map fun (kv : GoString × GoString) =>
            (kv.1, Value.string kv.2)), []) := by
      rw [parseValue.eq_def]
      have h1 : ¬ (0x7B : Nat) = 0x22 := by decide
      have h2 : ¬ maxNestingDepth < 0 + 1 := by decide
      have h3 : ¬ (0x22 : Nat) = 0x7D := by decide
      rw [hstart] at hp ⊢
      simp only [h1, h2, if_false, if_true]
      rw [skipSpace_cons _ _ (by decide)]
      simp only [h3, if_false]
      rw [hp]
      simp
    rw [hpv]
    simp [skipSpace]

theorem Request_congr_JSON {F : Type} (L : StdLib F) (Do : RoundTrip) (a : API)
    (method path : GoString) (o1 o2 : RequestOptions F)
    (ht : o1.Timeout = o2.Timeout) (hh : o1.Headers = o2.Headers) (hp : o1.Params = o2.Params)
    (hn : o1.JSON.isNil = o2.JSON.isNil) (hm : Marshal L o1.JSON = Marshal L o2.JSON) :
    a.Request L Do method path o1 = a.Request L Do method path o2 := by
  have hb : buildRequest L a method path o1 = buildRequest L a method path o2 := by
    simp only [buildRequest, prepareBody, ht, hh, hp, hn, hm]
  simp only [API.Request, hb]

theorem stringifyParams_strings {F : Type} (L : StdLib F) (m : List (GoString × GoString))
    (hn : (m.map Prod.fst).Nodup) :
    stringifyParams L (m.map fun (kv : GoString × GoString) => (kv.1, (Value.string kv.2 : Value F)))
      = m := by
  rw [stringifyParams_nodup]
  · simp only [List.map_map]
    have : ((fun (kv : GoString × Value F) => (kv.1, fmtV L kv.2))
        ∘ fun (kv : GoString × GoString) => (kv.1, (Value.string kv.2 : Value F))) = id := by
      funext kv
      simp [fmtV]
    rw [this, List.map_id]
  · simpa [List.map_map, Function.comp] using hn

/-! ## Number literals -/

theorem spanDigits_reread (s x : GoString) (hx : ∀ c r, x = c :: r → isDigit c = false) :
    spanDigits ((spanDigits s).1 ++ x) = ((spanDigits s).1, x) := by
  have hbase : spanDigits x = ([], x) := by
    cases x with
    | nil => rfl
    | cons c r => simp [spanDigits, hx c r rfl]
  induction s with
  | nil => simpa [spanDigits] using hbase
  | cons c t ih =>
    by_cases hc : isDigit c = true
    · simp only [spanDigits, hc, if_true, List.cons_append, ih]
    · simp only [spanDigits, hc, List.nil_append]
      exact hbase

theorem scanIntPart_reread (s ip r1 : GoString) (h : scanIntPart s = some (ip, r1)) :
    (∃ c t, ip = c :: t ∧ isDigit c = true)
    ∧ ∀ y, (∀ c r, y = c :: r → isDigit c = false) → scanIntPart (ip ++ y) = some (ip, y) := by
  cases s with
  | nil => simp [scanIntPart] at h
  | cons c rest =>
    by_cases h0 : c = 48
    · simp only [scanIntPart, h0, if_true, Option.some.injEq, Prod.mk.injEq] at h
      obtain ⟨rfl, rfl⟩ := h
      exact ⟨⟨48, [], rfl, by decide⟩, fun y _ => by simp [scanIntPart]⟩
    · by_cases hd : isDigit c = true
      · simp only [scanIntPart, h0, hd, if_true, if_false, Option.some.injEq, Prod.mk.injEq] at h
        obtain ⟨rfl, rfl⟩ := h
        refine ⟨⟨c, _, rfl, hd⟩, fun y hy => ?_⟩
        simp only [List.cons_append, scanIntPart, h0, hd, if_true, if_false,
          spanDigits_reread rest y hy]
      · simp [scanIntPart, h0, hd] at h

theorem scanFraction_reread (s fp r2 : GoString) (h : scanFraction s = some (fp, r2)) :
    (fp = [] ∨ ∃ t, fp = 0x2E :: t)
    ∧ ∀ y, (∀ c r, y = c :: r → isDigit c = false ∧ c ≠ 0x2E) →
        scanFraction (fp ++ y) = some (fp, y) := by
  have hbase : ∀ y, (∀ c r, y = c :: r → isDigit c = false ∧ c ≠ 0x2E) →
      scanFraction y = some ([], y) := by
    intro y hy
    cases y with
    | nil => rfl
    | cons c r => simp [scanFraction, (hy c r rfl).2]
  cases s with
  | nil =>
    simp only [scanFraction, Option.some.injEq, Prod.mk.injEq] at h
    obtain ⟨rfl, rfl⟩ := h
    exact ⟨Or.inl rfl, fun y hy => by simpa using hbase y hy⟩
  | cons c rest =>
    by_cases hc : c = 0x2E
    · by_cases he : (spanDigits rest).1 = []
      · simp [scanFraction, hc, he] at h
      · simp only [scanFraction, hc, he, if_true, if_false, Option.some.injEq, Prod.mk.injEq] at h
        obtain ⟨rfl, rfl⟩ := h
        refine ⟨Or.inr ⟨_, rfl⟩, fun y hy => ?_⟩
        simp only [List.cons_append, scanFraction, if_true,
          spanDigits_reread rest y (fun c r h => (hy c r h).1), he, if_false]
    · simp only [scanFraction, hc, if_false, Option.some.injEq, Prod.mk.injEq] at h
      obtain ⟨rfl, rfl⟩ := h
      exact ⟨Or.inl rfl, fun y hy => by simpa using hbase y hy⟩

theorem scanExponent_reread (s ep r3 : GoString) (h : scanExponent s = some (ep, r3)) :
    (ep = [] ∨ ∃ c t, ep = c :: t ∧ (c = 0x65 ∨ c = 0x45))
    ∧ ∀ y, (∀ c r, y = c :: r → isDigit c = false ∧ c ≠ 0x65 ∧ c ≠ 0x45) →
        scanExponent (ep ++ y) = some (ep, y) := by
  have hbase : ∀ y, (∀ c r, y = c :: r → isDigit c = false ∧ c ≠ 0x65 ∧ c ≠ 0x45) →
      scanExponent y = some ([], y) := by
    intro y hy
    cases y with
    | nil => rfl
    | cons c r => simp [scanExponent, (hy c r rfl).2.1, (hy c r rfl).2.2]
  cases s with
  | nil =>
    simp only [scanExponent, Option.some.injEq, Prod.mk.injEq] at h
    obtain ⟨rfl, rfl⟩ := h
    exact ⟨Or.inl rfl, fun y hy => by simpa using hbase y hy⟩
  | cons c rest =>
    by_cases hc : c = 0x65 ∨ c = 0x45
    · cases rest with
      | nil => simp [scanExponent, hc] at h
      | cons sg rest1 =>
        by_cases hs : sg = 0x2B ∨ sg = 0x2D
        · by_cases he : (spanDigits rest1).1 = []
          · simp [scanExponent, hc, hs, he] at h
          · simp only [scanExponent, hc, hs, he, if_true, if_false, Option.some.injEq,
              Prod.mk.injEq] at h
            obtain ⟨rfl, rfl⟩ := h
            refine ⟨Or.inr ⟨c, _, rfl, hc⟩, fun y hy => ?_⟩
            simp only [List.cons_append, scanExponent, hc, hs, if_true,
              spanDigits_reread rest1 y (fun c r h => (hy c r h).1), he, if_false]
        · by_cases he : (spanDigits (sg :: rest1)).1 = []
          · simp [scanExponent, hc, hs, he] at h
          · simp only [scanExponent, hc, hs, he, if_true, if_false, Option.some.injEq,
              Prod.mk.injEq] at h
            obtain ⟨rfl, rfl⟩ := h
            refine ⟨Or.inr ⟨c, _, rfl, hc⟩, fun y hy => ?_⟩
            have hsd := spanDigits_reread (sg :: rest1) y (fun c r h => (hy c r h).1)
            -- the digits start with `sg`
            have hsg : isDigit sg = true := by
              by_contra hn
              apply he
              simp [spanDigits, hn]
            have hform : (spanDigits (sg :: rest1)).1 = sg :: (spanDigits rest1).1 := by
              simp [spanDigits, hsg]
            rw [hform] at hsd ⊢
            simp only [List.cons_append] at hsd ⊢
            simp only [scanExponent, hc, hs, if_true, if_false, hsd]
            simp
    · simp only [scanExponent, hc, if_false, Option.some.injEq, Prod.mk.injEq] at h
      obtain ⟨rfl, rfl⟩ := h
      exact ⟨Or.inl rfl, fun y hy => by simpa using hbase y hy⟩


theorem scanNumber_parts (s0 ip r1 fp r2 ep r3 : GoString)
    (h1 : scanIntPart s0 = some (ip, r1)) (h2 : scanFraction r1 = some (fp, r2))
    (h3 : scanExponent r2 = some (ep, r3)) (x : GoString) (hx : endsNumber x) :
    scanIntPart (ip ++ (fp ++ (ep ++ x))) = some (ip, fp ++ (ep ++ x))
    ∧ scanFraction (fp ++ (ep ++ x)) = some (fp, ep ++ x)
    ∧ scanExponent (ep ++ x) = some (ep, x) := by
  obtain ⟨_, hI⟩ := scanIntPart_reread s0 ip r1 h1
  obtain ⟨hfs, hF⟩ := scanFraction_reread r1 fp r2 h2
  obtain ⟨hes, hE⟩ := scanExponent_reread r2 ep r3 h3
  have hepx : ∀ c r, ep ++ x = c :: r → isDigit c = false ∧ c ≠ 0x2E := by
    intro c r hcr
    rcases hes with rfl | ⟨c0, t, rfl, hc0⟩
    · have := hx c r (by simpa using hcr)
      exact ⟨this.1, this.2.1⟩
    · simp only [List.cons_append, List.cons.injEq] at hcr
      obtain ⟨rfl, _⟩ := hcr
      rcases hc0 with rfl | rfl <;> exact ⟨by decide, by decide⟩
  have hfpx : ∀ c r, fp ++ (ep ++ x) = c :: r → isDigit c = false := by
    intro c r hcr
    rcases hfs with rfl | ⟨t, rfl⟩
    · exact (hepx c r (by simpa using hcr)).1
    · simp only [List.cons_append, List.cons.injEq] at hcr
      obtain ⟨rfl, _⟩ := hcr
      decide
  exact ⟨hI _ hfpx, hF _ hepx, hE _ (fun c r h => ⟨(hx c r h).1, (hx c r h).2.2⟩)⟩

theorem scanNumber_reread (s lit r : GoString) (h : scanNumber s = some (lit, r)) :
    (∃ c t, lit = c :: t ∧ (c = 0x2D ∨ isDigit c = true))
    ∧ ∀ x, endsNumber x → scanNumber (lit ++ x) = some (lit, x) := by
  cases s with
  | nil => simp [scanNumber, scanIntPart] at h
  | cons c rest =>
    unfold scanNumber at h
    by_cases hc : c = 0x2D
    · simp only [hc, if_true, List.length_singleton, List.drop_succ_cons, List.drop_zero] at h
      cases h1 : scanIntPart rest with
      | none => simp [h1] at h
      | some p1 =>
        obtain ⟨ip, r1⟩ := p1
        cases h2 : scanFraction r1 with
        | none => simp [h1, h2] at h
        | some p2 =>
          obtain ⟨fp, r2⟩ := p2
          cases h3 : scanExponent r2 with
          | none => simp [h1, h2, h3] at h
          | some p3 =>
            obtain ⟨ep, r3⟩ := p3
            simp only [h1, h2, h3, Option.some.injEq, Prod.mk.injEq] at h
            obtain ⟨rfl, rfl⟩ := h
            refine ⟨⟨0x2D, ip ++ fp ++ ep, by simp, Or.inl rfl⟩, fun x hx => ?_⟩
            obtain ⟨g1, g2, g3⟩ := scanNumber_parts rest ip r1 fp r2 ep r3 h1 h2 h3 x hx
            unfold scanNumber
            simp only [List.singleton_append, List.cons_append, List.append_assoc, if_true,
              List.length_singleton, List.drop_succ_cons, List.drop_zero, List.nil_append, g1, g2,
              g3]
    · simp only [hc, if_false, List.length_nil, List.drop_zero, List.nil_append] at h
      cases h1 : scanIntPart (c :: rest) with
      | none => simp [h1] at h
      | some p1 =>
        obtain ⟨ip, r1⟩ := p1
        cases h2 : scanFraction r1 with
        | none => simp [h1, h2] at h
        | some p2 =>
          obtain ⟨fp, r2⟩ := p2
          cases h3 : scanExponent r2 with
          | none => simp [h1, h2, h3] at h
          | some p3 =>
            obtain ⟨ep, r3⟩ := p3
            simp only [h1, h2, h3, Option.some.injEq, Prod.mk.injEq] at h
            obtain ⟨rfl, rfl⟩ := h
            obtain ⟨⟨c0, t0, rfl, hd0⟩, _⟩ := scanIntPart_reread _ _ _ h1
            refine ⟨⟨c0, t0 ++ fp ++ ep, by simp, Or.inr hd0⟩, fun x hx => ?_⟩
            obtain ⟨g1, g2, g3⟩ := scanNumber_parts (c :: rest) _ r1 fp r2 ep r3 h1 h2 h3 x hx
            have hc0 : ¬ c0 = 0x2D := by
              intro hh
              subst hh
              exact absurd hd0 (by decide)
            unfold scanNumber
            simp only [List.cons_append, List.append_assoc, hc0, if_false, List.length_nil,
              List.drop_zero, List.nil_append] at g1 ⊢
            simp only [g1, g2, g3, List.cons_append]

/-! ## Encoding and decoding again -/

theorem endsValue_endsNumber (x : GoString) (h : endsValue x) : endsNumber x := by
  intro c r hx
  rcases h c r hx with rfl | rfl | rfl <;> exact ⟨by decide, by decide, by decide, by decide⟩

theorem endsValue_cons (c : Nat) (r : GoString) (h : c = 0x2C ∨ c = 0x5D ∨ c = 0x7D) :
    endsValue (c :: r) := by
  intro c1 r1 h1
  injection h1 with h1 _
  rw [← h1]
  exact h

theorem endsValue_nil : endsValue [] := by
  intro c r h
  cases h

theorem marshalElems_eq_map {F : Type} (L : StdLib F) (xs : List (Value F)) :
    marshalElems L xs = xs.map (Marshal L) := by
  induction xs with
  | nil => simp [marshalElems]
  | cons x xs ih => simp [marshalElems, ih]

theorem marshalMembers_eq_map {F : Type} (L : StdLib F) (m : List (GoString × Value F)) :
    marshalMembers L m = m.map fun kv => (kv.1, Marshal L kv.2) := by
  induction m with
  | nil => simp [marshalMembers]
  | cons x xs ih =>
    obtain ⟨k, v⟩ := x
    simp [marshalMembers, ih]

theorem decodedElems_iff {F : Type} (L : StdLib F) (xs : List (Value F)) :
    decodedElems L xs ↔ ∀ x ∈ xs, x.decoded L := by
  induction xs with
  | nil => simp [decodedElems]
  | cons x xs ih => simp [decodedElems, ih]

theorem decodedMembers_iff {F : Type} (L : StdLib F) (m : List (GoString × Value F)) :
    decodedMembers L m ↔ ∀ kv ∈ m, kv.2.decoded L := by
  induction m with
  | nil => simp [decodedMembers]
  | cons x xs ih =>
    obtain ⟨k, v⟩ := x
    simp [decodedMembers, ih]

theorem plainElems_iff {F : Type} (L : StdLib F) (xs : List (Value F)) :
    plainElems L xs ↔ ∀ x ∈ xs, x.plain L := by
  induction xs with
  | nil => simp [plainElems]
  | cons x xs ih => simp [plainElems, ih]

theorem plainMembers_iff {F : Type} (L : StdLib F) (m : List (GoString × Value F)) :
    plainMembers L m ↔ ∀ kv ∈ m, ValidUTF8 kv.1 ∧ kv.2.plain L := by
  induction m with
  | nil => simp [plainMembers]
  | cons x xs ih =>
    obtain ⟨k, v⟩ := x
    simp [plainMembers, ih, and_assoc]

theorem nestingElems_le {F : Type} (xs : List (Value F)) (n : Nat) :
    nestingElems xs ≤ n ↔ ∀ x ∈ xs, x.nesting ≤ n := by
  induction xs with
  | nil => simp [nestingElems]
  | cons x xs ih => simp [nestingElems, ih]

theorem nestingMembers_le {F : Type} (m : List (GoString × Value F)) (n : Nat) :
    nestingMembers m ≤ n ↔ ∀ kv ∈ m, kv.2.nesting ≤ n := by
  induction m with
  | nil => simp [nestingMembers]
  | cons x xs ih =>
    obtain ⟨k, v⟩ := x
    simp [nestingMembers, ih]

theorem mem_insertByKey {α : Type} (x y : GoString × α) (l : List (GoString × α)) :
    y ∈ insertByKey x l ↔ y = x ∨ y ∈ l := by
  induction l with
  | nil => simp [insertByKey]
  | cons z zs ih =>
    by_cases h : bytesLt x.1 z.1 = true
    · simp [insertByKey, h]
    · simp only [insertByKey, h, Bool.false_eq_true, if_false, List.mem_cons, ih]
      tauto

theorem mem_sortByKey {α : Type} (y : GoString × α) (l : List (GoString × α)) :
    y ∈ sortByKey l ↔ y ∈ l := by
  induction l with
  | nil => simp [sortByKey]
  | cons z zs ih => simp [sortByKey, mem_insertByKey, ih]

theorem mem_mapSet {α : Type} (m : List (GoString × α)) (k : GoString) (v : α)
    (y : GoString × α) (h : y ∈ mapSet m k v) : y.2 = v ∨ y ∈ m := by
  induction m with
  | nil =>
    simp only [mapSet, List.mem_singleton] at h
    exact Or.inl (by rw [h])
  | cons x xs ih =>
    obtain ⟨k0, v0⟩ := x
    by_cases hk : k0 = k
    · simp only [mapSet, hk, if_true, List.mem_cons] at h
      rcases h with h | h
      · exact Or.inl (by rw [h])
      · exact Or.inr (by simp [h])
    · simp only [mapSet, hk, if_false, List.mem_cons] at h
      rcases h with h | h
      · exact Or.inr (by simp [h])
      · rcases ih h with h1 | h1
        · exact Or.inl h1
        · exact Or.inr (by simp [h1])

theorem Encodes_nil {F : Type} (L : StdLib F) : Encodes L (.nil : Value F) := by
  refine ⟨ascii "null", rfl, ⟨0x6E, [0x75, 0x6C, 0x6C], rfl, by decide, by decide⟩, ?_⟩
  intro fuel depth rest hf _ _
  obtain ⟨f, rfl⟩ : ∃ f, fuel = f + 1 := ⟨fuel - 1, by
    have : (ascii "null").length = 4 := rfl
    omega⟩
  refine ⟨.nil, ?_, fun _ => rfl⟩
  show parseValue L (f + 1) depth (0x6E :: 0x75 :: 0x6C :: 0x6C :: rest) = _
  rw [parseValue.eq_def]
  simp

theorem Encodes_bool {F : Type} (L : StdLib F) (b : Bool) : Encodes L (.bool b : Value F) := by
  cases b with
  | true =>
    refine ⟨ascii "true", rfl, ⟨0x74, [0x72, 0x75, 0x65], rfl, by decide, by decide⟩, ?_⟩
    intro fuel depth rest hf _ _
    obtain ⟨f, rfl⟩ : ∃ f, fuel = f + 1 := ⟨fuel - 1, by
      have : (ascii "true").length = 4 := rfl
      omega⟩
    refine ⟨.bool true, ?_, fun _ => rfl⟩
    show parseValue L (f + 1) depth (0x74 :: 0x72 :: 0x75 :: 0x65 :: rest) = _
    rw [parseValue.eq_def]
    simp
  | false =>
    refine ⟨ascii "false", rfl, ⟨0x66, [0x61, 0x6C, 0x73, 0x65], rfl, by decide, by decide⟩, ?_⟩
    intro fuel depth rest hf _ _
    obtain ⟨f, rfl⟩ : ∃ f, fuel = f + 1 := ⟨fuel - 1, by
      have : (ascii "false").length = 5 := rfl
      omega⟩
    refine ⟨.bool false, ?_, fun _ => rfl⟩
    show parseValue L (f + 1) depth (0x66 :: 0x61 :: 0x6C :: 0x73 :: 0x65 :: rest) = _
    rw [parseValue.eq_def]
    simp

theorem Encodes_string {F : Type} (L : StdLib F) (s : GoString) :
    Encodes L (.string s : Value F) := by
  refine ⟨appendString s, rfl, ⟨0x22, _, rfl, by decide, by decide⟩, ?_⟩
  intro fuel depth rest hf _ _
  obtain ⟨f, rfl⟩ : ∃ f, fuel = f + 1 := ⟨fuel - 1, by
    simp only [appendString, List.length_cons] at hf
    omega⟩
  refine ⟨.string (toValidUTF8 s.length s), ?_, fun hp => ?_⟩
  · have := parseValue_string L f depth s rest
    simpa [appendString] using this
  · simp only [Value.plain, ValidUTF8] at hp
    rw [hp]

theorem Encodes_float64 {F : Type} (L : StdLib F) (f g : F) (h : L.reads f g) :
    Encodes L (.float64 f) := by
  obtain ⟨out, hm, hs, hp⟩ := h
  obtain ⟨⟨c, t, rfl, hc⟩, hre⟩ := scanNumber_reread out out [] hs
  have hrange : 45 ≤ c ∧ c ≤ 57 := by
    rcases hc with rfl | hc
    · exact ⟨by decide, by decide⟩
    · simp only [isDigit, decide_eq_true_eq] at hc
      omega
  refine ⟨c :: t, by simpa [Marshal] using hm, ⟨c, t, rfl, ?_, by omega⟩, ?_⟩
  · simp only [isSpace, decide_eq_false_iff_not]
    omega
  intro fuel depth rest hf _ hrest
  obtain ⟨n, rfl⟩ : ∃ n, fuel = n + 1 := ⟨fuel - 1, by
    simp only [List.length_cons] at hf
    omega⟩
  refine ⟨.float64 g, ?_, fun hpl => ?_⟩
  · have hnum := hre rest (endsValue_endsNumber rest hrest)
    rw [List.cons_append] at hnum ⊢
    rw [parseValue.eq_def]
    have h1 : ¬ c = 0x22 := by omega
    have h2 : ¬ c = 0x7B := by omega
    have h3 : ¬ c = 0x5B := by omega
    have h4 : ¬ (c :: (t ++ rest)).take 4 = [0x74, 0x72, 0x75, 0x65] := by
      simp only [List.take_succ_cons, List.cons.injEq, not_and]
      omega
    have h5 : ¬ (c :: (t ++ rest)).take 5 = [0x66, 0x61, 0x6C, 0x73, 0x65] := by
      simp only [List.take_succ_cons, List.cons.injEq, not_and]
      omega
    have h6 : ¬ (c :: (t ++ rest)).take 4 = [0x6E, 0x75, 0x6C, 0x6C] := by
      simp only [List.take_succ_cons, List.cons.injEq, not_and]
      omega
    simp only [h1, h2, h3, h4, h5, h6, if_false, hnum, hp]
  · simp only [Value.plain] at hpl
    obtain ⟨out1, hm1, _, hp1⟩ := hpl
    rw [hm] at hm1
    injection hm1 with hm1
    subst hm1
    rw [hp] at hp1
    injection hp1 with hp1
    rw [hp1]

theorem joinWith_head (sep : GoString) (c : Nat) (r : GoString) (l : List GoString)
    (x : GoString) : ∃ tl, joinWith sep ((c :: r) :: l) ++ x = c :: tl := by
  cases l with
  | nil => exact ⟨r ++ x, by simp [joinWith]⟩
  | cons y ys => exact ⟨r ++ sep ++ joinWith sep (y :: ys) ++ x, by simp [joinWith]⟩

theorem encodings_elems {F : Type} (L : StdLib F) (xs : List (Value F))
    (h : ∀ x ∈ xs, Encodes L x) :
    ∃ l : List (Value F × GoString), l.map Prod.fst = xs
      ∧ ∀ p ∈ l, Marshal L p.1 = .ok p.2 ∧ ReadsAs L p.1 p.2 := by
  induction xs with
  | nil => exact ⟨[], rfl, by simp⟩
  | cons x xs ih =>
    obtain ⟨l, hl, hp⟩ := ih (fun y hy => h y (by simp [hy]))
    obtain ⟨enc, he, hr⟩ := h x (by simp)
    refine ⟨(x, enc) :: l, by simp [hl], ?_⟩
    intro p hp1
    simp only [List.mem_cons] at hp1
    rcases hp1 with rfl | hp1
    · exact ⟨he, hr⟩
    · exact hp p hp1

theorem encodeElems_ok {F : Type} (L : StdLib F) (l : List (Value F × GoString))
    (h : ∀ p ∈ l, Marshal L p.1 = .ok p.2) :
    encodeElems ((l.map Prod.fst).map (Marshal L)) = .ok (l.map Prod.snd) := by
  induction l with
  | nil => rfl
  | cons p l ih =>
    have h1 := h p (by simp)
    have h2 := ih (fun q hq => h q (by simp [hq]))
    simp only [List.map_cons, encodeElems, h1, h2]

theorem parseElements_joined {F : Type} (L : StdLib F) (depth : Nat) (rest : GoString) :
    ∀ (l : List (Value F × GoString)) (p : Value F × GoString) (fuel : Nat)
      (acc : List (Value F)),
      (∀ q ∈ p :: l, ReadsAs L q.1 q.2) →
      (joinWith [0x2C] ((p :: l).map Prod.snd)).length + 1 ≤ fuel →
      (∀ q ∈ p :: l, depth + q.1.nesting ≤ maxNestingDepth) →
      ∃ vs, parseElements L fuel depth acc
              (joinWith [0x2C] ((p :: l).map Prod.snd) ++ 0x5D :: rest)
            = some (.slice (acc ++ vs), rest)
        ∧ ((∀ q ∈ p :: l, q.1.plain L) → vs = (p :: l).map Prod.fst) := by
  intro l
  induction l with
  | nil =>
    intro p fuel acc hr hf hd
    obtain ⟨f, rfl⟩ : ∃ f, fuel = f + 1 := ⟨fuel - 1, by omega⟩
    simp only [List.map_cons, List.map_nil, joinWith] at hf ⊢
    obtain ⟨_, hread⟩ := hr p (by simp)
    obtain ⟨v1, hv1, hex⟩ := hread f depth (0x5D :: rest) (by omega) (hd p (by simp))
      (endsValue_cons _ _ (by simp))
    refine ⟨[v1], ?_, fun hpl => by rw [hex (hpl p (by simp))]⟩
    rw [parseElements.eq_def]
    simp only [hv1]
    rw [skipSpace_cons _ _ (by decide)]
    simp
  | cons q l ih =>
    intro p fuel acc hr hf hd
    obtain ⟨f, rfl⟩ : ∃ f, fuel = f + 1 := ⟨fuel - 1, by omega⟩
    have hj : joinWith [0x2C] ((p :: q :: l).map Prod.snd)
        = p.2 ++ [0x2C] ++ joinWith [0x2C] ((q :: l).map Prod.snd) := by
      simp only [List.map_cons, joinWith]
    rw [hj] at hf ⊢
    simp only [List.length_append, List.length_singleton] at hf
    obtain ⟨⟨c0, r0, hp0, _, _⟩, hread⟩ := hr p (by simp)
    have hplen : 1 ≤ p.2.length := by rw [hp0]; simp
    obtain ⟨v1, hv1, hex⟩ := hread f depth
      (0x2C :: (joinWith [0x2C] ((q :: l).map Prod.snd) ++ 0x5D :: rest)) (by omega)
      (hd p (by simp)) (endsValue_cons _ _ (by simp))
    obtain ⟨⟨c, r, hq, hsp, _⟩, _⟩ := hr q (by simp)
    obtain ⟨tl, htl⟩ := joinWith_head [0x2C] c r (l.map Prod.snd) (0x5D :: rest)
    have hjq : joinWith [0x2C] ((q :: l).map Prod.snd) ++ 0x5D :: rest = c :: tl := by
      rw [← htl, List.map_cons, hq]
    obtain ⟨vs, hvs, hexs⟩ := ih q f (acc ++ [v1])
      (fun x hx => hr x (by simp only [List.mem_cons] at hx ⊢; exact Or.inr hx))
      (by omega)
      (fun x hx => hd x (by simp only [List.mem_cons] at hx ⊢; exact Or.inr hx))
    refine ⟨v1 :: vs, ?_, fun hpl => ?_⟩
    · rw [parseElements.eq_def]
      simp only [List.append_assoc, List.singleton_append, List.cons_append,
        List.nil_append] at hv1 ⊢
      simp only [hv1]
      rw [skipSpace_cons _ _ (by decide)]
      simp only [if_true]
      rw [hjq] at hvs ⊢
      rw [skipSpace_cons _ _ hsp, hvs]
      simp
    · rw [hex (hpl p (by simp)),
        hexs (fun x hx => hpl x (by simp only [List.mem_cons] at hx ⊢; exact Or.inr hx))]
      simp

theorem Encodes_slice {F : Type} (L : StdLib F) (xs : List (Value F))
    (h : ∀ x ∈ xs, Encodes L x) : Encodes L (.slice xs) := by
  obtain ⟨l, hl, hp⟩ := encodings_elems L xs h
  subst hl
  have henc : Marshal L (.slice (l.map Prod.fst))
      = .ok (0x5B :: (joinWith [0x2C] (l.map Prod.snd) ++ [0x5D])) := by
    simp only [Marshal, marshalElems_eq_map, encodeArray,
      encodeElems_ok L l (fun p hp1 => (hp p hp1).1)]
    rfl
  refine ⟨_, henc, ⟨0x5B, _, rfl, by decide, by decide⟩, ?_⟩
  intro fuel depth rest hf hd hrest
  obtain ⟨f, rfl⟩ : ∃ f, fuel = f + 1 := ⟨fuel - 1, by
    simp only [List.length_cons] at hf
    omega⟩
  simp only [List.length_cons, List.length_append, List.length_singleton] at hf
  simp only [Value.nesting] at hd
  have hdepth : ¬ maxNestingDepth < depth + 1 := by omega
  have h1 : ¬ (0x5B : Nat) = 0x22 := by decide
  have h2 : ¬ (0x5B : Nat) = 0x7B := by decide
  cases l with
  | nil =>
    refine ⟨.slice [], ?_, fun _ => rfl⟩
    simp only [List.map_nil, joinWith, List.nil_append, List.cons_append]
    rw [parseValue.eq_def]
    simp only [h1, h2, hdepth, if_false, if_true]
    rw [skipSpace_cons _ _ (by decide)]
    simp
  | cons p l =>
    obtain ⟨⟨c, r, hq, hsp, hc⟩, _⟩ := (hp p (by simp)).2
    obtain ⟨tl, htl⟩ := joinWith_head [0x2C] c r (l.map Prod.snd) (0x5D :: rest)
    have hjq : joinWith [0x2C] ((p :: l).map Prod.snd) ++ 0x5D :: rest = c :: tl := by
      rw [← htl, List.map_cons, hq]
    have hnest : ∀ q ∈ p :: l, depth + 1 + q.1.nesting ≤ maxNestingDepth := by
      intro q hq1
      have := (nestingElems_le ((p :: l).map Prod.fst) (nestingElems ((p :: l).map Prod.fst))).1
        (le_refl _) q.1 (List.mem_map_of_mem _ hq1)
      omega
    obtain ⟨vs, hvs, hexs⟩ := parseElements_joined L (depth + 1) rest l p f []
      (fun q hq1 => (hp q hq1).2) (by omega) hnest
    refine ⟨.slice vs, ?_, fun hpl => ?_⟩
    · rw [List.cons_append, List.append_assoc, List.singleton_append]
      rw [parseValue.eq_def]
      simp only [h1, h2, hdepth, if_false, if_true]
      rw [hjq] at hvs ⊢
      rw [skipSpace_cons _ _ hsp]
      simp only [hc, if_false, hvs, List.nil_append]
    · simp only [Value.plain, plainElems_iff] at hpl
      rw [hexs (fun q hq1 => hpl q.1 (List.mem_map_of_mem _ hq1))]

theorem encodings_members {F : Type} (L : StdLib F) (m : List (GoString × Value F))
    (h : ∀ kv ∈ m, Encodes L kv.2) :
    ∃ l : List ((GoString × Value F) × GoString), l.map Prod.fst = m
      ∧ ∀ p ∈ l, Marshal L p.1.2 = .ok p.2 ∧ ReadsAs L p.1.2 p.2 := by
  induction m with
  | nil => exact ⟨[], rfl, by simp⟩
  | cons x xs ih =>
    obtain ⟨l, hl, hp⟩ := ih (fun y hy => h y (by simp [hy]))
    obtain ⟨enc, he, hr⟩ := h x (by simp)
    refine ⟨(x, enc) :: l, by simp [hl], ?_⟩
    intro p hp1
    simp only [List.mem_cons] at hp1
    rcases hp1 with rfl | hp1
    · exact ⟨he, hr⟩
    · exact hp p hp1

theorem encodeMembers_ok {F : Type} (L : StdLib F) (l : List ((GoString × Value F) × GoString))
    (h : ∀ p ∈ l, Marshal L p.1.2 = .ok p.2) :
    encodeMembers ((l.map Prod.fst).map fun kv => (kv.1, Marshal L kv.2))
      = .ok (l.map fun p => appendString p.1.1 ++ [0x3A] ++ p.2) := by
  induction l with
  | nil => rfl
  | cons p l ih =>
    have h1 := h p (by simp)
    have h2 := ih (fun q hq => h q (by simp [hq]))
    simp only [List.map_cons, encodeMembers, h1, h2]

theorem parseMembers_joined {F : Type} (L : StdLib F) (depth : Nat) (rest : GoString) :
    ∀ (l : List ((GoString × Value F) × GoString)) (p : (GoString × Value F) × GoString)
      (fuel : Nat) (acc : List (GoString × Value F)),
      (∀ q ∈ p :: l, ReadsAs L q.1.2 q.2) →
      (joinWith [0x2C] ((p :: l).map fun q => appendString q.1.1 ++ [0x3A] ++ q.2)).length + 1
        ≤ fuel →
      (∀ q ∈ p :: l, depth + q.1.2.nesting ≤ maxNestingDepth) →
      ∃ m1, parseMembers L fuel depth acc
              (joinWith [0x2C] ((p :: l).map fun q => appendString q.1.1 ++ [0x3A] ++ q.2)
                ++ 0x7D :: rest)
            = some (.mapIface m1, rest)
        ∧ ((∀ q ∈ p :: l, ValidUTF8 q.1.1 ∧ q.1.2.plain L) →
            (acc.map Prod.fst ++ (p :: l).map fun q => q.1.1).Nodup →
            m1 = acc ++ (p :: l).map Prod.fst) := by
  intro l
  induction l with
  | nil =>
    intro p fuel acc hr hf hd
    obtain ⟨f, rfl⟩ : ∃ f, fuel = f + 1 := ⟨fuel - 1, by omega⟩
    simp only [List.map_cons, List.map_nil, joinWith, appendString, List.cons_append,
      List.append_assoc, List.nil_append, List.singleton_append, List.length_cons,
      List.length_append] at hf ⊢
    obtain ⟨⟨c0, r0, hp0, hsp0, _⟩, hread⟩ := hr p (by simp)
    obtain ⟨v1, hv1, hex⟩ := hread f depth (0x7D :: rest) (by omega) (hd p (by simp))
      (endsValue_cons _ _ (by simp))
    have hsk : skipSpace (p.2 ++ 0x7D :: rest) = p.2 ++ 0x7D :: rest := by
      rw [hp0]
      exact skipSpace_cons _ _ hsp0
    refine ⟨mapSet acc (toValidUTF8 p.1.1.length p.1.1) v1, ?_, fun hpl hn => ?_⟩
    · rw [parseMembers.eq_def]
      simp only [if_true]
      rw [scanString_quoteBody p.1.1.length p.1.1 _ _ (le_refl _)
        (by simp only [List.length_append, List.length_cons]; omega)]
      simp only []
      rw [skipSpace_cons _ _ (by decide)]
      simp only [if_true]
      rw [hsk, hv1]
      simp only []
      rw [skipSpace_cons _ _ (by decide)]
      have h1 : ¬ (0x7D : Nat) = 0x2C := by decide
      simp only [h1, if_false, if_true]
    · obtain ⟨hk, hval⟩ := hpl p (by simp)
      unfold ValidUTF8 at hk
      rw [hk, hex hval]
      rw [mapSet_new acc p.1.1 _ (by
        intro hmem
        have := List.nodup_append.1 hn
        exact this.2.2 hmem (by simp))]
  | cons q l ih =>
    intro p fuel acc hr hf hd
    obtain ⟨f, rfl⟩ : ∃ f, fuel = f + 1 := ⟨fuel - 1, by omega⟩
    have hj : joinWith [0x2C]
        ((p :: q :: l).map fun q => appendString q.1.1 ++ [0x3A] ++ q.2)
        = (appendString p.1.1 ++ [0x3A] ++ p.2) ++ [0x2C] ++ joinWith [0x2C]
            ((q :: l).map fun q => appendString q.1.1 ++ [0x3A] ++ q.2) := by
      simp only [List.map_cons, joinWith]
    rw [hj] at hf ⊢
    obtain ⟨tl, htl⟩ := joinWith_head [0x2C] 0x22
      (quoteBody q.1.1.length q.1.1 ++ [0x22] ++ [0x3A] ++ q.2)
      (l.map fun q => appendString q.1.1 ++ [0x3A] ++ q.2) (0x7D :: rest)
    have hjq : joinWith [0x2C] ((q :: l).map fun q => appendString q.1.1 ++ [0x3A] ++ q.2)
        ++ 0x7D :: rest = 0x22 :: tl := by
      rw [← htl]
      simp [appendString]
    simp only [appendString, List.cons_append, List.append_assoc, List.nil_append,
      List.singleton_append, List.length_cons, List.length_append] at hf ⊢
    obtain ⟨⟨c0, r0, hp0, hsp0, _⟩, hread⟩ := hr p (by simp)
    obtain ⟨v1, hv1, hex⟩ := hread f depth
      (0x2C :: (joinWith [0x2C] ((q :: l).map fun q => appendString q.1.1 ++ [0x3A] ++ q.2)
        ++ 0x7D :: rest)) (by omega) (hd p (by simp)) (endsValue_cons _ _ (by simp))
    have hsk : ∀ X : GoString, skipSpace (p.2 ++ X) = p.2 ++ X := by
      intro X
      rw [hp0]
      exact skipSpace_cons _ _ hsp0
    obtain ⟨m1, hm1, hexs⟩ := ih q f (mapSet acc (toValidUTF8 p.1.1.length p.1.1) v1)
      (fun x hx => hr x (by simp only [List.mem_cons] at hx ⊢; exact Or.inr hx))
      (by
        simp only [appendString, List.cons_append, List.append_assoc, List.nil_append,
          List.singleton_append, List.length_cons, List.length_append]
        omega)
      (fun x hx => hd x (by simp only [List.mem_cons] at hx ⊢; exact Or.inr hx))
    refine ⟨m1, ?_, fun hpl hn => ?_⟩
    · rw [parseMembers.eq_def]
      simp only [if_true]
      rw [scanString_quoteBody p.1.1.length p.1.1 _ _ (le_refl _)
        (by simp only [List.length_append, List.length_cons]; omega)]
      simp only []
      rw [skipSpace_cons _ _ (by decide)]
      simp only [if_true]
      simp only [appendString, List.cons_append, List.append_assoc, List.nil_append,
        List.singleton_append] at hv1 hm1 hjq
      rw [hsk, hv1]
      simp only []
      rw [skipSpace_cons _ _ (by decide)]
      simp only [if_true]
      rw [hjq] at hm1 ⊢
      rw [skipSpace_cons _ _ (by decide), hm1]
    · obtain ⟨hk, hval⟩ := hpl p (by simp)
      unfold ValidUTF8 at hk
      have hnew : mapSet acc (toValidUTF8 p.1.1.length p.1.1) v1 = acc ++ [p.1] := by
        rw [hk, hex hval]
        exact mapSet_new acc p.1.1 _ (by
          intro hmem
          have := List.nodup_append.1 hn
          exact this.2.2 hmem (by simp))
      rw [hexs (fun x hx => hpl x (by simp only [List.mem_cons] at hx ⊢; exact Or.inr hx))
        (by rw [hnew]; simpa using hn), hnew]
      simp

theorem Encodes_mapIface {F : Type} (L : StdLib F) (m : List (GoString × Value F))
    (h : ∀ kv ∈ m, Encodes L kv.2) : Encodes L (.mapIface m) := by
  obtain ⟨l, hl, hp⟩ := encodings_members L (sortByKey m)
    (fun kv hkv => h kv ((mem_sortByKey kv m).1 hkv))
  have henc : Marshal L (.mapIface m)
      = .ok (0x7B :: (joinWith [0x2C] (l.map fun p => appendString p.1.1 ++ [0x3A] ++ p.2)
          ++ [0x7D])) := by
    simp only [Marshal, marshalMembers_eq_map, encodeObject]
    rw [sortByKey_map (Marshal L) m, ← hl, encodeMembers_ok L l (fun p hp1 => (hp p hp1).1)]
    rfl
  refine ⟨_, henc, ⟨0x7B, _, rfl, by decide, by decide⟩, ?_⟩
  intro fuel depth rest hf hd hrest
  obtain ⟨f, rfl⟩ : ∃ f, fuel = f + 1 := ⟨fuel - 1, by
    simp only [List.length_cons] at hf
    omega⟩
  simp only [List.length_cons, List.length_append, List.length_singleton] at hf
  simp only [Value.nesting] at hd
  have hdepth : ¬ maxNestingDepth < depth + 1 := by omega
  have h1 : ¬ (0x7B : Nat) = 0x22 := by decide
  cases l with
  | nil =>
    refine ⟨.mapIface [], ?_, fun hpl => ?_⟩
    · simp only [List.map_nil, joinWith, List.nil_append, List.cons_append]
      rw [parseValue.eq_def]
      simp only [h1, hdepth, if_false, if_true]
      rw [skipSpace_cons _ _ (by decide)]
      simp
    · simp only [Value.plain] at hpl
      rw [hpl.1] at hl
      simp only [List.map_nil] at hl
      rw [← hl]
  | cons p l =>
    obtain ⟨tl, htl⟩ := joinWith_head [0x2C] 0x22
      (quoteBody p.1.1.length p.1.1 ++ [0x22] ++ [0x3A] ++ p.2)
      (l.map fun q => appendString q.1.1 ++ [0x3A] ++ q.2) (0x7D :: rest)
    have hjq : joinWith [0x2C] ((p :: l).map fun q => appendString q.1.1 ++ [0x3A] ++ q.2)
        ++ 0x7D :: rest = 0x22 :: tl := by
      rw [← htl]
      simp [appendString]
    have hnest : ∀ q ∈ p :: l, depth + 1 + q.1.2.nesting ≤ maxNestingDepth := by
      intro q hq1
      have hmem : q.1 ∈ m := by
        apply (mem_sortByKey q.1 m).1
        rw [← hl]
        exact List.mem_map_of_mem _ hq1
      have := (nestingMembers_le m (nestingMembers m)).1 (le_refl _) q.1 hmem
      omega
    obtain ⟨m1, hm1, hexs⟩ := parseMembers_joined L (depth + 1) rest l p f []
      (fun q hq1 => (hp q hq1).2) (by omega) hnest
    refine ⟨.mapIface m1, ?_, fun hpl => ?_⟩
    · rw [List.cons_append, List.append_assoc, List.singleton_append]
      rw [parseValue.eq_def]
      simp only [h1, hdepth, if_false, if_true]
      rw [hjq] at hm1 ⊢
      rw [skipSpace_cons _ _ (by decide)]
      have h2 : ¬ (0x22 : Nat) = 0x7D := by decide
      simp only [h2, if_false, hm1]
    · simp only [Value.plain, plainMembers_iff] at hpl
      obtain ⟨hsort, hnodup, hmem⟩ := hpl
      rw [hsort] at hl
      have hkeys : ((p :: l).map fun q => q.1.1) = m.map Prod.fst := by
        rw [← hl, List.map_map]
        rfl
      rw [hexs (fun q hq1 => hmem q.1 (by rw [← hl]; exact List.mem_map_of_mem _ hq1))
        (by rw [hkeys]; simpa using hnodup)]
      simp [hl]

mutual
theorem Encodes_of_decoded {F : Type} (L : StdLib F) : ∀ v : Value F, v.decoded L → Encodes L v
  | .nil, _ => Encodes_nil L
  | .bool b, _ => Encodes_bool L b
  | .float64 f, h => by
    simp only [Value.decoded] at h
    obtain ⟨g, hg⟩ := h
    exact Encodes_float64 L f g hg
  | .int _, h => by simp [Value.decoded] at h
  | .string s, _ => Encodes_string L s
  | .slice xs, h => by
    simp only [Value.decoded] at h
    exact Encodes_slice L xs (Encodes_elems L xs h)
  | .mapIface m, h => by
    simp only [Value.decoded] at h
    exact Encodes_mapIface L m (Encodes_members L m h)
  | .nilMapIface, h => by simp [Value.decoded] at h
  | .mapString _, h => by simp [Value.decoded] at h
  | .nilMapString, h => by simp [Value.decoded] at h
  | .mapInt _, h => by simp [Value.decoded] at h
theorem Encodes_elems {F : Type} (L : StdLib F) :
    ∀ xs : List (Value F), decodedElems L xs → ∀ x ∈ xs, Encodes L x
  | [], _ => by simp
  | x :: xs, h => by
    simp only [decodedElems] at h
    intro y hy
    simp only [List.mem_cons] at hy
    rcases hy with rfl | hy
    · exact Encodes_of_decoded L _ h.1
    · exact Encodes_elems L xs h.2 y hy
theorem Encodes_members {F : Type} (L : StdLib F) :
    ∀ m : List (GoString × Value F), decodedMembers L m → ∀ kv ∈ m, Encodes L kv.2
  | [], _ => by simp
  | (k, x) :: xs, h => by
    simp only [decodedMembers] at h
    intro y hy
    simp only [List.mem_cons] at hy
    rcases hy with rfl | hy
    · exact Encodes_of_decoded L _ h.1
    · exact Encodes_members L xs h.2 y hy
end

mutual
theorem decoded_of_plain {F : Type} (L : StdLib F) : ∀ v : Value F, v.plain L → v.decoded L
  | .nil, _ => by simp [Value.decoded]
  | .bool _, _ => by simp [Value.decoded]
  | .float64 f, h => by
    simp only [Value.plain] at h
    simp only [Value.decoded]
    exact ⟨f, h⟩
  | .int _, h => by simp [Value.plain] at h
  | .string _, _ => by simp [Value.decoded]
  | .slice xs, h => by
    simp only [Value.plain] at h
    simp only [Value.decoded]
    exact decodedElems_of_plain L xs h
  | .mapIface m, h => by
    simp only [Value.plain] at h
    simp only [Value.decoded]
    exact decodedMembers_of_plain L m h.2.2
  | .nilMapIface, h => by simp [Value.plain] at h
  | .mapString _, h => by simp [Value.plain] at h
  | .nilMapString, h => by simp [Value.plain] at h
  | .mapInt _, h => by simp [Value.plain] at h
theorem decodedElems_of_plain {F : Type} (L : StdLib F) :
    ∀ xs : List (Value F), plainElems L xs → decodedElems L xs
  | [], _ => by simp [decodedElems]
  | x :: xs, h => by
    simp only [plainElems] at h
    simp only [decodedElems]
    exact ⟨decoded_of_plain L x h.1, decodedElems_of_plain L xs h.2⟩
theorem decodedMembers_of_plain {F : Type} (L : StdLib F) :
    ∀ m : List (GoString × Value F), plainMembers L m → decodedMembers L m
  | [], _ => by simp [decodedMembers]
  | (k, x) :: xs, h => by
    simp only [plainMembers] at h
    simp only [decodedMembers]
    exact ⟨decoded_of_plain L x h.2.1, decodedMembers_of_plain L xs h.2.2⟩
end

theorem UnmarshalAny_of_ReadsAs {F : Type} (L : StdLib F) (v : Value F) (enc : GoString)
    (h : ReadsAs L v enc) (hd : v.nesting ≤ maxNestingDepth) :
    ∃ v1, UnmarshalAny L enc = some v1 ∧ (v.plain L → v1 = v) := by
  obtain ⟨⟨c, r, hc, hsp, _⟩, hread⟩ := h
  obtain ⟨v1, hv1, hex⟩ := hread (enc.length + 1) 0 [] (by omega) (by omega) endsValue_nil
  refine ⟨v1, ?_, hex⟩
  unfold UnmarshalAny
  have hsk : skipSpace enc = enc := by
    rw [hc]
    exact skipSpace_cons _ _ hsp
  rw [List.append_nil] at hv1
  rw [hsk, hv1]
  simp [skipSpace]

theorem parse_decoded {F : Type} (L : StdLib F) (hL : L.decodesFinite) : ∀ fuel : Nat,
    (∀ (depth : Nat) (s : GoString) (v : Value F) (r : GoString), depth ≤ maxNestingDepth →
        parseValue L fuel depth s = some (v, r) →
        v.decoded L ∧ depth + v.nesting ≤ maxNestingDepth)
    ∧ (∀ (depth : Nat) (acc : List (GoString × Value F)) (s : GoString) (v : Value F)
        (r : GoString), depth ≤ maxNestingDepth →
        (∀ kv ∈ acc, kv.2.decoded L ∧ depth + kv.2.nesting ≤ maxNestingDepth) →
        parseMembers L fuel depth acc s = some (v, r) →
        ∃ m, v = .mapIface m ∧ ∀ kv ∈ m, kv.2.decoded L ∧ depth + kv.2.nesting ≤ maxNestingDepth)
    ∧ (∀ (depth : Nat) (acc : List (Value F)) (s : GoString) (v : Value F) (r : GoString),
        depth ≤ maxNestingDepth →
        (∀ x ∈ acc, x.decoded L ∧ depth + x.nesting ≤ maxNestingDepth) →
        parseElements L fuel depth acc s = some (v, r) →
        ∃ xs, v = .slice xs ∧ ∀ x ∈ xs, x.decoded L ∧ depth + x.nesting ≤ maxNestingDepth) := by
  intro fuel
  induction fuel with
  | zero =>
    refine ⟨?_, ?_, ?_⟩
    · intro depth s v r _ h
      rw [parseValue.eq_def] at h
      simp at h
    · intro depth acc s v r _ _ h
      rw [parseMembers.eq_def] at h
      simp at h
    · intro depth acc s v r _ _ h
      rw [parseElements.eq_def] at h
      simp at h
  | succ f ih =>
    obtain ⟨ihV, ihM, ihE⟩ := ih
    refine ⟨?_, ?_, ?_⟩
    · intro depth s v r hdep h
      cases s with
      | nil =>
        rw [parseValue.eq_def] at h
        simp at h
      | cons c rest =>
        rw [parseValue.eq_def] at h
        simp only [] at h
        by_cases c1 : c = 0x22
        · simp only [c1, if_true] at h
          cases hs : scanString (rest.length + 1) rest with
          | none => simp [hs] at h
          | some p =>
            obtain ⟨s1, r1⟩ := p
            simp only [hs, Option.some.injEq, Prod.mk.injEq] at h
            obtain ⟨rfl, _⟩ := h
            exact ⟨by simp [Value.decoded], by simpa [Value.nesting] using hdep⟩
        simp only [c1, if_false] at h
        by_cases c2 : c = 0x7B
        · simp only [c2, if_true] at h
          by_cases hmax : maxNestingDepth < depth + 1
          · simp [hmax] at h
          simp only [hmax, if_false] at h
          cases hsk : skipSpace rest with
          | nil => simp [hsk] at h
          | cons d r0 =>
            simp only [hsk] at h
            by_cases hd : d = 0x7D
            · simp only [hd, if_true, Option.some.injEq, Prod.mk.injEq] at h
              obtain ⟨rfl, _⟩ := h
              refine ⟨by simp [Value.decoded, decodedMembers], ?_⟩
              simp only [Value.nesting, nestingMembers]
              omega
            · simp only [hd, if_false] at h
              obtain ⟨m, rfl, hm⟩ := ihM (depth + 1) [] (d :: r0) v r (by omega) (by simp) h
              refine ⟨by
                simp only [Value.decoded, decodedMembers_iff]
                exact fun kv hkv => (hm kv hkv).1, ?_⟩
              have := (nestingMembers_le m (maxNestingDepth - (depth + 1))).2
                (fun kv hkv => by have := (hm kv hkv).2; omega)
              simp only [Value.nesting]
              omega
        simp only [c2, if_false] at h
        by_cases c3 : c = 0x5B
        · simp only [c3, if_true] at h
          by_cases hmax : maxNestingDepth < depth + 1
          · simp [hmax] at h
          simp only [hmax, if_false] at h
          cases hsk : skipSpace rest with
          | nil => simp [hsk] at h
          | cons d r0 =>
            simp only [hsk] at h
            by_cases hd : d = 0x5D
            · simp only [hd, if_true, Option.some.injEq, Prod.mk.injEq] at h
              obtain ⟨rfl, _⟩ := h
              refine ⟨by simp [Value.decoded, decodedElems], ?_⟩
              simp only [Value.nesting, nestingElems]
              omega
            · simp only [hd, if_false] at h
              obtain ⟨xs, rfl, hx⟩ := ihE (depth + 1) [] (d :: r0) v r (by omega) (by simp) h
              refine ⟨by
                simp only [Value.decoded, decodedElems_iff]
                exact fun x hx1 => (hx x hx1).1, ?_⟩
              have := (nestingElems_le xs (maxNestingDepth - (depth + 1))).2
                (fun x hx1 => by have := (hx x hx1).2; omega)
              simp only [Value.nesting]
              omega
        simp only [c3, if_false] at h
        by_cases c4 : (c :: rest).take 4 = [0x74, 0x72, 0x75, 0x65]
        · simp only [c4, if_true, Option.some.injEq, Prod.mk.injEq] at h
          obtain ⟨rfl, _⟩ := h
          exact ⟨by simp [Value.decoded], by simpa [Value.nesting] using hdep⟩
        simp only [c4, if_false] at h
        by_cases c5 : (c :: rest).take 5 = [0x66, 0x61, 0x6C, 0x73, 0x65]
        · simp only [c5, if_true, Option.some.injEq, Prod.mk.injEq] at h
          obtain ⟨rfl, _⟩ := h
          exact ⟨by simp [Value.decoded], by simpa [Value.nesting] using hdep⟩
        simp only [c5, if_false] at h
        by_cases c6 : (c :: rest).take 4 = [0x6E, 0x75, 0x6C, 0x6C]
        · simp only [c6, if_true, Option.some.injEq, Prod.mk.injEq] at h
          obtain ⟨rfl, _⟩ := h
          exact ⟨by simp [Value.decoded], by simpa [Value.nesting] using hdep⟩
        simp only [c6, if_false] at h
        cases hn : scanNumber (c :: rest) with
        | none => simp [hn] at h
        | some p =>
          obtain ⟨lit, r1⟩ := p
          simp only [hn] at h
          cases hp : L.ParseFloat lit with
          | none => simp [hp] at h
          | some x =>
            simp only [hp, Option.some.injEq, Prod.mk.injEq] at h
            obtain ⟨rfl, _⟩ := h
            have hlit := (scanNumber_reread _ _ _ hn).2 [] (by intro c r hcr; cases hcr)
            rw [List.append_nil] at hlit
            exact ⟨by
              simp only [Value.decoded]
              exact hL lit x hlit hp, by simpa [Value.nesting] using hdep⟩
    · intro depth acc s v r hdep hacc h
      cases s with
      | nil =>
        rw [parseMembers.eq_def] at h
        simp at h
      | cons q r0 =>
        rw [parseMembers.eq_def] at h
        simp only [] at h
        by_cases hq : q = 0x22
        · simp only [hq, if_true] at h
          cases hs : scanString (r0.length + 1) r0 with
          | none => simp [hs] at h
          | some p =>
            obtain ⟨key, r1⟩ := p
            simp only [hs] at h
            cases hsk : skipSpace r1 with
            | nil => simp [hsk] at h
            | cons colon r2 =>
              simp only [hsk] at h
              by_cases hc : colon = 0x3A
              · simp only [hc, if_true] at h
                cases hv : parseValue L f depth (skipSpace r2) with
                | none => simp [hv] at h
                | some p1 =>
                  obtain ⟨v1, r3⟩ := p1
                  simp only [hv] at h
                  have hv1 := ihV depth _ v1 r3 hdep hv
                  have hacc1 : ∀ kv ∈ mapSet acc key v1,
                      kv.2.decoded L ∧ depth + kv.2.nesting ≤ maxNestingDepth := by
                    intro kv hkv
                    rcases mem_mapSet acc key v1 kv hkv with h1 | h1
                    · rw [h1]; exact hv1
                    · exact hacc kv h1
                  cases hsk3 : skipSpace r3 with
                  | nil => simp [hsk3] at h
                  | cons d r4 =>
                    simp only [hsk3] at h
                    by_cases hd : d = 0x2C
                    · simp only [hd, if_true] at h
                      exact ihM depth _ _ v r hdep hacc1 h
                    · simp only [hd, if_false] at h
                      by_cases hd2 : d = 0x7D
                      · simp only [hd2, if_true, Option.some.injEq, Prod.mk.injEq] at h
                        obtain ⟨rfl, _⟩ := h
                        exact ⟨_, rfl, hacc1⟩
                      · simp [hd2] at h
              · simp [hc] at h
        · simp [hq] at h
    · intro depth acc s v r hdep hacc h
      rw [parseElements.eq_def] at h
      simp only [] at h
      cases hv : parseValue L f depth s with
      | none => simp [hv] at h
      | some p1 =>
        obtain ⟨v1, r3⟩ := p1
        simp only [hv] at h
        have hv1 := ihV depth _ v1 r3 hdep hv
        have hacc1 : ∀ x ∈ acc ++ [v1],
            x.decoded L ∧ depth + x.nesting ≤ maxNestingDepth := by
          intro x hx
          simp only [List.mem_append, List.mem_singleton] at hx
          rcases hx with h1 | h1
          · exact hacc x h1
          · rw [h1]; exact hv1
        cases hsk3 : skipSpace r3 with
        | nil => simp [hsk3] at h
        | cons d r4 =>
          simp only [hsk3] at h
          by_cases hd : d = 0x2C
          · simp only [hd, if_true] at h
            exact ihE depth _ _ v r hdep hacc1 h
          · simp only [hd, if_false] at h
            by_cases hd2 : d = 0x5D
            · simp only [hd2, if_true, Option.some.injEq, Prod.mk.injEq] at h
              obtain ⟨rfl, _⟩ := h
              exact ⟨_, rfl, hacc1⟩
            · simp [hd2] at h

theorem Decode_decoded {F : Type} (L : StdLib F) (hL : L.decodesFinite) (resp : Response)
    (v : Value F) (h : Decode L resp = .ok v) :
    v.decoded L ∧ v.nesting ≤ maxNestingDepth := by
  unfold Decode at h
  cases hp : parseValue L (resp.Body.length + 1) 0 (skipSpace resp.Body) with
  | none => simp [hp] at h
  | some p =>
    obtain ⟨v1, rest⟩ := p
    simp only [hp] at h
    have hv1 := (parse_decoded L hL _).1 0 _ v1 rest (by decide) hp
    split at h
    · injection h with h
      subst h
      exact ⟨hv1.1, by omega⟩
    · cases h

theorem Request_ok_decoded {F : Type} (L : StdLib F) (Do : RoundTrip) (a : API)
    (method path : GoString) (options : RequestOptions F) (v : Value F)
    (h : (a.Request L Do method path options).result = .ok v) :
    ∃ resp, Decode L resp = .ok v := by
  unfold API.Request at h
  cases hb : buildRequest L a method path options with
  | error e => simp [hb] at h
  | ok req =>
    simp only [hb] at h
    cases hd : Do req with
    | error e => simp [hd] at h
    | ok resp =>
      simp only [hd] at h
      refine ⟨resp, ?_⟩
      unfold handleResponse at h
      split at h
      · cases h
      · cases hdec : Decode L resp with
        | error e => simp [hdec] at h
        | ok result =>
          simp only [hdec] at h
          exact h

theorem CallTool_ok_decoded {F : Type} (L : StdLib F) (Do : RoundTrip) (t : Tools)
    (name : GoString) (args v : Value F) (h : (t.CallTool L Do name args).result = .ok v) :
    ∃ resp, Decode L resp = .ok v := by
  unfold Tools.CallTool at h
  cases hd : decodeArgs L args with
  | error e => simp [hd] at h
  | ok params =>
    simp only [hd] at h
    by_cases hs : name = SEARCH_TOOLS
    · simp only [hs, if_true] at h
      cases params <;> first
        | exact Request_ok_decoded L Do t.api _ _ _ v h
        | (simp at h)
    · simp only [hs, if_false] at h
      by_cases hc : name = CALL_TOOL
      · simp only [hc, if_true] at h
        exact Request_ok_decoded L Do t.api _ _ _ v h
      · simp [hc] at h

theorem unit_content {F : Type} (L : StdLib F) (hL : L.decodesFinite) (Do : RoundTrip)
    (t : Tools) (toolCall : ToolCall) :
    ∃ s v, Marshal L (resultOrError
          (t.CallTool L Do toolCall.Name (.string toolCall.Arguments)).result) = .ok s
      ∧ (runToolCall L Do t toolCall).1.Content = s
      ∧ UnmarshalAny L s = some v := by
  have hdec : (resultOrError
      (t.CallTool L Do toolCall.Name (.string toolCall.Arguments)).result).decoded L
      ∧ (resultOrError
      (t.CallTool L Do toolCall.Name (.string toolCall.Arguments)).result).nesting
        ≤ maxNestingDepth := by
    cases hr : (t.CallTool L Do toolCall.Name (.string toolCall.Arguments)).result with
    | error e =>
      simp only [resultOrError, Value.decoded, decodedMembers, Value.nesting, nestingMembers]
      exact ⟨⟨trivial, trivial⟩, by decide⟩
    | ok res =>
      obtain ⟨resp, hresp⟩ := CallTool_ok_decoded L Do t _ _ res hr
      exact Decode_decoded L hL resp res hresp
  obtain ⟨enc, henc, hreads⟩ := Encodes_of_decoded L _ hdec.1
  obtain ⟨v1, hv1, _⟩ := UnmarshalAny_of_ReadsAs L _ enc hreads hdec.2
  exact ⟨enc, v1, henc, by simp only [runToolCall, henc, contentOf], hv1⟩

theorem scanString_plain : ∀ (e : GoString) (fuel : Nat) (rest : GoString),
    (∀ b ∈ e, 0x20 ≤ b ∧ b < 0x80 ∧ b ≠ 0x22 ∧ b ≠ 0x5C) → e.length < fuel →
    scanString fuel (e ++ 0x22 :: rest) = some (e, rest) := by
  intro e
  induction e with
  | nil =>
    intro fuel rest _ hf
    obtain ⟨f, rfl⟩ : ∃ f, fuel = f + 1 := ⟨fuel - 1, by omega⟩
    exact scanString_quote f rest
  | cons b tl ih =>
    intro fuel rest hb hf
    obtain ⟨f, rfl⟩ : ∃ f, fuel = f + 1 := ⟨fuel - 1, by omega⟩
    obtain ⟨b1, b2, b3, b4⟩ := hb b (by simp)
    rw [List.cons_append, scanString_ascii f b _ b3 b4 (by omega) b2,
      ih f rest (fun x hx => hb x (by simp [hx])) (by simpa using hf)]
    rfl

theorem fallbackContent_plain {F : Type} (L : StdLib F) (e : GoString)
    (he : ∀ b ∈ e, 0x20 ≤ b ∧ b < 0x80 ∧ b ≠ 0x22 ∧ b ≠ 0x5C) :
    UnmarshalAny L (fallbackContent e)
      = some (.mapIface [(ascii "error", (.string e : Value F))]) := by
  have hform : fallbackContent e
      = 0x7B :: 0x22 :: (ascii "error" ++ 0x22 :: 0x3A :: 0x20 :: 0x22 :: (e ++ [0x22, 0x7D])) := by
    unfold fallbackContent
    have h1 : ascii "\x7b\"error\": \"" = 0x7B :: 0x22 :: (ascii "error" ++ [0x22, 0x3A, 0x20, 0x22]) := by
      decide
    have h2 : ascii "\"\x7d" = [0x22, 0x7D] := by decide
    rw [h1, h2]
    simp
  rw [hform]
  unfold UnmarshalAny
  rw [skipSpace_cons _ _ (by decide)]
  generalize hfuel : (0x7B :: 0x22 :: (ascii "error" ++ 0x22 :: 0x3A :: 0x20 :: 0x22
      :: (e ++ [0x22, 0x7D]))).length = fuel
  have hf3 : 3 ≤ fuel := by
    rw [← hfuel]
    simp only [List.length_cons, List.length_append]
    omega
  obtain ⟨f, rfl⟩ : ∃ f, fuel = f + 3 := ⟨fuel - 3, by omega⟩
  have h1 : parseValue L (f + 3 + 1) 0 (0x7B :: 0x22 :: (ascii "error" ++ 0x22 :: 0x3A :: 0x20
        :: 0x22 :: (e ++ [0x22, 0x7D])))
      = some (.mapIface [(ascii "error", .string e)], []) := by
    rw [parseValue.eq_def]
    simp only []
    rw [skipSpace_cons _ _ (by decide)]
    have hd : ¬ maxNestingDepth < 0 + 1 := by decide
    simp only [hd, if_false]
    have hn : ¬ (0x7B : Nat) = 0x22 := by decide
    have hn2 : ¬ (0x22 : Nat) = 0x7D := by decide
    simp only [hn, hn2, if_false, if_true]
    rw [parseMembers.eq_def]
    simp only [if_true]
    rw [scanString_key_error _ _ (by simp [ascii])]
    simp only []
    rw [skipSpace_cons _ _ (by decide)]
    simp only [if_true]
    have hsp : skipSpace (0x20 :: 0x22 :: (e ++ [0x22, 0x7D])) = 0x22 :: (e ++ [0x22, 0x7D]) := by
      simp [skipSpace, isSpace]
    rw [hsp]
    rw [parseValue.eq_def]
    simp only [if_true]
    have := scanString_plain e ((e ++ [0x22, 0x7D]).length + 1) [0x7D] he
      (by simp only [List.length_append, List.length_cons, List.length_nil]; omega)
    simp only [List.singleton_append, List.cons_append, List.nil_append] at this ⊢
    rw [this]
    simp only []
    rw [skipSpace_cons _ _ (by decide)]
    have hn3 : ¬ (0x7D : Nat) = 0x2C := by decide
    simp only [hn3, if_false, if_true, mapSet]
  rw [h1]
  simp [skipSpace]

theorem exampleLib_decodesFinite : exampleLib.decodesFinite := by
  intro lit f hlit hp
  simp only [exampleLib, Option.some.injEq] at hp
  subst hp
  exact ⟨lit, lit, rfl, hlit, rfl⟩

/-! ## `CallTools`: every content is JSON -/

/-- C10.  With a float library whose decoded numbers are finite: the value a unit of a batch
serializes (the decoded result of its call, or the map `{"error": ...}` made of its failure)
is one `json.Marshal` encodes, so the serialization of a unit's result never fails, no
serialization error reaches the fallback, and the content of the unit's Tool Result is what
`json.Marshal` wrote, which parses as JSON.  `CallTools` returns (some schedule of its
goroutines brings it to its end, no state it reaches is stuck, every step brings the end
nearer), and the content of every Tool Result it returns is well-formed JSON.  The fallback
line itself, given a message of printable ASCII without quote or backslash, writes the JSON
object whose only field `error` is that message. -/
theorem CallTools_contents_well_formed {F : Type} (L : StdLib F) (hL : L.decodesFinite)
    (Do : Nat → RoundTrip) (config : ToolsConfig) (endpoint : GoString)
    (toolCalls : List ToolCall) :
    (∀ (D : RoundTrip) (toolCall : ToolCall),
        (∀ e, Marshal L (resultOrError
            (((NewTools config).SetAPIEndpoint endpoint).CallTool L D toolCall.Name
              (.string toolCall.Arguments)).result) ≠ .error e)
        ∧ ∃ s v, Marshal L (resultOrError
              (((NewTools config).SetAPIEndpoint endpoint).CallTool L D toolCall.Name
                (.string toolCall.Arguments)).result) = .ok s
            ∧ (runToolCall L D ((NewTools config).SetAPIEndpoint endpoint) toolCall).1.Content = s
            ∧ UnmarshalAny L s = some v)
    ∧ ((∃ schedule r,
        ((NewTools config).SetAPIEndpoint endpoint).CallTools L Do toolCalls schedule = some r)
      ∧ (∀ s, Batch.Reachable
            (Batch.mk L ((NewTools config).SetAPIEndpoint endpoint) Do toolCalls) s →
          s.allDone = false →
          ∃ i s1, Batch.step
            (Batch.mk L ((NewTools config).SetAPIEndpoint endpoint) Do toolCalls) s i = some s1)
      ∧ (∀ s i s1, Batch.Reachable
            (Batch.mk L ((NewTools config).SetAPIEndpoint endpoint) Do toolCalls) s →
          Batch.step (Batch.mk L ((NewTools config).SetAPIEndpoint endpoint) Do toolCalls) s i
            = some s1 →
          s1.remaining + 1 = s.remaining))
    ∧ (∀ schedule r,
        ((NewTools config).SetAPIEndpoint endpoint).CallTools L Do toolCalls schedule = some r →
        ∀ msg ∈ r.results, ∃ v, UnmarshalAny L msg.Content = some v)
    ∧ (∀ e : GoString, (∀ b ∈ e, 0x20 ≤ b ∧ b < 0x80 ∧ b ≠ 0x22 ∧ b ≠ 0x5C) →
        UnmarshalAny L (contentOf (.error e))
          = some (.mapIface [(ascii "error", (.string e : Value F))])) := by
  refine ⟨?_, CallTools_progress L Do config endpoint toolCalls, ?_, ?_⟩
  · intro D toolCall
    obtain ⟨s, v, h1, h2, h3⟩ := unit_content L hL D ((NewTools config).SetAPIEndpoint endpoint)
      toolCall
    refine ⟨fun e he => ?_, s, v, h1, h2, h3⟩
    rw [h1] at he
    cases he
  · intro schedule r hr msg hmsg
    obtain ⟨_, hperm⟩ := CallTools_returns L Do _ toolCalls schedule r hr
    have hmem := hperm.mem_iff.1 hmsg
    obtain ⟨o, ho, rfl⟩ := List.mem_map.1 hmem
    obtain ⟨j, hj⟩ := List.mem_iff_get?.1 ho
    rw [outcomesFrom_get?] at hj
    cases htc : toolCalls.get? j with
    | none =>
      rw [htc] at hj
      cases hj
    | some tc =>
      rw [htc] at hj
      simp only [Option.map_some', Option.some.injEq] at hj
      obtain ⟨s, v, _, h2, h3⟩ := unit_content L hL (Do (0 + j))
        ((NewTools config).SetAPIEndpoint endpoint) tc
      rw [← hj, h2]
      exact ⟨v, h3⟩
  · intro e he
    exact fallbackContent_plain L e he

/-- C10, an instance: a batch of two, a search whose response holds an object and a call to
an unknown tool, run to its end. -/
theorem CallTools_contents_well_formed_witness :
    ∃ r, ((NewTools ⟨ascii "KEY", 2⟩).SetAPIEndpoint (ascii "http://h")).CallTools exampleLib
          (fun _ _ => .ok ⟨200, ascii "[\x7b\"ok\":true,\"n\":1.5\x7d]", none⟩)
          [⟨ascii "c1", ascii "search_services", ascii "\x7b\x7d"⟩,
            ⟨ascii "c2", ascii "nope", ascii "\x7b\x7d"⟩]
          [0, 1, 0, 1, 0, 1, 0, 1, 0, 1] = some r
      ∧ r.results = [⟨ascii "c1", ascii "[\x7b\"n\":1.5,\"ok\":true\x7d]"⟩,
          ⟨ascii "c2", ascii "\x7b\"error\":\"unknown tool name: nope\"\x7d"⟩]
      ∧ ∀ msg ∈ r.results, ∃ v, UnmarshalAny exampleLib msg.Content = some v := by
  have hrun : (((NewTools ⟨ascii "KEY", 2⟩).SetAPIEndpoint (ascii "http://h")).CallTools
        exampleLib (fun _ _ => .ok ⟨200, ascii "[\x7b\"ok\":true,\"n\":1.5\x7d]", none⟩)
        [⟨ascii "c1", ascii "search_services", ascii "\x7b\x7d"⟩,
          ⟨ascii "c2", ascii "nope", ascii "\x7b\x7d"⟩]
        [0, 1, 0, 1, 0, 1, 0, 1, 0, 1]).map (fun r => r.results)
      = some [⟨ascii "c1", ascii "[\x7b\"n\":1.5,\"ok\":true\x7d]"⟩,
          ⟨ascii "c2", ascii "\x7b\"error\":\"unknown tool name: nope\"\x7d"⟩] := by rfl
  obtain ⟨r, hr, hres⟩ := Option.map_eq_some'.1 hrun
  exact ⟨r, hr, hres,
    (CallTools_contents_well_formed exampleLib exampleLib_decodesFinite
      (fun _ _ => .ok ⟨200, ascii "[\x7b\"ok\":true,\"n\":1.5\x7d]", none⟩)
      ⟨ascii "KEY", 2⟩ (ascii "http://h")
      [⟨ascii "c1", ascii "search_services", ascii "\x7b\x7d"⟩,
        ⟨ascii "c2", ascii "nope", ascii "\x7b\x7d"⟩]).2.2.1
      [0, 1, 0, 1, 0, 1, 0, 1, 0, 1] r hr⟩

/-! ## `CallTool`: string arguments -/

theorem CallTool_of_Unmarshal {F : Type} (L : StdLib F) (Do : RoundTrip) (t : Tools)
    (name s : GoString) (m : Value F) (h : Unmarshal L s = .ok m) :
    t.CallTool L Do name (.string s) = t.CallTool L Do name m := by
  have hm : decodeArgs L m = .ok m := by
    unfold Unmarshal at h
    split at h
    · cases h
    · split at h
      · cases h
      · split at h
        · injection h with h; subst h; rfl
        · injection h with h; subst h; rfl
        · cases h
  have hs : decodeArgs L (.string s) = .ok m := by
    simp only [decodeArgs, h]
  unfold Tools.CallTool
  rw [hm, hs]

theorem Unmarshal_plain {F : Type} (L : StdLib F) (m : List (GoString × Value F))
    (hp : (Value.mapIface m).plain L) (hd : (Value.mapIface m).nesting ≤ maxNestingDepth) :
    ∃ s, Marshal L (.mapIface m) = .ok s ∧ Unmarshal L s = .ok (.mapIface m) := by
  obtain ⟨enc, henc, hreads⟩ := Encodes_of_decoded L _ (decoded_of_plain L _ hp)
  refine ⟨enc, henc, ?_⟩
  obtain ⟨⟨c, r, hc, hsp, _⟩, hread⟩ := hreads
  obtain ⟨v1, hv1, hex⟩ := hread (enc.length + 1) 0 [] (by omega) (by omega) endsValue_nil
  have hsk : skipSpace enc = enc := by
    rw [hc]
    exact skipSpace_cons _ _ hsp
  rw [List.append_nil, hex hp] at hv1
  unfold Unmarshal
  rw [hsk, hv1]
  simp [skipSpace]

/-- C3 (amended).  For every tool name, `CallTool(name, s)` and `CallTool(name, m)` issue
the same requests and return the same result or the same error when `s` is the JSON
encoding of `m` and `m` is

* a non-nil `map[string]interface{}` whose values are, at every level, of the kinds JSON
  carries (nil, `bool`, `float64` that reads back from its encoding, `string`,
  `[]interface{}`, non-nil `map[string]interface{}`), with strings and keys of valid UTF-8
  and a nesting of at most 10000: `s` then decodes to `m` itself;
* a non-nil `map[string]string` with keys and values of valid UTF-8;
* the nil `map[string]interface{}`, encoded as `null`.

Each map is listed by ascending key, every key once.  The same holds for any other text
`s` that `json.Unmarshal` decodes to the `map[string]interface{}` value `m`. -/
theorem CallTool_string_arguments {F : Type} (L : StdLib F) (Do : RoundTrip) (t : Tools)
    (name : GoString) :
    (∀ m : List (GoString × Value F), (Value.mapIface m).plain L →
        (Value.mapIface m).nesting ≤ maxNestingDepth →
        ∃ s, Marshal L (.mapIface m) = .ok s ∧ Unmarshal L s = .ok (.mapIface m)
          ∧ t.CallTool L Do name (.string s) = t.CallTool L Do name (.mapIface m))
    ∧ (∀ m : List (GoString × GoString), sortByKey m = m → (m.map Prod.fst).Nodup →
        (∀ kv ∈ m, ValidUTF8 kv.1 ∧ ValidUTF8 kv.2) →
        ∃ s, Marshal L (.mapString m : Value F) = .ok s
          ∧ t.CallTool L Do name (.string s) = t.CallTool L Do name (.mapString m))
    ∧ (Marshal L (.nilMapIface : Value F) = .ok (ascii "null")
        ∧ t.CallTool L Do name (.string (ascii "null")) = t.CallTool L Do name .nilMapIface)
    ∧ (∀ (s : GoString) (m : Value F), Unmarshal L s = .ok m →
        t.CallTool L Do name (.string s) = t.CallTool L Do name m) := by
  refine ⟨?_, ?_, ⟨rfl, ?_⟩, fun s m h => CallTool_of_Unmarshal L Do t name s m h⟩
  · intro m hp hd
    obtain ⟨s, h1, h2⟩ := Unmarshal_plain L m hp hd
    exact ⟨s, h1, h2, CallTool_of_Unmarshal L Do t name s _ h2⟩
  · intro m hsort hn hv
    obtain ⟨h1, h2⟩ := Marshal_mapString L m hsort
    have hu := Unmarshal_mapString L m hn hv
    refine ⟨_, h1, ?_⟩
    rw [CallTool_of_Unmarshal L Do t name _ _ hu]
    unfold Tools.CallTool
    simp only [decodeArgs]
    by_cases hs : name = SEARCH_TOOLS
    · simp only [hs, if_true]
      rw [stringifyParams_strings L m hn]
    · simp only [hs, if_false]
      by_cases hc : name = CALL_TOOL
      · simp only [hc, if_true]
        unfold ToolsAPI.CallTool
        exact Request_congr_JSON L Do t.api _ _ _ _ rfl rfl rfl rfl (by
          simp only [callOptions]
          rw [h1, h2])
      · simp only [hc, if_false]
  · obtain ⟨enc, henc, hreads⟩ := Encodes_nil L (F := F)
    have he : enc = ascii "null" := by
      simp only [Marshal] at henc
      injection henc with henc
      exact henc.symm
    subst he
    obtain ⟨v1, hv1, hex⟩ := hreads.2 ((ascii "null").length + 1) 0 [] (by omega) (by
      simp [Value.nesting]) endsValue_nil
    rw [List.append_nil, hex trivial] at hv1
    have hu : Unmarshal L (ascii "null") = .ok (.nilMapIface : Value F) := by
      unfold Unmarshal
      have hsk : skipSpace (ascii "null") = ascii "null" := by decide
      rw [hsk, hv1]
      simp [skipSpace]
    exact CallTool_of_Unmarshal L Do t name _ _ hu

/-- C3, the example of the specification, one with a number and one with nested values:
the string-encoded arguments of an `invoke_service` call and of two `search_services` calls
are the JSON encodings of the mappings, and the calls with the string and with the mapping
agree. -/
theorem CallTool_string_arguments_witness :
    (Marshal exampleLib (.mapIface [(ascii "action", .string (ascii "svc.weather")),
          (ascii "payload", .string (ascii "\x7b\x7d"))] : Value GoString)
        = .ok (ascii "\x7b\"action\":\"svc.weather\",\"payload\":\"\x7b\x7d\"\x7d")
      ∧ (NewTools ⟨ascii "KEY", 1⟩).CallTool exampleLib (fun _ => .ok ⟨200, ascii "true", none⟩)
          (ascii "invoke_service")
          (.string (ascii "\x7b\"action\":\"svc.weather\",\"payload\":\"\x7b\x7d\"\x7d"))
        = (NewTools ⟨ascii "KEY", 1⟩).CallTool exampleLib
            (fun _ => .ok ⟨200, ascii "true", none⟩) (ascii "invoke_service")
            (.mapIface [(ascii "action", .string (ascii "svc.weather")),
              (ascii "payload", .string (ascii "\x7b\x7d"))]))
    ∧ (Marshal exampleLib (.mapIface [(ascii "limit", .float64 (ascii "5")),
          (ascii "query", .string (ascii "weather"))] : Value GoString)
        = .ok (ascii "\x7b\"limit\":5,\"query\":\"weather\"\x7d")
      ∧ (NewTools ⟨ascii "KEY", 1⟩).CallTool exampleLib (fun _ => .ok ⟨200, ascii "[]", none⟩)
          (ascii "search_services")
          (.string (ascii "\x7b\"limit\":5,\"query\":\"weather\"\x7d"))
        = (NewTools ⟨ascii "KEY", 1⟩).CallTool exampleLib
            (fun _ => .ok ⟨200, ascii "[]", none⟩) (ascii "search_services")
            (.mapIface [(ascii "limit", .float64 (ascii "5")),
              (ascii "query", .string (ascii "weather"))]))
    ∧ (Marshal exampleLib (.mapIface [(ascii "filter",
            .mapIface [(ascii "tags", .slice [.string (ascii "a"), .bool true, .nil])]),
          (ascii "query", .string (ascii "weather"))] : Value GoString)
        = .ok (ascii "\x7b\"filter\":\x7b\"tags\":[\"a\",true,null]\x7d,\"query\":\"weather\"\x7d")
      ∧ (NewTools ⟨ascii "KEY", 1⟩).CallTool exampleLib (fun _ => .ok ⟨200, ascii "[]", none⟩)
          (ascii "search_services")
          (.string (ascii
            "\x7b\"filter\":\x7b\"tags\":[\"a\",true,null]\x7d,\"query\":\"weather\"\x7d"))
        = (NewTools ⟨ascii "KEY", 1⟩).CallTool exampleLib
            (fun _ => .ok ⟨200, ascii "[]", none⟩) (ascii "search_services")
            (.mapIface [(ascii "filter",
                .mapIface [(ascii "tags", .slice [.string (ascii "a"), .bool true, .nil])]),
              (ascii "query", .string (ascii "weather"))])) := by
  refine ⟨?_, ?_, ?_⟩
  · obtain ⟨s, h1, _, h3⟩ :=
      (CallTool_string_arguments exampleLib (fun _ => .ok ⟨200, ascii "true", none⟩)
        (NewTools ⟨ascii "KEY", 1⟩) (ascii "invoke_service")).1
        [(ascii "action", .string (ascii "svc.weather")),
          (ascii "payload", .string (ascii "\x7b\x7d"))]
        ⟨by rfl, by decide, by decide, by show ValidUTF8 _; decide, by decide,
          by show ValidUTF8 _; decide, trivial⟩
        (by simp [Value.nesting, nestingMembers, maxNestingDepth])
    have hs : s = ascii "\x7b\"action\":\"svc.weather\",\"payload\":\"\x7b\x7d\"\x7d" := by
      have h2 : Marshal exampleLib (.mapIface [(ascii "action", .string (ascii "svc.weather")),
          (ascii "payload", .string (ascii "\x7b\x7d"))] : Value GoString)
          = .ok (ascii "\x7b\"action\":\"svc.weather\",\"payload\":\"\x7b\x7d\"\x7d") := by rfl
      rw [h2] at h1
      injection h1 with h1
      exact h1.symm
    subst hs
    exact ⟨h1, h3⟩
  · obtain ⟨s, h1, _, h3⟩ :=
      (CallTool_string_arguments exampleLib (fun _ => .ok ⟨200, ascii "[]", none⟩)
        (NewTools ⟨ascii "KEY", 1⟩) (ascii "search_services")).1
        [(ascii "limit", .float64 (ascii "5")), (ascii "query", .string (ascii "weather"))]
        ⟨by rfl, by decide, by decide, ⟨ascii "5", by rfl, by rfl, by rfl⟩, by decide,
          by show ValidUTF8 _; decide, trivial⟩
        (by simp [Value.nesting, nestingMembers, maxNestingDepth])
    have hs : s = ascii "\x7b\"limit\":5,\"query\":\"weather\"\x7d" := by
      have h2 : Marshal exampleLib (.mapIface [(ascii "limit", .float64 (ascii "5")),
          (ascii "query", .string (ascii "weather"))] : Value GoString)
          = .ok (ascii "\x7b\"limit\":5,\"query\":\"weather\"\x7d") := by rfl
      rw [h2] at h1
      injection h1 with h1
      exact h1.symm
    subst hs
    exact ⟨h1, h3⟩
  · obtain ⟨s, h1, _, h3⟩ :=
      (CallTool_string_arguments exampleLib (fun _ => .ok ⟨200, ascii "[]", none⟩)
        (NewTools ⟨ascii "KEY", 1⟩) (ascii "search_services")).1
        [(ascii "filter",
            .mapIface [(ascii "tags", .slice [.string (ascii "a"), .bool true, .nil])]),
          (ascii "query", .string (ascii "weather"))]
        ⟨by rfl, by decide, by decide,
          ⟨by rfl, by decide, by decide,
            ⟨by show ValidUTF8 _; decide, trivial, trivial, trivial⟩, trivial⟩,
          by decide, by show ValidUTF8 _; decide, trivial⟩
        (by simp [Value.nesting, nestingMembers, nestingElems, maxNestingDepth])
    have hs : s = ascii
        "\x7b\"filter\":\x7b\"tags\":[\"a\",true,null]\x7d,\"query\":\"weather\"\x7d" := by
      have h2 : Marshal exampleLib (.mapIface [(ascii "filter",
            .mapIface [(ascii "tags", .slice [.string (ascii "a"), .bool true, .nil])]),
          (ascii "query", .string (ascii "weather"))] : Value GoString)
          = .ok (ascii
            "\x7b\"filter\":\x7b\"tags\":[\"a\",true,null]\x7d,\"query\":\"weather\"\x7d") := by
        rfl
      rw [h2] at h1
      injection h1 with h1
      exact h1.symm
    subst hs
    exact ⟨h1, h3⟩

/-- C3 as stated fails.  The empty `map[string]int` has the JSON encoding `{}`; passed as a
mapping to `search_services` it is refused as an invalid parameter type and nothing is
sent, passed as the string `{}` it is decoded and the search request is sent.  A
`map[string]string` differs too when a value is not valid UTF-8: the mapping with `query`
the single byte `0xFF` has the JSON encoding `{"query":"\ufffd"}`; passed as a mapping the
request's query is `query=%FF`, passed as that string it is `query=%EF%BF%BD`.  So does the
nil `map[string]string`, encoded as `null`, on an endpoint with a query of its own: passed
as a mapping the query is left as it stands, passed as `null` it is encoded afresh.  And so
does a `map[string]interface{}` that holds a nil map: under `q` the mapping prints `map[]`,
the decoded string `<nil>`. -/
theorem CallTool_typed_map_rejected :
    Marshal exampleLib (Value.mapInt [] : Value GoString) = .ok (ascii "\x7b\x7d")
    ∧ ((NewTools ⟨ascii "KEY", 1⟩).CallTool exampleLib (fun _ => .ok ⟨200, ascii "[]", none⟩)
        (ascii "search_services") (.mapInt [])).result
      = .error (ascii "invalid parameter type for search_services")
    ∧ ((NewTools ⟨ascii "KEY", 1⟩).CallTool exampleLib (fun _ => .ok ⟨200, ascii "[]", none⟩)
        (ascii "search_services") (.mapInt [])).sent = []
    ∧ ((NewTools ⟨ascii "KEY", 1⟩).CallTool exampleLib (fun _ => .ok ⟨200, ascii "[]", none⟩)
        (ascii "search_services") (.string (ascii "\x7b\x7d"))).result = .ok (.slice [])
    ∧ ((NewTools ⟨ascii "KEY", 1⟩).CallTool exampleLib (fun _ => .ok ⟨200, ascii "[]", none⟩)
        (ascii "search_services") (.string (ascii "\x7b\x7d"))).sent.map (fun r => (r.Method, r.URL))
      = [(ascii "GET", ascii "https://backend.unifai.network/api/v1/actions/search")]
    ∧ Marshal exampleLib (Value.mapString [(ascii "query", [0xFF])] : Value GoString)
      = .ok (ascii "\x7b\"query\":\"\\ufffd\"\x7d")
    ∧ ((NewTools ⟨ascii "KEY", 1⟩).CallTool exampleLib (fun _ => .ok ⟨200, ascii "[]", none⟩)
        (ascii "search_services") (.mapString [(ascii "query", [0xFF])])).sent.map (fun r => r.URL)
      = [ascii "https://backend.unifai.network/api/v1/actions/search?query=%FF"]
    ∧ ((NewTools ⟨ascii "KEY", 1⟩).CallTool exampleLib (fun _ => .ok ⟨200, ascii "[]", none⟩)
        (ascii "search_services")
        (.string (ascii "\x7b\"query\":\"\\ufffd\"\x7d"))).sent.map (fun r => r.URL)
      = [ascii "https://backend.unifai.network/api/v1/actions/search?query=%EF%BF%BD"]
    ∧ Marshal exampleLib (Value.nilMapString : Value GoString) = .ok (ascii "null")
    ∧ (((NewTools ⟨ascii "KEY", 1⟩).SetAPIEndpoint (ascii "http://h/api?x=1&b=2")).CallTool
        exampleLib (fun _ => .ok ⟨200, ascii "[]", none⟩)
        (ascii "search_services") .nilMapString).sent.map (fun r => r.URL)
      = [ascii "http://h/api?x=1&b=2/actions/search"]
    ∧ (((NewTools ⟨ascii "KEY", 1⟩).SetAPIEndpoint (ascii "http://h/api?x=1&b=2")).CallTool
        exampleLib (fun _ => .ok ⟨200, ascii "[]", none⟩)
        (ascii "search_services") (.string (ascii "null"))).sent.map (fun r => r.URL)
      = [ascii "http://h/api?b=2%2Factions%2Fsearch&x=1"]
    ∧ Marshal exampleLib (Value.mapIface [(ascii "q", .nilMapIface)] : Value GoString)
      = .ok (ascii "\x7b\"q\":null\x7d")
    ∧ ((NewTools ⟨ascii "KEY", 1⟩).CallTool exampleLib (fun _ => .ok ⟨200, ascii "[]", none⟩)
        (ascii "search_services") (.mapIface [(ascii "q", .nilMapIface)])).sent.map
          (fun r => r.URL)
      = [ascii "https://backend.unifai.network/api/v1/actions/search?q=map%5B%5D"]
    ∧ ((NewTools ⟨ascii "KEY", 1⟩).CallTool exampleLib (fun _ => .ok ⟨200, ascii "[]", none⟩)
        (ascii "search_services") (.string (ascii "\x7b\"q\":null\x7d"))).sent.map
          (fun r => r.URL)
      = [ascii "https://backend.unifai.network/api/v1/actions/search?q=%3Cnil%3E"] := by
  refine ⟨by rfl, by rfl, by rfl, by rfl, by rfl, by rfl, by rfl, by rfl, by rfl, by rfl,
    by rfl, by rfl, by rfl, by rfl⟩

end Unifai
